import Mathlib

/-!
# io-da/schedule: the cron next-occurrence engine

A shallow embedding of the Go package `schedule` (field constraints, the calendar
helper `AttunedMonth`, the expression builder and the cursor `CronInstance`) and
theorems about it.

Conventions of the embedding.

* Go `int`/`int64` values are `Int`, meant in the 64-bit range.  Go's `/` and `%`
  truncate toward zero, so they are `Int.tdiv` and `Int.tmod`.  The arithmetic of the
  interval iterator, of the calendar helper and of the nanoseconds passed to
  `time.Date` wraps around as in Go (`wrapInt`); comparisons are exact.
* A Go call either returns or panics; a loop of the model additionally carries a
  budget.  `Res` records the three outcomes.
* `Expression` is Go's empty interface restricted to the dynamic types the
  package inspects: the nil interface, `int`, `time.Month`, `time.Weekday`,
  `*BetweenExpression` and `*ListExpression`.
* `Time` is a `time.Time` as the wall-clock reading of its accessors in its location,
  with the offset in effect; `Before`, `Equal` and `IsZero` compare instants.  A
  `Location` is an offset and the transitions to later offsets, and `timeDate` follows
  the zone adjustment of `time.Date`; the carrying inside `time.Date` is exact.
* Pointers are values: a cursor holds the resolved expression it was created
  from.
-/

namespace Schedule

/-! ## Results of Go calls -/

/-- Outcome of a Go call: a returned value, a run-time panic, or (model only) an
exhausted loop budget. -/
inductive Res (α : Type) where
  | ok (a : α)
  | panic
  | outOfFuel
  deriving DecidableEq, Repr

/-- Sequencing of calls: the first failure is the failure of the whole. -/
def Res.bind {α β : Type} (r : Res α) (f : α → Res β) : Res β :=
  match r with
  | .ok a => f a
  | .panic => .panic
  | .outOfFuel => .outOfFuel

instance : Monad Res where
  pure := Res.ok
  bind := Res.bind

/-! ## Machine integers -/

/-- Go: the value an `int` or `int64` (64 bits, two's complement) holds after an
arithmetic operation whose exact result is `a`: the result wraps around. -/
def wrapInt (a : Int) : Int :=
  (a + 9223372036854775808) % 18446744073709551616 - 9223372036854775808

/-! ## units.go -/

/-- Go: `validateMillisecond`; `panic` stands for the Go panic. -/
def validateMillisecond (t : Int) : Res Unit :=
  if t < 0 ∨ t > 999 then .panic else .ok ()

/-- Go: `validateSecond`. -/
def validateSecond (t : Int) : Res Unit :=
  if t < 0 ∨ t > 59 then .panic else .ok ()

/-- Go: `validateMinute`. -/
def validateMinute (t : Int) : Res Unit :=
  if t < 0 ∨ t > 59 then .panic else .ok ()

/-- Go: `validateHour`. -/
def validateHour (t : Int) : Res Unit :=
  if t < 0 ∨ t > 23 then .panic else .ok ()

/-- Go: `validateDay`. -/
def validateDay (t : Int) : Res Unit :=
  if t < 1 ∨ t > 31 then .panic else .ok ()

/-- Go: `validateWeekday`. -/
def validateWeekday (t : Int) : Res Unit :=
  if t < 0 ∨ t > 6 then .panic else .ok ()

/-- Go: `validateMonth`. -/
def validateMonth (t : Int) : Res Unit :=
  if t < 1 ∨ t > 12 then .panic else .ok ()

/-- Go: `validateYear`. -/
def validateYear (t : Int) : Res Unit :=
  if t < 1970 ∨ t > 200000000 then .panic else .ok ()

/-! ## between_expression.go -/

/-- Go: `BetweenExpression`. -/
structure BetweenExpression where
  x : Int
  y : Int
  step : Int
  deriving DecidableEq, Repr

/-- Go: `Between`. -/
def Between (x y : Int) : Res BetweenExpression :=
  if x > y then .panic else .ok { x := x, y := y, step := 1 }

/-- Go: `BetweenMilliseconds`. -/
def BetweenMilliseconds (x y : Int) : Res BetweenExpression := do
  validateMillisecond x
  validateMillisecond y
  Between x y

/-- Go: `BetweenSeconds`. -/
def BetweenSeconds (x y : Int) : Res BetweenExpression := do
  validateSecond x
  validateSecond y
  Between x y

/-- Go: `BetweenMinutes`. -/
def BetweenMinutes (x y : Int) : Res BetweenExpression := do
  validateMinute x
  validateMinute y
  Between x y

/-- Go: `BetweenHours`. -/
def BetweenHours (x y : Int) : Res BetweenExpression := do
  validateHour x
  validateHour y
  Between x y

/-- Go: `BetweenDays`. -/
def BetweenDays (x y : Int) : Res BetweenExpression := do
  validateDay x
  validateDay y
  Between x y

/-- Go: `BetweenWeekdays`; the `time.Weekday` arguments are given by their numbers. -/
def BetweenWeekdays (x y : Int) : Res BetweenExpression := do
  validateWeekday x
  validateWeekday y
  Between x y

/-- Go: `BetweenMonths`; the `time.Month` arguments are given by their numbers. -/
def BetweenMonths (x y : Int) : Res BetweenExpression := do
  validateMonth x
  validateMonth y
  Between x y

/-- Go: `BetweenYears`. -/
def BetweenYears (x y : Int) : Res BetweenExpression := do
  validateYear x
  validateYear y
  Between x y

/-- Go: `(*BetweenExpression).Every`. -/
def BetweenExpression.Every (exp : BetweenExpression) (s : Int) : Res BetweenExpression :=
  if s < 1 then .panic else .ok { exp with step := s }

/-- Go: `(*BetweenExpression).Next`.  The remainder by a zero step is Go's
integer-divide-by-zero panic; the subtractions and the addition are `int` operations
and wrap around. -/
def BetweenExpression.Next (exp : BetweenExpression) (frm : Int) (inc : Bool) : Res (Int × Bool) :=
  if frm < exp.x ∨ (inc = true ∧ frm = exp.x) then .ok (exp.x, false)
  else if frm ≥ exp.y then .ok (exp.y, true)
  else if exp.step = 0 then .panic
  else
    let diff := wrapInt (exp.step - (wrapInt (frm - exp.x)).tmod exp.step)
    let diff := if inc = true ∧ diff = exp.step then 0 else diff
    let next := wrapInt (frm + diff)
    if next ≥ exp.y then .ok (exp.y, true) else .ok (next, false)

/-- Go: `(*BetweenExpression).Contains`; the subtractions are `int` operations and wrap
around. -/
def BetweenExpression.Contains (exp : BetweenExpression) (val : Int) : Res Bool :=
  if val < exp.x ∨ val > exp.y then .ok false
  else if val = exp.x ∨ val = exp.y then .ok true
  else if exp.step = 0 then .panic
  else .ok (decide (wrapInt (exp.step - (wrapInt (val - exp.x)).tmod exp.step) = exp.step))

/-! ## list_expression.go -/

/-- Go: `ListExpression`. -/
structure ListExpression where
  values : List Int
  deriving DecidableEq, Repr

/-- Go: `List` (renamed, `List` being Lean's list type); `sort.Ints` is an ascending
sort. -/
def ListOf (values : List Int) : Res ListExpression :=
  if values.length < 1 then .panic
  else .ok { values := values.insertionSort (· ≤ ·) }

/-- Validation loop of the `List*` constructors: the first invalid value panics. -/
def validateAll (validate : Int → Res Unit) : List Int → Res Unit
  | [] => .ok ()
  | v :: vs => do
    validate v
    validateAll validate vs

/-- Go: `ListMilliseconds`. -/
def ListMilliseconds (values : List Int) : Res ListExpression := do
  validateAll validateMillisecond values
  ListOf values

/-- Go: `ListSeconds`. -/
def ListSeconds (values : List Int) : Res ListExpression := do
  validateAll validateSecond values
  ListOf values

/-- Go: `ListMinutes`. -/
def ListMinutes (values : List Int) : Res ListExpression := do
  validateAll validateMinute values
  ListOf values

/-- Go: `ListHours`. -/
def ListHours (values : List Int) : Res ListExpression := do
  validateAll validateHour values
  ListOf values

/-- Go: `ListDays`. -/
def ListDays (values : List Int) : Res ListExpression := do
  validateAll validateDay values
  ListOf values

/-- Go: `ListWeekdays`; the `time.Weekday` arguments are given by their numbers. -/
def ListWeekdays (values : List Int) : Res ListExpression := do
  validateAll validateWeekday values
  ListOf values

/-- Go: `ListMonths`; the `time.Month` arguments are given by their numbers. -/
def ListMonths (values : List Int) : Res ListExpression := do
  validateAll validateMonth values
  ListOf values

/-- Go: `ListYears`. -/
def ListYears (values : List Int) : Res ListExpression := do
  validateAll validateYear values
  ListOf values

/-- The `for i, v := range exp.values` loop of `(*ListExpression).Next`, started at
index `i`: the first value that qualifies, with the flag `i == lastI`. -/
def ListExpression.scan (frm : Int) (inc : Bool) (lastI : Int) : List Int → Int → Option (Int × Bool)
  | [], _ => none
  | v :: vs, i =>
    if frm < v ∨ (inc = true ∧ frm = v) then some (v, decide (i = lastI))
    else ListExpression.scan frm inc lastI vs (i + 1)

/-- Go: `(*ListExpression).Next`.  Indexing an empty slice panics. -/
def ListExpression.Next (exp : ListExpression) (frm : Int) (inc : Bool) : Res (Int × Bool) :=
  let lastI : Int := (exp.values.length : Int) - 1
  match exp.values.getLast? with
  | none => .panic
  | some lastV =>
    if frm < lastV then
      match ListExpression.scan frm inc lastI exp.values 0 with
      | some r => .ok r
      | none => .ok (lastV, true)
    else .ok (lastV, true)

/-- Go: `(*ListExpression).Contains`. -/
def ListExpression.Contains (exp : ListExpression) (val : Int) : Res Bool :=
  match exp.values.head?, exp.values.getLast? with
  | some firstV, some lastV =>
    if val < firstV ∨ val > lastV then .ok false
    else .ok (exp.values.any (fun v => decide (val = v)))
  | _, _ => .panic

/-! ## expression.go -/

/-- Go: `Expression`, the empty interface, by dynamic type. -/
inductive Expression where
  | nil
  | int (v : Int)
  | month (v : Int)
  | weekday (v : Int)
  | between (e : BetweenExpression)
  | list (e : ListExpression)
  deriving DecidableEq, Repr

/-! ## attuned_month.go -/

/-- Go: `secondsPerDay`. -/
def secondsPerDay : Int := 24 * 60 * 60

/-- Go: `firstWeekDay`. -/
def firstWeekDay : Int := secondsPerDay * 4

/-- Go: `secondsBeforeUnix`; the operands are positive constants. -/
def secondsBeforeUnix : Int := (1969 * 365 + 1969 / 4 - 1969 / 100 + 1969 / 400) * secondsPerDay

/-- Go: `daysPerMonth`. -/
def daysPerMonth : List Int :=
  [ 0,
    31,
    31 + 28,
    31 + 28 + 31,
    31 + 28 + 31 + 30,
    31 + 28 + 31 + 30 + 31,
    31 + 28 + 31 + 30 + 31 + 30,
    31 + 28 + 31 + 30 + 31 + 30 + 31,
    31 + 28 + 31 + 30 + 31 + 30 + 31 + 31,
    31 + 28 + 31 + 30 + 31 + 30 + 31 + 31 + 30,
    31 + 28 + 31 + 30 + 31 + 30 + 31 + 31 + 30 + 31,
    31 + 28 + 31 + 30 + 31 + 30 + 31 + 31 + 30 + 31 + 30,
    31 + 28 + 31 + 30 + 31 + 30 + 31 + 31 + 30 + 31 + 30 + 31 ]

/-- Indexing `daysPerMonth[i]`; an index outside the array panics. -/
def daysPerMonthAt (i : Int) : Res Int :=
  if i < 0 then .panic
  else
    match daysPerMonth.get? i.toNat with
    | some v => .ok v
    | none => .panic

/-- Go: `AttunedMonth`. -/
structure AttunedMonth where
  y : Int
  mon : Int
  unixYear : Int
  unixMonth : Int
  isLeap : Bool
  lastDay : Int
  deriving DecidableEq, Repr

/-- Go: `(*AttunedMonth).determineUnixYear`; every `int` and `int64` operation wraps
around. -/
def AttunedMonth.determineUnixYear (my : AttunedMonth) : AttunedMonth :=
  let y := wrapInt (my.y - 1)
  let days := wrapInt (wrapInt (wrapInt (wrapInt (y * 365) + y.tdiv 4) - y.tdiv 100) + y.tdiv 400)
  { my with unixYear := wrapInt (wrapInt (days * secondsPerDay) - secondsBeforeUnix) }

/-- Go: `(*AttunedMonth).determineIsLeap`. -/
def AttunedMonth.determineIsLeap (my : AttunedMonth) : AttunedMonth :=
  { my with isLeap := decide (my.y.tmod 4 = 0 ∧ (my.y.tmod 100 ≠ 0 ∨ my.y.tmod 400 = 0)) }

/-- Go: `(*AttunedMonth).determineUnixMonth`. -/
def AttunedMonth.determineUnixMonth (my : AttunedMonth) : Res AttunedMonth := do
  let d ← daysPerMonthAt (my.mon - 1)
  let d := if my.isLeap = true ∧ my.mon > 2 then d + 1 else d
  pure { my with unixMonth := wrapInt (my.unixYear + wrapInt (d * secondsPerDay)) }

/-- Go: `(*AttunedMonth).determineLastDay`. -/
def AttunedMonth.determineLastDay (my : AttunedMonth) : Res AttunedMonth :=
  if my.isLeap = true ∧ my.mon = 2 then pure { my with lastDay := 29 }
  else do
    let a ← daysPerMonthAt my.mon
    let b ← daysPerMonthAt (my.mon - 1)
    pure { my with lastDay := a - b }

/-- Go: `(*AttunedMonth).UpdateMonth`. -/
def AttunedMonth.UpdateMonth (my : AttunedMonth) (mon : Int) : Res AttunedMonth :=
  if my.mon ≠ mon then do
    let my := { my with mon := mon }
    let my ← my.determineUnixMonth
    my.determineLastDay
  else pure my

/-- Go: `(*AttunedMonth).UpdateMonthYear`. -/
def AttunedMonth.UpdateMonthYear (my : AttunedMonth) (mon y : Int) : Res AttunedMonth :=
  if my.y ≠ y ∨ my.mon ≠ mon then do
    let my := { my with mon := mon, y := y }
    let my := my.determineUnixYear
    let my := my.determineIsLeap
    let my ← my.determineUnixMonth
    my.determineLastDay
  else pure my

/-- Go: `NewAttunedMonth`, which updates the zero value `&AttunedMonth{}`. -/
def NewAttunedMonth (mon y : Int) : Res AttunedMonth :=
  AttunedMonth.UpdateMonthYear
    { y := 0, mon := 0, unixYear := 0, unixMonth := 0, isLeap := false, lastDay := 0 } mon y

/-- Go: `(*AttunedMonth).Month`, as the month number. -/
def AttunedMonth.Month (my : AttunedMonth) : Int := my.mon

/-- Go: `(*AttunedMonth).Year`. -/
def AttunedMonth.Year (my : AttunedMonth) : Int := my.y

/-- Go: `(*AttunedMonth).Contains`. -/
def AttunedMonth.Contains (my : AttunedMonth) (d : Int) : Bool :=
  decide (d ≥ 1 ∧ d ≤ my.lastDay)

/-- Go: `(*AttunedMonth).IsMonthLastDay`. -/
def AttunedMonth.IsMonthLastDay (my : AttunedMonth) (d : Int) : Bool :=
  decide (d = my.lastDay)

/-- Go: `(*AttunedMonth).MonthLastDay`. -/
def AttunedMonth.MonthLastDay (my : AttunedMonth) : Int := my.lastDay

/-- Go: `(*AttunedMonth).unixDay`. -/
def AttunedMonth.unixDay (my : AttunedMonth) (d : Int) : Int :=
  wrapInt (my.unixMonth + wrapInt (wrapInt (d - 1) * secondsPerDay))

/-- Go: `(*AttunedMonth).WeekDay`, as the weekday number (Sunday = 0). -/
def AttunedMonth.WeekDay (my : AttunedMonth) (d : Int) : Int :=
  ((wrapInt (my.unixDay d + firstWeekDay)).tdiv secondsPerDay).tmod 7

/-! ## time.Time and time.Location -/

/-- Leap years of the proleptic Gregorian calendar. -/
def isLeapYear (y : Int) : Bool :=
  decide (y % 4 = 0 ∧ (y % 100 ≠ 0 ∨ y % 400 = 0))

/-- Number of days of month `m` (1..12) of year `y`. -/
def daysIn (y m : Int) : Int :=
  if m = 2 then (if isLeapYear y = true then 29 else 28)
  else if m = 4 ∨ m = 6 ∨ m = 9 ∨ m = 11 then 30
  else 31

/-- Days from 0001-01-01 to the first of January of year `y`. -/
def daysBeforeYear (y : Int) : Int :=
  365 * (y - 1) + (y - 1) / 4 - (y - 1) / 100 + (y - 1) / 400

/-- Days from the first of January to the first of month `m` (1..12), in a common
year. -/
def daysBeforeMonthCommon (m : Int) : Int :=
  if m ≤ 1 then 0 else if m = 2 then 31 else if m = 3 then 59 else if m = 4 then 90
  else if m = 5 then 120 else if m = 6 then 151 else if m = 7 then 181
  else if m = 8 then 212 else if m = 9 then 243 else if m = 10 then 273
  else if m = 11 then 304 else 334

/-- Days from 1970-01-01 to the day `d` of month `m` of year `y` (negative before). -/
def dayNumber (y m d : Int) : Int :=
  daysBeforeYear y + daysBeforeMonthCommon m + (if isLeapYear y = true ∧ m > 2 then 1 else 0)
    + (d - 1) - 719162

/-- Go: `*time.Location`, as the offsets of the zone (seconds east of UTC): the offset in
effect before the first transition, and the transitions in ascending order, each with
the unix second it happens at and the offset in effect from then on.  A fixed-offset
zone, such as UTC, has no transition. -/
structure Location where
  offset : Int
  transitions : List (Int × Int)
  deriving DecidableEq, Repr

/-- Go: `time.UTC`. -/
def Location.UTC : Location := { offset := 0, transitions := [] }

/-- The search of `(*Location).lookup` through the transitions: `off` is in effect from
`start` on (`none`: from the beginning of time). -/
def Location.lookupFrom (sec : Int) : Int → Option Int → List (Int × Int) →
    Int × Option Int × Option Int
  | off, start, [] => (off, start, none)
  | off, start, (w, o) :: rest =>
    if sec < w then (off, start, some w) else Location.lookupFrom sec o (some w) rest

/-- Go: `(*Location).lookup`: the offset in effect at the unix second `sec`, and the
start and end of the period it is in effect for (`none`: unbounded). -/
def Location.lookup (l : Location) (sec : Int) : Int × Option Int × Option Int :=
  Location.lookupFrom sec l.offset none l.transitions

/-- Go: `time.Time`, as the wall-clock reading its accessors return in its location,
with the offset in effect at the instant (seconds east of UTC).  The instant is the
reading taken as UTC, less the offset. -/
structure Time where
  year : Int
  month : Int
  day : Int
  hour : Int
  minute : Int
  second : Int
  nanosecond : Int
  offset : Int := 0
  loc : Location := Location.UTC
  deriving DecidableEq, Repr

/-- The readings Go's accessors can return: a date of the calendar and a time of
day. -/
def Time.Valid (t : Time) : Prop :=
  1 ≤ t.month ∧ t.month ≤ 12 ∧ 1 ≤ t.day ∧ t.day ≤ daysIn t.year t.month ∧
  0 ≤ t.hour ∧ t.hour ≤ 23 ∧ 0 ≤ t.minute ∧ t.minute ≤ 59 ∧
  0 ≤ t.second ∧ t.second ≤ 59 ∧ 0 ≤ t.nanosecond ∧ t.nanosecond ≤ 999999999

instance (t : Time) : Decidable t.Valid := by
  unfold Time.Valid
  infer_instance

/-- Go: `Time.Unix`, the instant in seconds from 1970-01-01T00:00:00Z. -/
def Time.Unix (t : Time) : Int :=
  ((dayNumber t.year t.month t.day * 24 + t.hour) * 60 + t.minute) * 60 + t.second - t.offset

/-- Go: the zero `time.Time{}`, January 1 of year 1, 00:00:00 UTC. -/
def Time.zero : Time :=
  { year := 1, month := 1, day := 1, hour := 0, minute := 0, second := 0, nanosecond := 0 }

/-- Go: `Time.IsZero`: the instant is that of the zero value, in whatever location. -/
def Time.IsZero (t : Time) : Bool :=
  decide (t.Unix = Time.zero.Unix ∧ t.nanosecond = 0)

/-- Go: `Time.Before`, a comparison of instants. -/
def Time.Before (t u : Time) : Bool :=
  decide (t.Unix < u.Unix ∨ (t.Unix = u.Unix ∧ t.nanosecond < u.nanosecond))

/-- Go: `Time.Equal`, a comparison of instants. -/
def Time.Equal (t u : Time) : Bool :=
  decide (t.Unix = u.Unix ∧ t.nanosecond = u.nanosecond)

/-- Go: `Time.Weekday`, as a number (Sunday = 0); 1970-01-01 was a Thursday. -/
def Time.Weekday (t : Time) : Int :=
  (dayNumber t.year t.month t.day + 4) % 7

/-- The date of the day with number `n` (days from 1970-01-01), as year, month, day. -/
def civilOfDayNumber (n : Int) : Int × Int × Int :=
  let z := n + 719468
  let era := z / 146097
  let doe := z % 146097
  let yoe := (doe - doe / 1460 + doe / 36524 - doe / 146096) / 365
  let doy := doe - (365 * yoe + yoe / 4 - yoe / 100)
  let mp := (5 * doy + 2) / 153
  let d := doy - (153 * mp + 2) / 5 + 1
  let m := if mp < 10 then mp + 3 else mp - 9
  (yoe + era * 400 + (if m ≤ 2 then 1 else 0), m, d)

/-- Go: `time.Unix(sec, nsec).In(loc)`: the time of an instant in a location, read with
the offset in effect at the instant. -/
def Time.ofUnix (sec nsec : Int) (loc : Location) : Time :=
  let off := (loc.lookup sec).1
  let wall := sec + off
  let c := civilOfDayNumber (wall / 86400)
  let rest := wall % 86400
  { year := c.1, month := c.2.1, day := c.2.2, hour := rest / 3600,
    minute := rest % 3600 / 60, second := rest % 60, nanosecond := nsec,
    offset := off, loc := loc }

/-- Go: `time.Date`.  The arguments are normalised by carrying into the coarser units
and taken as UTC; the offset is looked up at that second and, if the second less the
offset falls outside the period found, looked up again there; the instant is the second
less the offset.  Arguments that already are a reading, at an instant where the offset
used is in effect, are the reading of the result; any others are read back from the
instant. -/
def timeDate (year month day hour min sec nsec : Int) (loc : Location) : Time :=
  let y := year + (month - 1) / 12
  let m := (month - 1) % 12 + 1
  let total := ((((dayNumber y m 1 + (day - 1)) * 24 + hour) * 60 + min) * 60 + sec) * 1000000000 + nsec
  let unix := total / 1000000000
  let ns := total % 1000000000
  let found := loc.lookup unix
  let offset :=
    if found.1 ≠ 0 then
      let utc := unix - found.1
      if (match found.2.1 with | some start => decide (utc < start) | none => false) = true ∨
         (match found.2.2 with | some stop => decide (utc ≥ stop) | none => false) = true
      then (loc.lookup utc).1 else found.1
    else found.1
  let instant := unix - offset
  let t : Time := { year := year, month := month, day := day, hour := hour, minute := min,
                    second := sec, nanosecond := nsec, offset := offset, loc := loc }
  if t.Valid ∧ (loc.lookup instant).1 = offset then t else Time.ofUnix instant ns loc

/-! ## errors.go -/

/-- Go: the error constants `CronOutdatedInvalidError` and `OutdatedError`. -/
inductive Error where
  | CronOutdatedInvalidError
  | OutdatedError
  deriving DecidableEq, Repr

/-- Go: the `Error()` methods of the two error types. -/
def Error.errorText : Error → String
  | .CronOutdatedInvalidError => "schedule: outdated or invalid CronExpression"
  | .OutdatedError => "schedule: outdated or invalid Schedule"

/-! ## cron_expression.go -/

/-- Go: `CronExpression`; `initialized` is the flag behind the pointer. -/
structure CronExpression where
  milliseconds : Expression
  seconds : Expression
  minutes : Expression
  hours : Expression
  days : Expression
  weekdays : Expression
  months : Expression
  years : Expression
  initialized : Nat
  deriving DecidableEq, Repr

/-- Go: `Cron`. -/
def Cron : CronExpression :=
  { milliseconds := .nil, seconds := .nil, minutes := .nil, hours := .nil, days := .nil,
    weekdays := .nil, months := .nil, years := .nil, initialized := 0 }

/-- Go: `(*CronExpression).reset`, a compare-and-swap of the flag from 1 to 0. -/
def CronExpression.reset (crn : CronExpression) : CronExpression :=
  if crn.initialized = 1 then { crn with initialized := 0 } else crn

/-- Go: `(*CronExpression).handleMillisecond`. -/
def CronExpression.handleMillisecond (crn : CronExpression) : CronExpression :=
  if crn.milliseconds = .nil then { crn with milliseconds := .int 0 } else crn

/-- Go: `(*CronExpression).handleSecond`. -/
def CronExpression.handleSecond (crn : CronExpression) : CronExpression :=
  let crn := if crn.seconds = .nil then { crn with seconds := .int 0 } else crn
  crn.handleMillisecond

/-- Go: `(*CronExpression).handleMinute`. -/
def CronExpression.handleMinute (crn : CronExpression) : CronExpression :=
  let crn := if crn.minutes = .nil then { crn with minutes := .int 0 } else crn
  crn.handleSecond

/-- Go: `(*CronExpression).handleHour`. -/
def CronExpression.handleHour (crn : CronExpression) : CronExpression :=
  let crn := if crn.hours = .nil then { crn with hours := .int 0 } else crn
  crn.handleMinute

/-- Go: `(*CronExpression).handleDay`. -/
def CronExpression.handleDay (crn : CronExpression) : CronExpression :=
  let crn := if crn.days = .nil then { crn with days := .int 1 } else crn
  crn.handleHour

/-- Go: `(*CronExpression).handleMonth`. -/
def CronExpression.handleMonth (crn : CronExpression) : CronExpression :=
  let crn := if crn.months = .nil then { crn with months := .int 1 } else crn
  crn.handleDay

/-- The guard `if exp, iOf := exp.(int); iOf` of the setters: only a bare `int` is
validated. -/
def validateIfInt (validate : Int → Res Unit) (exp : Expression) : Res Unit :=
  match exp with
  | .int v => validate v
  | _ => .ok ()

/-- Go: `(*CronExpression).OnMilliseconds`. -/
def CronExpression.OnMilliseconds (crn : CronExpression) (exp : Expression) : Res CronExpression := do
  validateIfInt validateMillisecond exp
  let crn := { crn with milliseconds := exp }
  pure crn.reset

/-- Go: `(*CronExpression).EveryMillisecond`. -/
def CronExpression.EveryMillisecond (crn : CronExpression) : Res CronExpression := do
  let b ← Between 0 999
  crn.OnMilliseconds (.between b)

/-- Go: `(*CronExpression).OnSeconds`. -/
def CronExpression.OnSeconds (crn : CronExpression) (exp : Expression) : Res CronExpression := do
  validateIfInt validateSecond exp
  let crn := { crn with seconds := exp }
  let crn := crn.handleMillisecond
  pure crn.reset

/-- Go: `(*CronExpression).EverySecond`. -/
def CronExpression.EverySecond (crn : CronExpression) : Res CronExpression := do
  let b ← Between 0 59
  crn.OnSeconds (.between b)

/-- Go: `(*CronExpression).OnMinutes`. -/
def CronExpression.OnMinutes (crn : CronExpression) (exp : Expression) : Res CronExpression := do
  validateIfInt validateMinute exp
  let crn := { crn with minutes := exp }
  let crn := crn.handleSecond
  pure crn.reset

/-- Go: `(*CronExpression).EveryMinute`. -/
def CronExpression.EveryMinute (crn : CronExpression) : Res CronExpression := do
  let b ← Between 0 59
  crn.OnMinutes (.between b)

/-- Go: `(*CronExpression).OnHours`. -/
def CronExpression.OnHours (crn : CronExpression) (exp : Expression) : Res CronExpression := do
  validateIfInt validateHour exp
  let crn := { crn with hours := exp }
  let crn := crn.handleMinute
  pure crn.reset

/-- Go: `(*CronExpression).EveryHour`. -/
def CronExpression.EveryHour (crn : CronExpression) : Res CronExpression := do
  let b ← Between 0 23
  crn.OnHours (.between b)

/-- Go: `(*CronExpression).OnDays`. -/
def CronExpression.OnDays (crn : CronExpression) (exp : Expression) : Res CronExpression := do
  validateIfInt validateDay exp
  let crn := { crn with days := exp }
  let crn := crn.handleHour
  pure crn.reset

/-- Go: `(*CronExpression).EveryDay`. -/
def CronExpression.EveryDay (crn : CronExpression) : Res CronExpression := do
  let b ← Between 1 31
  crn.OnDays (.between b)

/-- Go: `(*CronExpression).OnWeekdays`. -/
def CronExpression.OnWeekdays (crn : CronExpression) (exp : Expression) : Res CronExpression := do
  validateIfInt validateWeekday exp
  let crn := { crn with weekdays := exp }
  let crn := crn.handleHour
  pure crn.reset

/-- Go: `(*CronExpression).OnMonths`. -/
def CronExpression.OnMonths (crn : CronExpression) (exp : Expression) : Res CronExpression := do
  validateIfInt validateMonth exp
  let crn := { crn with months := exp }
  let crn := crn.handleDay
  pure crn.reset

/-- Go: `(*CronExpression).EveryMonth`. -/
def CronExpression.EveryMonth (crn : CronExpression) : Res CronExpression := do
  let b ← BetweenMonths 1 12
  crn.OnMonths (.between b)

/-- Go: `(*CronExpression).OnYears`. -/
def CronExpression.OnYears (crn : CronExpression) (exp : Expression) : Res CronExpression := do
  validateIfInt validateYear exp
  let crn := { crn with years := exp }
  let crn := crn.handleMonth
  pure crn.reset

/-- Go: `(*CronExpression).ensureSeconds`. -/
def CronExpression.ensureSeconds (crn : CronExpression) : Res CronExpression :=
  if crn.seconds = .nil then do
    let b ← BetweenSeconds 0 59
    pure { crn with seconds := .between b }
  else pure crn

/-- Go: `(*CronExpression).ensureMinutes`. -/
def CronExpression.ensureMinutes (crn : CronExpression) : Res CronExpression :=
  if crn.minutes = .nil then do
    let b ← BetweenMinutes 0 59
    pure { crn with minutes := .between b }
  else pure crn

/-- Go: `(*CronExpression).ensureHours`. -/
def CronExpression.ensureHours (crn : CronExpression) : Res CronExpression :=
  if crn.hours = .nil then do
    let b ← BetweenHours 0 23
    pure { crn with hours := .between b }
  else pure crn

/-- Go: `(*CronExpression).ensureDays`. -/
def CronExpression.ensureDays (crn : CronExpression) : Res CronExpression :=
  if crn.days = .nil then do
    let b ← BetweenDays 1 31
    pure { crn with days := .between b }
  else pure crn

/-- Go: `(*CronExpression).ensureWeekdays`. -/
def CronExpression.ensureWeekdays (crn : CronExpression) : Res CronExpression :=
  if crn.weekdays = .nil then do
    let b ← BetweenWeekdays 0 6
    pure { crn with weekdays := .between b }
  else pure crn

/-- Go: `(*CronExpression).ensureMonths`. -/
def CronExpression.ensureMonths (crn : CronExpression) : Res CronExpression :=
  if crn.months = .nil then do
    let b ← BetweenMonths 1 12
    pure { crn with months := .between b }
  else pure crn

/-- Go: `(*CronExpression).ensureYears`. -/
def CronExpression.ensureYears (crn : CronExpression) : Res CronExpression :=
  if crn.years = .nil then do
    let b ← BetweenYears 1970 200000000
    pure { crn with years := .between b }
  else pure crn

/-- Go: `(*CronExpression).initialize`; the compare-and-swap of the flag from 0 to 1
guards the filling of the defaults. -/
def CronExpression.initialize (crn : CronExpression) : Res CronExpression :=
  if crn.initialized = 0 then do
    let crn := { crn with initialized := 1 }
    let crn ← crn.ensureSeconds
    let crn ← crn.ensureMinutes
    let crn ← crn.ensureHours
    let crn ← crn.ensureDays
    let crn ← crn.ensureWeekdays
    let crn ← crn.ensureMonths
    crn.ensureYears
  else pure crn

/-- Go: `next`.  The final `exp.(int)` is a type assertion: any dynamic type other
than an iterator, `time.Month` or `int` panics. -/
def next (exp : Expression) (frm : Int) (inc : Bool) : Res (Int × Bool) :=
  match exp with
  | .between e => e.Next frm inc
  | .list e => e.Next frm inc
  | .month v => .ok (v, true)
  | .int v => .ok (v, true)
  | _ => .panic

/-- Go: `(*CronExpression).containsWeekday`; the final `crn.weekdays.(time.Weekday)`
is a type assertion. -/
def CronExpression.containsWeekday (crn : CronExpression) (wd : Int) : Res Bool :=
  match crn.weekdays with
  | .between e => e.Contains wd
  | .list e => e.Contains wd
  | .weekday v => .ok (decide (v = wd))
  | _ => .panic

/-! ## cron_instance.go -/

/-- Go: `CronInstance`. -/
structure CronInstance where
  crn : CronExpression
  following : Time
  location : Location
  ms : Int
  s : Int
  min : Int
  h : Int
  d : Int
  lastD : Bool
  am : AttunedMonth
  err : Option Error
  deriving DecidableEq, Repr

/-- Go: `(*CronExpression).NewInstance`. -/
def CronExpression.NewInstance (crn : CronExpression) (frm : Time) : Res CronInstance := do
  let crn ← crn.initialize
  let am ← NewAttunedMonth frm.month frm.year
  pure { crn := crn, following := frm, location := frm.loc,
         ms := frm.nanosecond.tdiv 1000000, s := frm.second,
         min := frm.minute, h := frm.hour, d := frm.day, lastD := false, am := am, err := none }

/-- Go: `(*CronInstance).Following`. -/
def CronInstance.Following (crnI : CronInstance) : Time := crnI.following

/-- Go: `(*CronInstance).nextDay`.  The `||` chain is evaluated left to right and
stops at the first true operand, so the weekday is asked for only when the three
earlier tests pass. -/
def CronInstance.nextDay (crnI : CronInstance) (fromD : Int) (inc : Bool) : Res (Int × Bool × Bool) := do
  let (d, last) ← next crnI.crn.days fromD inc
  let last := last || crnI.am.IsMonthLastDay d
  if d < fromD ∨ (inc = false ∧ d = fromD) ∨ crnI.am.Contains d = false then
    pure (d, last, true)
  else do
    let w ← crnI.crn.containsWeekday (crnI.am.WeekDay d)
    pure (d, last, !w)

/-- Go: `(*CronInstance).nextMonY`. -/
def CronInstance.nextMonY (crnI : CronInstance) (inc : Bool) : Res (Bool × CronInstance) := do
  let fromMon := crnI.am.mon
  let fromY := crnI.am.y
  let (nextMon, _) ← next crnI.crn.months fromMon inc
  let (nextY, _) ← next crnI.crn.years fromY
    (decide (nextMon > fromMon ∨ (inc = true ∧ nextMon = fromMon)))
  if nextY ≠ fromY then do
    let (nextMon, _) ← next crnI.crn.months 1 true
    let am ← crnI.am.UpdateMonthYear nextMon nextY
    pure (true, { crnI with am := am })
  else do
    let am ← crnI.am.UpdateMonth nextMon
    pure (decide (nextMon ≠ fromMon), { crnI with am := am })

/-- The `for invalid` loop of `(*CronInstance).nextD`, with the loop variables `inc`
and `reset` and a budget of iterations.  The difference `crnI.am.y - fromY` of the two
years is taken exactly: it overflows only for years beyond any that a `time.Time` or a
validated year field holds. -/
def CronInstance.nextDLoop (fromD fromY : Int) : Nat → CronInstance → Bool → Bool → Res (Bool × CronInstance)
  | 0, _, _, _ => .outOfFuel
  | fuel + 1, crnI, inc, reset => do
    let (d, last, invalid) ← crnI.nextDay crnI.d inc
    let crnI := { crnI with d := d }
    if invalid = true ∧ last = true then do
      let (reset, crnI) ← crnI.nextMonY false
      if reset = false ∨ crnI.am.y - fromY > 400 then
        pure (false, { crnI with err := some Error.CronOutdatedInvalidError })
      else CronInstance.nextDLoop fromD fromY fuel { crnI with d := 1 } true reset
    else if invalid = true then CronInstance.nextDLoop fromD fromY fuel crnI false reset
    else pure (reset || decide (crnI.d ≠ fromD), crnI)

/-- Budget of the day-search loop: more iterations than any search over the 400
years needs (35 for each of the at most 12 * 401 months and for the first). -/
def nextDBudget : Nat := 35 * (12 * 401 + 1)

/-- Go: `(*CronInstance).nextD`. -/
def CronInstance.nextD (crnI : CronInstance) (inc : Bool) : Res (Bool × CronInstance) := do
  let fromD := crnI.d
  let fromY := crnI.am.y
  let (reset, crnI) ← crnI.nextMonY true
  if reset = true then
    CronInstance.nextDLoop fromD fromY nextDBudget { crnI with d := 1 } true reset
  else
    CronInstance.nextDLoop fromD fromY nextDBudget crnI inc reset

/-- Go: `(*CronInstance).nextH`. -/
def CronInstance.nextH (crnI : CronInstance) (inc : Bool) : Res (Bool × CronInstance) := do
  let fromH := crnI.h
  let (h, _) ← next crnI.crn.hours fromH inc
  let crnI := { crnI with h := h }
  let (r, crnI) ← crnI.nextD (decide (crnI.h > fromH ∨ (inc = true ∧ crnI.h = fromH)))
  if r = true then do
    let (h, _) ← next crnI.crn.hours 0 true
    pure (true, { crnI with h := h })
  else pure (decide (crnI.h ≠ fromH), crnI)

/-- Go: `(*CronInstance).nextMin`. -/
def CronInstance.nextMin (crnI : CronInstance) (inc : Bool) : Res (Bool × CronInstance) := do
  let fromMin := crnI.min
  let (m, _) ← next crnI.crn.minutes fromMin inc
  let crnI := { crnI with min := m }
  let (r, crnI) ← crnI.nextH (decide (crnI.min > fromMin ∨ (inc = true ∧ crnI.min = fromMin)))
  if r = true then do
    let (m, _) ← next crnI.crn.minutes 0 true
    pure (true, { crnI with min := m })
  else pure (decide (crnI.min ≠ fromMin), crnI)

/-- Go: `(*CronInstance).nextS`. -/
def CronInstance.nextS (crnI : CronInstance) (inc : Bool) : Res (Bool × CronInstance) := do
  let fromS := crnI.s
  let (s, _) ← next crnI.crn.seconds fromS inc
  let crnI := { crnI with s := s }
  let (r, crnI) ← crnI.nextMin (decide (crnI.s > fromS ∨ (inc = true ∧ crnI.s = fromS)))
  if r = true then do
    let (s, _) ← next crnI.crn.seconds 0 true
    pure (true, { crnI with s := s })
  else pure (decide (crnI.s ≠ fromS), crnI)

/-- Go: `(*CronInstance).nextMs`. -/
def CronInstance.nextMs (crnI : CronInstance) : Res CronInstance := do
  let fromMs := crnI.ms
  let (ms, _) ← next crnI.crn.milliseconds fromMs false
  let crnI := { crnI with ms := ms }
  let (r, crnI) ← crnI.nextS (decide (crnI.ms > fromMs))
  if r = true then do
    let (ms, _) ← next crnI.crn.milliseconds 0 true
    pure { crnI with ms := ms }
  else pure crnI

/-- Go: `(*CronInstance).Next`.  The result is the cursor after the call and the
returned error (`none` for Go's nil). -/
def CronInstance.Next (crnI : CronInstance) : Res (CronInstance × Option Error) := do
  let crnI ← crnI.nextMs
  match crnI.err with
  | some e => pure (crnI, some e)
  | none =>
    let d := timeDate crnI.am.Year crnI.am.Month crnI.d crnI.h crnI.min crnI.s
      (wrapInt (crnI.ms * 1000000)) crnI.location
    if crnI.following.IsZero = false ∧ d.Before crnI.following = true then
      pure (crnI, some Error.CronOutdatedInvalidError)
    else pure ({ crnI with following := d }, none)

/-- Go (test helper): `(*CronInstance).advanceX`, which calls `Next` up to `times`
times and stops at the first error; the result is the cursor with that error, or
with `none`. -/
def CronInstance.advanceX (crnI : CronInstance) : Nat → Res (CronInstance × Option Error)
  | 0 => .ok (crnI, none)
  | times + 1 => do
    let (crnI, err) ← crnI.Next
    match err with
    | some e => pure (crnI, some e)
    | none => crnI.advanceX times

/-! ## schedule.go -/

set_option linter.dupNamespace false

/-- Go: `Schedule`; the field `ats` is Go's `at`, and `none` stands for a nil pointer. -/
structure Schedule where
  ats : List Time
  crn : Option CronExpression
  crnI : Option CronInstance
  followingIndex : Int
  deriving DecidableEq, Repr

/-- The `for i, t := range at` loop of `At`: every instant must come after
`currentTime`, which starts as the zero instant and then is the instant before. -/
def atLoop (currentTime : Time) : List Time → Res Unit
  | [] => .ok ()
  | t :: ts =>
    if t.Before currentTime = true ∨ t.Equal currentTime = true then .panic
    else atLoop t ts

/-- Go: `At`. -/
def At (ats : List Time) : Res Schedule :=
  if ats.length = 0 then .panic
  else do
    atLoop Time.zero ats
    pure { ats := ats, crn := none, crnI := none, followingIndex := -1 }

/-- Go: `As`, with the reading of `time.Now()` as a parameter; the index keeps its zero
value. -/
def As (crn : CronExpression) (now : Time) : Res Schedule := do
  let crnI ← crn.NewInstance now
  pure { ats := [], crn := some crnI.crn, crnI := some crnI, followingIndex := 0 }

/-- Go: `(*Schedule).AddCron`. -/
def Schedule.AddCron (sch : Schedule) (crn : CronExpression) : Schedule :=
  { sch with crn := some crn }

/-- Indexing `sch.at[i]`; an index outside the slice panics. -/
def Schedule.atIndex (sch : Schedule) (i : Int) : Res Time :=
  if i < 0 then .panic
  else
    match sch.ats.get? i.toNat with
    | some t => .ok t
    | none => .panic

/-- Go: `(*Schedule).Next`.  The result is the schedule after the call and the returned
error.  `NewInstance` resolves the expression behind the pointer the schedule shares
with its cursor. -/
def Schedule.Next (sch : Schedule) : Res (Schedule × Option Error) :=
  if sch.followingIndex < (sch.ats.length : Int) - 1 then
    .ok ({ sch with followingIndex := sch.followingIndex + 1 }, none)
  else
    match sch.crn with
    | none => .ok (sch, some Error.OutdatedError)
    | some crn =>
      match sch.crnI with
      | none => do
        let frm ← sch.atIndex sch.followingIndex
        let crnI ← crn.NewInstance frm
        let sch := { sch with crn := some crnI.crn, followingIndex := sch.followingIndex + 1 }
        let (crnI, err) ← crnI.Next
        pure ({ sch with crnI := some crnI }, err)
      | some crnI => do
        let (crnI, err) ← crnI.Next
        pure ({ sch with crnI := some crnI }, err)

/-- Go: `(*Schedule).Following`; reading through a nil cursor panics. -/
def Schedule.Following (sch : Schedule) : Res Time :=
  if sch.followingIndex < 0 then .ok Time.zero
  else if sch.followingIndex < (sch.ats.length : Int) then sch.atIndex sch.followingIndex
  else
    match sch.crnI with
    | some crnI => .ok crnI.Following
    | none => .panic

/-! ## Vocabulary of the specification -/

/-- Membership of a value in a field constraint other than the weekday's: equality
with a bare value, `Contains` of an iterator. -/
def Expression.admits (e : Expression) (v : Int) : Bool :=
  match e with
  | .int w => decide (v = w)
  | .month w => decide (v = w)
  | .between b => decide (b.Contains v = .ok true)
  | .list l => decide (l.Contains v = .ok true)
  | _ => false

/-- Go: `math.MaxInt64`, the largest `int` of a 64-bit platform. -/
def maxInt : Int := 9223372036854775807

/-- Go: `math.MinInt64`, the least `int` of a 64-bit platform. -/
def minInt : Int := -9223372036854775808

/-- The interval is one of `int` values on which the arithmetic of `Next` and `Contains`
is exact: neither the difference `y - x` of the bounds nor the sum `y + step` of the upper
bound and the step overflows. -/
def BetweenExpression.Exact (b : BetweenExpression) : Prop :=
  minInt ≤ b.x ∧ b.y - b.x ≤ maxInt ∧ b.y + b.step ≤ maxInt + 1 ∧ b.step ≤ maxInt

instance (b : BetweenExpression) : Decidable b.Exact := by
  unfold BetweenExpression.Exact
  infer_instance

/-- Shape of a constraint made by the field-specific constructors for the domain
`lo..hi`: a bare `int` in the domain, `Between*(x, y)` with an optional `Every(step)`
of a step that does not overflow the upper bound, or `List*(values)`. -/
def Expression.WF (lo hi : Int) : Expression → Prop
  | .int v => lo ≤ v ∧ v ≤ hi
  | .between b => lo ≤ b.x ∧ b.x ≤ b.y ∧ b.y ≤ hi ∧ 1 ≤ b.step ∧ b.y + b.step ≤ maxInt
  | .list l => l.values ≠ [] ∧ l.values.Sorted (· ≤ ·) ∧ ∀ v ∈ l.values, lo ≤ v ∧ v ≤ hi
  | _ => False

/-- What the engine relies on in a field constraint over `lo..hi`: `next` returns a
member; it is the least member that qualifies when one does; otherwise, and
whenever the last-flag is set, it is the greatest member. -/
def Expression.Steps (e : Expression) (lo hi : Int) : Prop :=
  (∀ w, e.admits w = true → lo ≤ w ∧ w ≤ hi) ∧
  ∀ frm inc, ∃ v last, next e frm inc = .ok (v, last) ∧ e.admits v = true ∧
    (∀ w, e.admits w = true → (frm < w ∨ (inc = true ∧ frm = w)) → v ≤ w) ∧
    ((frm < v ∨ (inc = true ∧ frm = v)) ∨ last = true) ∧
    (last = true → ∀ w, e.admits w = true → w ≤ v)


/-- Coherence of the calendar cache: the month is one of the twelve and the cached
values are those of a fresh `NewAttunedMonth` for the month and year held. -/
def AttunedMonth.Coherent (my : AttunedMonth) : Prop :=
  1 ≤ my.mon ∧ my.mon ≤ 12 ∧ NewAttunedMonth my.mon my.y = .ok my


/-- The largest year for which the seconds of the helper fit the 64 bits with room
for a month and a day number of ordinary size. -/
def maxYear : Int := 290000000000

/-- The value `determineUnixYear` computes for the year `y`, wrap-around included. -/
def unixYearOf (y : Int) : Int :=
  wrapInt (wrapInt (wrapInt (wrapInt (wrapInt (wrapInt (wrapInt (y - 1) * 365)
    + (wrapInt (y - 1)).tdiv 4) - (wrapInt (y - 1)).tdiv 100) + (wrapInt (y - 1)).tdiv 400)
    * secondsPerDay) - secondsBeforeUnix)

/-- Closed form of `NewAttunedMonth` for a month in 1..12. -/
def amOf (mon y : Int) : AttunedMonth :=
  { y := y, mon := mon,
    unixYear := unixYearOf y,
    unixMonth := wrapInt (unixYearOf y
      + wrapInt ((daysBeforeMonthCommon mon + (if isLeapYear y = true ∧ mon > 2 then 1 else 0))
        * secondsPerDay)),
    isLeap := isLeapYear y,
    lastDay := daysIn y mon }


/-- A date that satisfies the year, month, day and weekday constraints and exists in
the calendar. -/
def DateOK (crn : CronExpression) (y m d : Int) : Prop :=
  crn.years.admits y = true ∧ crn.months.admits m = true ∧ crn.days.admits d = true ∧
  1 ≤ d ∧ d ≤ daysIn y m ∧ crn.containsWeekday ((dayNumber y m d + 4) % 7) = .ok true

/-- The date `ky-km-kd` comes after `y-m-d` in the calendar, or is that date when
`inc` allows it. -/
def After3 (y m d : Int) (inc : Bool) (ky km kd : Int) : Prop :=
  y < ky ∨ (y = ky ∧ m < km) ∨ (y = ky ∧ m = km ∧ (d < kd ∨ (inc = true ∧ d = kd)))

/-- Bound on the iterations the day search still needs from the date `y-m-d`: 35 for
each month that can still be visited, plus the days left in the month. -/
def measureOf (fromY y m d : Int) (inc : Bool) : Nat :=
  (if fromY ≤ y then ((fromY + 400 - y) * 12 + (12 - m)).toNat else (12 - m).toNat) * 35
  + (min 33 (32 - d).toNat + (if inc = true then 1 else 0))

/-- The bound `measureOf` at the state of the cursor. -/
def loopMeasure (fromY : Int) (c : CronInstance) (inc : Bool) : Nat :=
  measureOf fromY c.am.y c.am.mon c.d inc

/-- A key qualifies after `k0`: it is later, or it is `k0` when `inc` allows it. -/
def Qual {κ : Type} [LinearOrder κ] (k0 : κ) (inc : Bool) (k : κ) : Prop :=
  k0 < k ∨ (inc = true ∧ k0 = k)

/-- Contract of one level of the carry chain.  `key` reads the fields of the level
and of the coarser ones, `V` says which keys satisfy their constraints, `far` which
keys lie beyond the search bound of the call, `proj` reads the finer fields.  A call
returns and leaves the expression, `Following` and the finer fields alone; either it
records the error and every admitted key that qualifies is far, or it stops on the
least admitted key that qualifies and reports whether the key changed, or it stops
on an admitted key before the one held while every admitted key is before it. -/
def StepOK {κ π : Type} [LinearOrder κ] (crn : CronExpression) (key : CronInstance → κ)
    (V : κ → Prop) (far : CronInstance → κ → Prop) (proj : CronInstance → π)
    (f : CronInstance → Bool → Res (Bool × CronInstance)) : Prop :=
  ∀ c inc, c.crn = crn → c.am.Coherent →
    ∃ b c2, f c inc = .ok (b, c2) ∧ c2.crn = crn ∧ c2.am.Coherent ∧
      c2.following = c.following ∧ proj c2 = proj c ∧
      ((c2.err = some Error.CronOutdatedInvalidError ∧
          ∀ k, V k → Qual (key c) inc k → far c k)
       ∨ (c2.err = c.err ∧ V (key c2) ∧ Qual (key c) inc (key c2) ∧
          (b = true ↔ key c2 ≠ key c) ∧ ∀ k, V k → Qual (key c) inc k → key c2 ≤ k)
       ∨ (c2.err = c.err ∧ V (key c2) ∧ b = true ∧ key c2 < key c ∧ ∀ k, V k → k < key c))

/-- The common shape of `nextS`, `nextMin` and `nextH`: a level with field `get`/`set`
and constraint `E`, above which `up` works. -/
def levelStep (get : CronInstance → Int) (set : CronInstance → Int → CronInstance)
    (E : CronExpression → Expression) (up : CronInstance → Bool → Res (Bool × CronInstance))
    (c : CronInstance) (inc : Bool) : Res (Bool × CronInstance) := do
  let frm := get c
  let (v, _) ← next (E c.crn) frm inc
  let c := set c v
  let (r, c) ← up c (decide (get c > frm ∨ (inc = true ∧ get c = frm)))
  if r = true then do
    let (v, _) ← next (E c.crn) 0 true
    pure (true, set c v)
  else pure (decide (get c ≠ frm), c)

/-- The date held by the cursor as a key: year, then month, then day. -/
def dayKey (c : CronInstance) : Lex (Lex (Int × Int) × Int) :=
  toLex (toLex (c.am.y, c.am.mon), c.d)

/-- The dates, as keys, that satisfy the year, month, day and weekday constraints. -/
def DayOK (crn : CronExpression) (k : Lex (Lex (Int × Int) × Int)) : Prop :=
  DateOK crn (ofLex (ofLex k).1).1 (ofLex (ofLex k).1).2 (ofLex k).2

/-- The dates, as keys, more than 400 years after the year the cursor holds. -/
def dayFar (c : CronInstance) (k : Lex (Lex (Int × Int) × Int)) : Prop :=
  c.am.y + 400 < (ofLex (ofLex k).1).1

/-- Shape of a month constraint made by the builder: a bare `time.Month` of the
year, or a field constraint over 1..12. -/
def Expression.WFMonth : Expression → Prop
  | .month v => 1 ≤ v ∧ v ≤ 12
  | e => e.WF 1 12

/-- Shape of a weekday constraint the engine can read: a bare `time.Weekday` of the
week, `BetweenWeekdays` with an optional `Every`, or `ListWeekdays`. -/
def Expression.WFWeekday : Expression → Prop
  | .weekday v => 0 ≤ v ∧ v ≤ 6
  | .between b => 0 ≤ b.x ∧ b.x ≤ b.y ∧ b.y ≤ 6 ∧ 1 ≤ b.step ∧ b.y + b.step ≤ maxInt
  | .list l => l.values ≠ [] ∧ l.values.Sorted (· ≤ ·) ∧ ∀ v ∈ l.values, 0 ≤ v ∧ v ≤ 6
  | _ => False

/-- A resolved expression whose eight fields hold constraints made by the builder
from in-range bare values and the field-specific `Between*`/`List*` constructors, with
steps that do not overflow the upper bound. -/
structure CronExpression.WF (crn : CronExpression) : Prop where
  milliseconds : crn.milliseconds.WF 0 999
  seconds : crn.seconds.WF 0 59
  minutes : crn.minutes.WF 0 59
  hours : crn.hours.WF 0 23
  days : crn.days.WF 1 31
  weekdays : crn.weekdays.WFWeekday
  months : crn.months.WFMonth
  years : crn.years.WF 1970 200000000

/-- The instant satisfies all eight constraints: it is a whole number of
milliseconds (the finest field), its millisecond, second, minute, hour, day, month
and year belong to their constraints, the day exists in that month of that year, and
the weekday of the date satisfies the weekday constraint. -/
def CronExpression.Satisfied (crn : CronExpression) (t : Time) : Prop :=
  t.nanosecond % 1000000 = 0 ∧
  crn.milliseconds.admits (t.nanosecond / 1000000) = true ∧
  crn.seconds.admits t.second = true ∧ crn.minutes.admits t.minute = true ∧
  crn.hours.admits t.hour = true ∧ crn.days.admits t.day = true ∧
  crn.months.admits t.month = true ∧ crn.years.admits t.year = true ∧
  1 ≤ t.day ∧ t.day ≤ daysIn t.year t.month ∧
  crn.containsWeekday t.Weekday = .ok true

/-- Keys of the date with the hour. -/
abbrev Key4 := Lex (Lex (Lex (Int × Int) × Int) × Int)

/-- Keys of the date with the hour and the minute. -/
abbrev Key5 := Lex (Key4 × Int)

/-- Keys of the date with the hour, the minute and the second. -/
abbrev Key6 := Lex (Key5 × Int)

/-- Keys of the date with the time of day to the millisecond. -/
abbrev Key7 := Lex (Key6 × Int)

/-- The date and time of day held by the cursor, as a key. -/
def msKey (c : CronInstance) : Key7 :=
  toLex (toLex (toLex (toLex (dayKey c, c.h), c.min), c.s), c.ms)

/-- The date and time of day of an instant, to the millisecond, as a key. -/
def timeKey (t : Time) : Key7 :=
  toLex (toLex (toLex (toLex (toLex (toLex (t.year, t.month), t.day), t.hour), t.minute),
    t.second), t.nanosecond / 1000000)

/-- The keys whose seven components satisfy their constraints and whose date exists
with an admitted weekday. -/
def KeyOK (crn : CronExpression) (k : Key7) : Prop :=
  (((DayOK crn (ofLex (ofLex (ofLex (ofLex k).1).1).1).1 ∧
    crn.hours.admits (ofLex (ofLex (ofLex (ofLex k).1).1).1).2 = true) ∧
    crn.minutes.admits (ofLex (ofLex (ofLex k).1).1).2 = true) ∧
    crn.seconds.admits (ofLex (ofLex k).1).2 = true) ∧
    crn.milliseconds.admits (ofLex k).2 = true

/-- The keys more than 400 years after the year the cursor holds. -/
def keyFar (c : CronInstance) (k : Key7) : Prop :=
  dayFar c (ofLex (ofLex (ofLex (ofLex k).1).1).1).1

/-- The level of `nextMs`: the millisecond above `nextS`. -/
def msStep : CronInstance → Bool → Res (Bool × CronInstance) :=
  levelStep (fun c => c.ms) (fun c v => { c with ms := v }) (fun e => e.milliseconds)
    CronInstance.nextS

/-- A time of a fixed-offset zone: its location has no transition and its offset is the
offset of the location. -/
def Time.Fixed (t : Time) : Prop :=
  t.loc.transitions = [] ∧ t.offset = t.loc.offset

/-- The offset of the time is less than a day, east or west. -/
def Time.NearUTC (t : Time) : Prop :=
  -86400 < t.offset ∧ t.offset < 86400

instance (t : Time) : Decidable t.NearUTC := by
  unfold Time.NearUTC
  infer_instance

instance (t : Time) : Decidable t.Fixed := by
  unfold Time.Fixed
  infer_instance

/-- The reading named by the fields of the cursor, at the offset of its location: what
`time.Date` returns for them in a fixed-offset zone. -/
def CronInstance.candidate (c : CronInstance) : Time :=
  { year := c.am.y, month := c.am.mon, day := c.d, hour := c.h, minute := c.min,
    second := c.s, nanosecond := c.ms * 1000000, offset := c.location.offset,
    loc := c.location }

/-- What `Next` passes to `time.Date`: the fields of the cursor and its location. -/
def CronInstance.stamp (c : CronInstance) : Time :=
  timeDate c.am.Year c.am.Month c.d c.h c.min c.s (wrapInt (c.ms * 1000000)) c.location

/-- The cursor works in a fixed-offset zone: `Following` is a reading of that zone, the
zone the cursor was created in. -/
def CronInstance.Zoned (c : CronInstance) : Prop :=
  c.following.Valid ∧ c.following.Fixed ∧ c.following.loc = c.location

/-- A cursor that has not reported an error: no error is recorded and the fields
held are those of `Following`. -/
def CronInstance.Live (c : CronInstance) : Prop :=
  c.err = none ∧ msKey c = timeKey c.following

/-- A cursor that is terminated: the error is recorded, or `Following` is not the zero
instant and every instant of the zone that satisfies the expression lies before it. -/
def CronInstance.Term (c : CronInstance) : Prop :=
  c.err = some Error.CronOutdatedInvalidError ∨
    (c.err = none ∧ c.following.IsZero = false ∧
      ∀ t, c.crn.Satisfied t → t.offset = c.following.offset →
        t.Before c.following = true)

/-- The cursor `c2` is `c` after some calls of `Next` that returned, with whatever
result. -/
inductive Calls (c : CronInstance) : CronInstance → Prop where
  | refl : Calls c c
  | next {c1 c2 : CronInstance} {r : Option Error} :
      Calls c c1 → c1.Next = .ok (c2, r) → Calls c c2

/-- The cursor `c2` is `c` after some calls of `Next` that all returned nil. -/
inductive Yields (c : CronInstance) : CronInstance → Prop where
  | refl : Yields c c
  | next {c1 c2 : CronInstance} :
      Yields c c1 → c1.Next = .ok (c2, none) → Yields c c2

/-- The cursor `c2` is `c` after some calls of `Next` that all returned an error. -/
inductive Refused (c : CronInstance) : CronInstance → Prop where
  | refl : Refused c c
  | next {c1 c2 : CronInstance} {e : Error} :
      Refused c c1 → c1.Next = .ok (c2, some e) → Refused c c2

instance (lo hi : Int) (e : Expression) : Decidable (e.WF lo hi) := by
  cases e <;> unfold Expression.WF <;> infer_instance

instance (e : Expression) : Decidable e.WFMonth := by
  cases e <;> unfold Expression.WFMonth <;> infer_instance

instance (e : Expression) : Decidable e.WFWeekday := by
  cases e <;> unfold Expression.WFWeekday <;> infer_instance

instance (crn : CronExpression) : Decidable crn.WF :=
  if h : crn.milliseconds.WF 0 999 ∧ crn.seconds.WF 0 59 ∧ crn.minutes.WF 0 59 ∧
      crn.hours.WF 0 23 ∧ crn.days.WF 1 31 ∧ crn.weekdays.WFWeekday ∧ crn.months.WFMonth ∧
      crn.years.WF 1970 200000000 then
    isTrue ⟨h.1, h.2.1, h.2.2.1, h.2.2.2.1, h.2.2.2.2.1, h.2.2.2.2.2.1, h.2.2.2.2.2.2.1,
      h.2.2.2.2.2.2.2⟩
  else
    isFalse (fun w => h ⟨w.milliseconds, w.seconds, w.minutes, w.hours, w.days, w.weekdays,
      w.months, w.years⟩)

instance (crn : CronExpression) (t : Time) : Decidable (crn.Satisfied t) := by
  unfold CronExpression.Satisfied
  infer_instance

/-- The value of a call that returned, and `d` otherwise. -/
def Res.getD {α : Type} (r : Res α) (d : α) : α :=
  match r with
  | .ok a => a
  | _ => d

/-- Go (test helper): `date()`, 2019-01-01T00:00:00Z. -/
def date : Time :=
  { year := 2019, month := 1, day := 1, hour := 0, minute := 0, second := 0, nanosecond := 0 }

/-- Go (test): `Cron().OnMonths(time.February).OnDays(29).OnWeekdays(time.Sunday)`. -/
def cronFeb29Sunday : Res CronExpression := do
  let crn ← Cron.OnMonths (.month 2)
  let crn ← crn.OnDays (.int 29)
  crn.OnWeekdays (.weekday 0)

/-- Go (test): `Cron().OnMonths(time.February).OnDays(30)`. -/
def cronFeb30 : Res CronExpression := do
  let crn ← Cron.OnMonths (.month 2)
  crn.OnDays (.int 30)

/-- Go (test): `Cron().OnYears(2018).OnMonths(time.February).OnDays(28)`. -/
def cronOutdated : Res CronExpression := do
  let crn ← Cron.OnYears (.int 2018)
  let crn ← crn.OnMonths (.month 2)
  crn.OnDays (.int 28)

/-- Go (test): `Cron().OnMinutes(23).OnHours(Between(0, 20).Every(2))`. -/
def cronStepped : Res CronExpression := do
  let crn ← Cron.OnMinutes (.int 23)
  let b ← Between 0 20
  let b ← b.Every 2
  crn.OnHours (.between b)

/-- The expression `Cron().EveryDay().OnYears(2018)`: every day of January 2018. -/
def cronPastDays : Res CronExpression := do
  let crn ← Cron.EveryDay
  crn.OnYears (.int 2018)

/-- The expression `Cron().OnDays(30).OnMonths(BetweenMonths(2, 3)).OnYears(2500)`: the
thirtieth of March 2500. -/
def cronFarMarch : Res CronExpression := do
  let crn ← Cron.OnDays (.int 30)
  let b ← BetweenMonths 2 3
  let crn ← crn.OnMonths (.between b)
  crn.OnYears (.int 2500)

/-- The cursor of a built expression created at `date()`; the zero cursor if the
building or the creation panics. -/
def cursorAt (crn : Res CronExpression) : CronInstance :=
  (crn >>= fun e => e.NewInstance date).getD
    { crn := Cron, following := Time.zero, location := Location.UTC, ms := 0, s := 0,
      min := 0, h := 0, d := 0,
      lastD := false,
      am := { y := 0, mon := 0, unixYear := 0, unixMonth := 0, isLeap := false, lastDay := 0 },
      err := none }

/-- The cursor of a built expression created at `frm`; the zero cursor if the building
or the creation panics. -/
def cursorFrom (crn : Res CronExpression) (frm : Time) : CronInstance :=
  (crn >>= fun e => e.NewInstance frm).getD
    { crn := Cron, following := Time.zero, location := Location.UTC, ms := 0, s := 0,
      min := 0, h := 0, d := 0,
      lastD := false,
      am := { y := 0, mon := 0, unixYear := 0, unixMonth := 0, isLeap := false, lastDay := 0 },
      err := none }

/-- Go: `time.LoadLocation("America/New_York")`, as far as the year 2019 goes: EST
(UTC-5) until 2019-03-10T07:00:00Z, EDT (UTC-4) until 2019-11-03T06:00:00Z, EST after. -/
def newYork : Location :=
  { offset := -18000, transitions := [(1552201200, -14400), (1572760800, -18000)] }

/-- The reading 2019-03-10T00:00:00 EST of `newYork`, two hours before the clocks are
set forward from 02:00 to 03:00. -/
def springMidnight : Time :=
  { year := 2019, month := 3, day := 10, hour := 0, minute := 0, second := 0,
    nanosecond := 0, offset := -18000, loc := newYork }

/-- The reading 2019-11-03T01:59:00 EDT of `newYork`, a minute before the clocks are set
back from 02:00 to 01:00. -/
def autumnBefore : Time :=
  { year := 2019, month := 11, day := 3, hour := 1, minute := 59, second := 0,
    nanosecond := 0, offset := -14400, loc := newYork }

/-- The reading 2019-11-03T01:00:00 EST of `newYork`, the instant the clocks are set
back. -/
def autumnBack : Time :=
  { year := 2019, month := 11, day := 3, hour := 1, minute := 0, second := 0,
    nanosecond := 0, offset := -18000, loc := newYork }

/-- The reading 2019-11-03T01:45:00 EST of `newYork`, in the hour that is read twice. -/
def autumnAgain : Time :=
  { year := 2019, month := 11, day := 3, hour := 1, minute := 45, second := 0,
    nanosecond := 0, offset := -18000, loc := newYork }

/-- The reading 2019-11-03T01:58:00 EST of `newYork`, in the hour that is read twice. -/
def autumnLate : Time :=
  { year := 2019, month := 11, day := 3, hour := 1, minute := 58, second := 0,
    nanosecond := 0, offset := -18000, loc := newYork }

/-- A location an hour east of UTC until 2018-12-31T23:10:00Z and at UTC after: its
clocks are set back from 00:10 on the first of January 2019 to 23:10 on the day
before. -/
def newYearBack : Location :=
  { offset := 3600, transitions := [(1546297800, 0)] }

/-- The reading 2019-01-01T00:05:00+01:00 of `newYearBack`, five minutes before the
clocks are set back. -/
def newYearEarly : Time :=
  { year := 2019, month := 1, day := 1, hour := 0, minute := 5, second := 0,
    nanosecond := 0, offset := 3600, loc := newYearBack }

/-- Go: `time.FixedZone("", 62293363200)`, a fixed-offset zone 720988 days east of UTC,
in which the zero instant `time.Time{}` is read as the first of January 1975. -/
def farEast : Location :=
  { offset := 62293363200, transitions := [] }

/-- The reading 1975-01-01T00:00:00 of `farEast`: the zero instant. -/
def farEastZero : Time :=
  { year := 1975, month := 1, day := 1, hour := 0, minute := 0, second := 0,
    nanosecond := 0, offset := 62293363200, loc := farEast }

/-- The expression `Cron().OnYears(1972)`: the start of the year 1972. -/
def cron1972 : Res CronExpression :=
  Cron.OnYears (.int 1972)

/-- The expression `Cron().OnMinutes(30).OnHours(2)`: half past two every day. -/
def cronHalfPastTwo : Res CronExpression := do
  let crn ← Cron.OnMinutes (.int 30)
  crn.OnHours (.int 2)

/-- The expression `Cron().EveryMinute()`: every minute. -/
def cronEveryMinute : Res CronExpression :=
  Cron.EveryMinute

/-- The expression `Cron().OnSeconds(Between(-5, -1))`, whose interval of seconds is
made by the generic `Between`, which checks no range. -/
def cronNegativeSeconds : Res CronExpression := do
  let b ← Between (-5) (-1)
  Cron.OnSeconds (.between b)

/-- The expression `Cron().OnYears(2018).OnHours(Between(20000, 20001))`, whose interval
of hours is made by the generic `Between`, which checks no range. -/
def cronLateHours : Res CronExpression := do
  let crn ← Cron.OnYears (.int 2018)
  let b ← Between 20000 20001
  crn.OnHours (.between b)

/-- The expression `Cron().OnDays(BetweenDays(1, 31).Every(math.MaxInt64))`. -/
def cronHugeStep : Res CronExpression := do
  let b ← BetweenDays 1 31
  let b ← b.Every 9223372036854775807
  Cron.OnDays (.between b)

/-- The expression
`Cron().OnDays(BetweenDays(1, 31).Every(math.MaxInt64)).OnWeekdays(time.Monday)`. -/
def cronHugeStepMonday : Res CronExpression := do
  let b ← BetweenDays 1 31
  let b ← b.Every 9223372036854775807
  let crn ← Cron.OnDays (.between b)
  crn.OnWeekdays (.weekday 1)

/-- The expression
`Cron().OnYears(2018).OnMonths(time.December).OnDays(31).OnHours(23).OnMinutes(45)`:
a quarter to midnight on the last day of 2018. -/
def cronOldYear : Res CronExpression := do
  let crn ← Cron.OnYears (.int 2018)
  let crn ← crn.OnMonths (.month 12)
  let crn ← crn.OnDays (.int 31)
  let crn ← crn.OnHours (.int 23)
  crn.OnMinutes (.int 45)

/-- The cursor after one call of `Next`; the cursor itself if the call panics. -/
def afterNext (c : CronInstance) : CronInstance :=
  (c.Next.getD (c, none)).1

/-- The eight fields of an expression, finest first. -/
inductive Field where
  | millisecond
  | second
  | minute
  | hour
  | day
  | weekday
  | month
  | year
  deriving DecidableEq, Repr

/-- The constraint an expression holds for a field. -/
def CronExpression.get (crn : CronExpression) : Field → Expression
  | .millisecond => crn.milliseconds
  | .second => crn.seconds
  | .minute => crn.minutes
  | .hour => crn.hours
  | .day => crn.days
  | .weekday => crn.weekdays
  | .month => crn.months
  | .year => crn.years

/-- Least value of a field's domain. -/
def Field.lo : Field → Int
  | .day => 1
  | .month => 1
  | .year => 1970
  | _ => 0

/-- Greatest value of a field's domain. -/
def Field.hi : Field → Int
  | .millisecond => 999
  | .second => 59
  | .minute => 59
  | .hour => 23
  | .day => 31
  | .weekday => 6
  | .month => 12
  | .year => 200000000

/-- The validator of a field (`validateMillisecond` … `validateYear`). -/
def Field.validator : Field → Int → Res Unit
  | .millisecond => validateMillisecond
  | .second => validateSecond
  | .minute => validateMinute
  | .hour => validateHour
  | .day => validateDay
  | .weekday => validateWeekday
  | .month => validateMonth
  | .year => validateYear

/-- The setter of a field (`OnMilliseconds` … `OnYears`). -/
def Field.setter : Field → CronExpression → Expression → Res CronExpression
  | .millisecond => CronExpression.OnMilliseconds
  | .second => CronExpression.OnSeconds
  | .minute => CronExpression.OnMinutes
  | .hour => CronExpression.OnHours
  | .day => CronExpression.OnDays
  | .weekday => CronExpression.OnWeekdays
  | .month => CronExpression.OnMonths
  | .year => CronExpression.OnYears

/-- The interval constructor of a field (`BetweenMilliseconds` … `BetweenYears`). -/
def Field.between : Field → Int → Int → Res BetweenExpression
  | .millisecond => BetweenMilliseconds
  | .second => BetweenSeconds
  | .minute => BetweenMinutes
  | .hour => BetweenHours
  | .day => BetweenDays
  | .weekday => BetweenWeekdays
  | .month => BetweenMonths
  | .year => BetweenYears

/-- The list constructor of a field (`ListMilliseconds` … `ListYears`). -/
def Field.listOf : Field → List Int → Res ListExpression
  | .millisecond => ListMilliseconds
  | .second => ListSeconds
  | .minute => ListMinutes
  | .hour => ListHours
  | .day => ListDays
  | .weekday => ListWeekdays
  | .month => ListMonths
  | .year => ListYears

/-- The fields finer than `X` in the dependency rule: for the weekday, as for the day,
the hour and below. -/
def Field.finer : Field → List Field
  | .millisecond => []
  | .second => [.millisecond]
  | .minute => [.second, .millisecond]
  | .hour => [.minute, .second, .millisecond]
  | .day => [.hour, .minute, .second, .millisecond]
  | .weekday => [.hour, .minute, .second, .millisecond]
  | .month => [.day, .hour, .minute, .second, .millisecond]
  | .year => [.month, .day, .hour, .minute, .second, .millisecond]

/-- The fixed minimum a finer field is pinned to: 1 for the day and the month, else 0. -/
def Field.minimum : Field → Int
  | .day => 1
  | .month => 1
  | _ => 0

/-- The full-range default of a field. -/
def Field.fullRange (F : Field) : Expression :=
  .between { x := F.lo, y := F.hi, step := 1 }

/-- The schedule after `k` calls of `Next` that returned, with whatever result. -/
def Schedule.after (sch : Schedule) : Nat → Res Schedule
  | 0 => .ok sch
  | k + 1 => do
    let s ← sch.after k
    let (s, _) ← s.Next
    pure s

/-- Go (test): `Cron().OnMinutes(5).EveryDay().OnMonths(time.August)`. -/
def cronAugust : Res CronExpression := do
  let crn ← Cron.OnMinutes (.int 5)
  let crn ← crn.EveryDay
  crn.OnMonths (.month 8)

/-- Go: the body of `(*CronInstance).nextD` with the budget of the day-search loop as a
parameter; `nextD` is `nextDWith nextDBudget`. -/
def CronInstance.nextDWith (fuel : Nat) (crnI : CronInstance) (inc : Bool) :
    Res (Bool × CronInstance) := do
  let fromD := crnI.d
  let fromY := crnI.am.y
  let (reset, crnI) ← crnI.nextMonY true
  if reset = true then
    CronInstance.nextDLoop fromD fromY fuel { crnI with d := 1 } true reset
  else
    CronInstance.nextDLoop fromD fromY fuel crnI inc reset

/-- A call on the calendar cache: `UpdateMonth(mon)` or `UpdateMonthYear(mon, y)`. -/
inductive CalendarUpdate where
  | month (mon : Int)
  | monthYear (mon y : Int)
  deriving DecidableEq, Repr

/-- The month a call sets. -/
def CalendarUpdate.mon : CalendarUpdate → Int
  | .month mon => mon
  | .monthYear mon _ => mon

/-- One call on the cache. -/
def AttunedMonth.update (my : AttunedMonth) : CalendarUpdate → Res AttunedMonth
  | .month mon => my.UpdateMonth mon
  | .monthYear mon y => my.UpdateMonthYear mon y

/-- A sequence of calls on the cache, in order. -/
def AttunedMonth.updateAll (my : AttunedMonth) : List CalendarUpdate → Res AttunedMonth
  | [] => .ok my
  | u :: us => do
    let my ← my.update u
    my.updateAll us

/-- The month and year last asked for: the current month and year. -/
def currentMonthYear : Int × Int → List CalendarUpdate → Int × Int
  | p, [] => p
  | p, .month mon :: us => currentMonthYear (mon, p.2) us
  | _, .monthYear mon y :: us => currentMonthYear (mon, y) us

/-- The builder states reachable from `Cron()` by calls of setters that returned. -/
inductive Built : CronExpression → Prop where
  | cron : Built Cron
  | set {b b2 : CronExpression} (X : Field) (exp : Expression) :
      Built b → X.setter b exp = .ok b2 → Built b2

/-! ## Theorems -/

@[simp] theorem Res.ok_bind {α β : Type} (a : α) (f : α → Res β) : (Res.ok a >>= f) = f a := rfl

@[simp] theorem Res.panic_bind {α β : Type} (f : α → Res β) : ((Res.panic : Res α) >>= f) = Res.panic := rfl

@[simp] theorem Res.outOfFuel_bind {α β : Type} (f : α → Res β) :
    ((Res.outOfFuel : Res α) >>= f) = Res.outOfFuel := rfl

@[simp] theorem Res.pure_eq {α : Type} (a : α) : (pure a : Res α) = Res.ok a := rfl

theorem Steps_int (lo hi v : Int) (h : lo ≤ v ∧ v ≤ hi) : (Expression.int v).Steps lo hi := by
  refine ⟨?_, ?_⟩
  · intro w hw
    simp [Expression.admits] at hw
    subst hw; exact h
  · intro frm inc
    refine ⟨v, true, rfl, by simp [Expression.admits], ?_, Or.inr rfl, ?_⟩
    · intro w hw _
      simp [Expression.admits] at hw
      omega
    · intro _ w hw
      simp [Expression.admits] at hw
      omega

theorem Steps_month (lo hi v : Int) (h : lo ≤ v ∧ v ≤ hi) : (Expression.month v).Steps lo hi := by
  refine ⟨?_, ?_⟩
  · intro w hw
    simp [Expression.admits] at hw
    subst hw; exact h
  · intro frm inc
    refine ⟨v, true, rfl, by simp [Expression.admits], ?_, Or.inr rfl, ?_⟩
    · intro w hw _
      simp [Expression.admits] at hw
      omega
    · intro _ w hw
      simp [Expression.admits] at hw
      omega

/-- An exact result within the 64 bits is the result of the wrapping operation. -/
theorem wrapInt_eq (a : Int) (h1 : -9223372036854775808 ≤ a) (h2 : a < 9223372036854775808) :
    wrapInt a = a := by
  unfold wrapInt
  omega

/-- Within the bounds the arithmetic of `Contains` does not wrap around. -/
theorem Between_Contains_plain (b : BetweenExpression) (hs : 1 ≤ b.step)
    (hspan : b.y - b.x ≤ maxInt) (hstep : b.step ≤ maxInt) (val : Int) :
    b.Contains val =
      if val < b.x ∨ val > b.y then .ok false
      else if val = b.x ∨ val = b.y then .ok true
      else if b.step = 0 then .panic
      else .ok (decide (b.step - (val - b.x).tmod b.step = b.step)) := by
  unfold maxInt at hspan hstep
  unfold BetweenExpression.Contains
  by_cases h1 : val < b.x ∨ val > b.y
  · rw [if_pos h1, if_pos h1]
  · rw [if_neg h1, if_neg h1]
    by_cases h2 : val = b.x ∨ val = b.y
    · rw [if_pos h2, if_pos h2]
    · rw [if_neg h2, if_neg h2]
      have h3 : ¬ b.step = 0 := by omega
      rw [if_neg h3, if_neg h3]
      have hnn : 0 ≤ val - b.x := by omega
      have e1 : wrapInt (val - b.x) = val - b.x := wrapInt_eq _ (by omega) (by omega)
      have hr0 := Int.emod_nonneg (val - b.x) h3
      have hr1 := Int.emod_lt_of_pos (val - b.x) (show 0 < b.step by omega)
      have et : (val - b.x).tmod b.step = (val - b.x) % b.step :=
        Int.tmod_eq_emod hnn (by omega)
      rw [e1, wrapInt_eq _ (by omega) (by omega)]

/-- Within the bounds the arithmetic of `Next` does not wrap around. -/
theorem Between_Next_plain (b : BetweenExpression) (hs : 1 ≤ b.step) (hex : b.Exact)
    (frm : Int) (inc : Bool) :
    b.Next frm inc =
      if frm < b.x ∨ (inc = true ∧ frm = b.x) then .ok (b.x, false)
      else if frm ≥ b.y then .ok (b.y, true)
      else if b.step = 0 then .panic
      else
        let diff := b.step - (frm - b.x).tmod b.step
        let diff := if inc = true ∧ diff = b.step then 0 else diff
        let next := frm + diff
        if next ≥ b.y then .ok (b.y, true) else .ok (next, false) := by
  obtain ⟨hx, hy, hst, hst2⟩ := hex
  unfold minInt at hx
  unfold maxInt at hy hst hst2
  unfold BetweenExpression.Next
  by_cases h1 : frm < b.x ∨ (inc = true ∧ frm = b.x)
  · rw [if_pos h1, if_pos h1]
  · rw [if_neg h1, if_neg h1]
    by_cases h2 : frm ≥ b.y
    · rw [if_pos h2, if_pos h2]
    · rw [if_neg h2, if_neg h2]
      have h3 : ¬ b.step = 0 := by omega
      rw [if_neg h3, if_neg h3]
      have hnn : 0 ≤ frm - b.x := by
        by_contra hc
        exact h1 (Or.inl (by omega))
      have e1 : wrapInt (frm - b.x) = frm - b.x := wrapInt_eq _ (by omega) (by omega)
      have hr0 := Int.emod_nonneg (frm - b.x) h3
      have hr1 := Int.emod_lt_of_pos (frm - b.x) (show 0 < b.step by omega)
      have et : (frm - b.x).tmod b.step = (frm - b.x) % b.step :=
        Int.tmod_eq_emod hnn (by omega)
      have e2 : wrapInt (b.step - (frm - b.x).tmod b.step) = b.step - (frm - b.x).tmod b.step :=
        wrapInt_eq _ (by omega) (by omega)
      simp only [e1, e2]
      have e3 : wrapInt (frm + (if inc = true ∧ b.step - (frm - b.x).tmod b.step = b.step
          then 0 else b.step - (frm - b.x).tmod b.step)) =
          frm + (if inc = true ∧ b.step - (frm - b.x).tmod b.step = b.step
          then 0 else b.step - (frm - b.x).tmod b.step) := by
        split
        · exact wrapInt_eq _ (by omega) (by omega)
        · exact wrapInt_eq _ (by omega) (by omega)
      rw [e3]

/-- `Contains` of a well-formed interval, in closed form. -/
theorem Between_Contains_iff (b : BetweenExpression) (hxy : b.x ≤ b.y) (hs : 1 ≤ b.step)
    (hspan : b.y - b.x ≤ maxInt) (hstep : b.step ≤ maxInt) (v : Int) :
    b.Contains v = .ok true ↔
      b.x ≤ v ∧ v ≤ b.y ∧ (v = b.x ∨ v = b.y ∨ (v - b.x) % b.step = 0) := by
  rw [Between_Contains_plain b hs hspan hstep]
  by_cases h1 : v < b.x ∨ v > b.y
  · simp only [h1, if_true]
    constructor
    · intro h; cases h
    · intro h; omega
  · rw [if_neg h1]
    by_cases h2 : v = b.x ∨ v = b.y
    · simp only [h2, if_true, true_iff]
      omega
    · rw [if_neg h2, if_neg (by omega)]
      have hnn : 0 ≤ v - b.x := by omega
      rw [Int.tmod_eq_emod hnn (by omega)]
      simp only [Res.ok.injEq, decide_eq_true_eq]
      constructor
      · intro h; refine ⟨by omega, by omega, Or.inr (Or.inr (by omega))⟩
      · intro h
        rcases h with ⟨_, _, h | h | h⟩
        · exact absurd (Or.inl h) h2
        · exact absurd (Or.inr h) h2
        · omega

/-- A lattice point above `frm` is at least the next lattice point. -/
theorem lattice_next (x step frm w : Int) (hs : 1 ≤ step) (hw : (w - x) % step = 0)
    (hlt : frm < w) : frm + (step - (frm - x) % step) ≤ w := by
  have hdvd : step ∣ (w - x) := Int.dvd_of_emod_eq_zero hw
  obtain ⟨k, hk⟩ := hdvd
  have hdiv := Int.emod_add_ediv (frm - x) step
  have hr0 := Int.emod_nonneg (frm - x) (show step ≠ 0 by omega)
  have hr1 := Int.emod_lt_of_pos (frm - x) (show 0 < step by omega)
  have hkq : (frm - x) / step < k := by
    by_contra hcon
    have hle : k ≤ (frm - x) / step := by omega
    have : step * k ≤ step * ((frm - x) / step) := Int.mul_le_mul_of_nonneg_left hle (by omega)
    omega
  have : step * ((frm - x) / step + 1) ≤ step * k := Int.mul_le_mul_of_nonneg_left (by omega) (by omega)
  have e : step * ((frm - x) / step + 1) = step * ((frm - x) / step) + step := by ring
  omega

theorem lattice_point (x step frm : Int) :
    (frm + (step - (frm - x) % step) - x) % step = 0 := by
  have hdiv := Int.emod_add_ediv (frm - x) step
  have e : frm + (step - (frm - x) % step) - x = step * ((frm - x) / step + 1) := by
    have : step * ((frm - x) / step + 1) = step * ((frm - x) / step) + step := by ring
    omega
  rw [e]
  exact Int.mul_emod_right _ _

theorem Steps_between (lo hi : Int) (b : BetweenExpression)
    (h : lo ≤ b.x ∧ b.x ≤ b.y ∧ b.y ≤ hi ∧ 1 ≤ b.step) (hex : b.Exact) :
    (Expression.between b).Steps lo hi := by
  obtain ⟨hlo, hxy, hhi, hs⟩ := h
  have hC := Between_Contains_iff b hxy hs hex.2.1 hex.2.2.2
  refine ⟨?_, ?_⟩
  · intro w hw
    simp only [Expression.admits, decide_eq_true_eq] at hw
    have := (hC w).1 hw
    omega
  · intro frm inc
    simp only [Expression.admits, decide_eq_true_eq, next]
    rw [Between_Next_plain b hs hex]
    by_cases h1 : frm < b.x ∨ (inc = true ∧ frm = b.x)
    · refine ⟨b.x, false, by rw [if_pos h1], (hC _).2 ⟨by omega, by omega, Or.inl rfl⟩, ?_, ?_, ?_⟩
      · intro w hw _
        have := (hC w).1 hw
        omega
      · left
        rcases h1 with h1 | ⟨h1, h2⟩
        · exact Or.inl h1
        · exact Or.inr ⟨h1, h2⟩
      · intro hf; cases hf
    · rw [if_neg h1]
      by_cases h2 : frm ≥ b.y
      · refine ⟨b.y, true, by rw [if_pos h2], (hC _).2 ⟨by omega, by omega, Or.inr (Or.inl rfl)⟩, ?_, Or.inr rfl, ?_⟩
        · intro w hw hq
          have := (hC w).1 hw
          omega
        · intro _ w hw
          have := (hC w).1 hw
          omega
      · rw [if_neg h2, if_neg (by omega)]
        have hnn : 0 ≤ frm - b.x := by
          by_contra hcon
          exact h1 (Or.inl (by omega))
        rw [Int.tmod_eq_emod hnn (by omega)]
        have hr0 := Int.emod_nonneg (frm - b.x) (show b.step ≠ 0 by omega)
        have hr1 := Int.emod_lt_of_pos (frm - b.x) (show 0 < b.step by omega)
        have hlat := lattice_point b.x b.step frm
        have hnext := fun w hw hlt => lattice_next b.x b.step frm w hs hw hlt
        -- members that qualify lie at or above the computed value
        have hmin : ∀ w, b.Contains w = .ok true → (frm < w ∨ (inc = true ∧ frm = w)) →
            frm + (if inc = true ∧ b.step - (frm - b.x) % b.step = b.step then 0
                   else b.step - (frm - b.x) % b.step) ≤ w ∨ b.y ≤ w := by
          intro w hw hq
          have hm := (hC w).1 hw
          rcases hq with hq | ⟨hinc, hq⟩
          · rcases hm with ⟨_, _, hm | hm | hm⟩
            · omega
            · right; omega
            · left
              have := hnext w hm hq
              split <;> omega
          · subst hq
            rcases hm with ⟨_, _, hm | hm | hm⟩
            · exact absurd (Or.inr ⟨hinc, hm⟩) h1
            · omega
            · left
              rw [if_pos ⟨hinc, by omega⟩]
              omega
        by_cases h3 : frm + (if inc = true ∧ b.step - (frm - b.x) % b.step = b.step then 0
                   else b.step - (frm - b.x) % b.step) ≥ b.y
        · refine ⟨b.y, true, by simp only [h3, if_true], (hC _).2 ⟨by omega, by omega, Or.inr (Or.inl rfl)⟩, ?_, Or.inr rfl, ?_⟩
          · intro w hw hq
            rcases hmin w hw hq with h | h <;> omega
          · intro _ w hw
            have := (hC w).1 hw
            omega
        · refine ⟨_, false, by simp only [h3, if_false]; rfl, ?_, ?_, ?_, ?_⟩
          · refine (hC _).2 ⟨?_, by omega, Or.inr (Or.inr ?_)⟩
            · split <;> omega
            · by_cases h4 : inc = true ∧ b.step - (frm - b.x) % b.step = b.step
              · rw [if_pos h4]
                have : (frm - b.x) % b.step = 0 := by omega
                simpa using this
              · rw [if_neg h4]; exact hlat
          · intro w hw hq
            rcases hmin w hw hq with h | h <;> omega
          · left
            by_cases h4 : inc = true ∧ b.step - (frm - b.x) % b.step = b.step
            · rw [if_pos h4]; right; exact ⟨h4.1, by omega⟩
            · rw [if_neg h4]; left; omega
          · intro hf; cases hf

theorem sorted_le_getLast : ∀ (l : List Int), l.Sorted (· ≤ ·) → ∀ lastV, l.getLast? = some lastV →
    ∀ w ∈ l, w ≤ lastV
  | [], _, _, h, _, _ => by simp at h
  | [a], _, lastV, h, w, hw => by
    simp at h hw
    omega
  | a :: b :: l, hs, lastV, h, w, hw => by
    have hs2 := List.sorted_cons.1 hs
    have hl : (b :: l).getLast? = some lastV := by
      simpa [List.getLast?_cons_cons] using h
    have ih := sorted_le_getLast (b :: l) hs2.2 lastV hl
    rcases List.mem_cons.1 hw with hw | hw
    · subst hw
      have h1 := hs2.1 b (List.mem_cons_self _ _)
      have h2 := ih b (List.mem_cons_self _ _)
      omega
    · exact ih w hw

theorem getLast_mem : ∀ (l : List Int) lastV, l.getLast? = some lastV → lastV ∈ l := by
  intro l lastV h
  exact List.mem_of_getLast?_eq_some h

/-- `Contains` of a sorted non-empty list is membership. -/
theorem List_Contains_iff (l : ListExpression) (hne : l.values ≠ []) (hs : l.values.Sorted (· ≤ ·))
    (v : Int) : l.Contains v = .ok true ↔ v ∈ l.values := by
  unfold ListExpression.Contains
  cases hv : l.values with
  | nil => exact absurd hv hne
  | cons a t =>
    have hlast : ∃ lastV, (a :: t).getLast? = some lastV := by
      cases hg : (a :: t).getLast? with
      | none => simp at hg
      | some x => exact ⟨x, rfl⟩
    obtain ⟨lastV, hl⟩ := hlast
    rw [hv] at hs
    have hmax := sorted_le_getLast (a :: t) hs lastV hl
    have hmin := (List.sorted_cons.1 hs).1
    simp only [List.head?_cons, hl]
    by_cases hb : v < a ∨ v > lastV
    · rw [if_pos hb]
      constructor
      · intro h; cases h
      · intro hm
        have h1 := hmax v hm
        rcases List.mem_cons.1 hm with hm | hm
        · omega
        · have := hmin v hm
          omega
    · rw [if_neg hb]
      simp only [Res.ok.injEq, List.any_eq_true, decide_eq_true_eq]
      constructor
      · rintro ⟨x, hx, rfl⟩; exact hx
      · intro hm; exact ⟨v, hm, rfl⟩

theorem scan_spec (frm : Int) (inc : Bool) (lastI : Int) : ∀ (vs : List Int) (i : Int),
    vs.Sorted (· ≤ ·) →
    (ListExpression.scan frm inc lastI vs i = none → ∀ w ∈ vs, ¬ (frm < w ∨ (inc = true ∧ frm = w))) ∧
    (∀ v fl, ListExpression.scan frm inc lastI vs i = some (v, fl) →
      v ∈ vs ∧ (frm < v ∨ (inc = true ∧ frm = v)) ∧
      (∀ w ∈ vs, (frm < w ∨ (inc = true ∧ frm = w)) → v ≤ w) ∧
      (fl = true → lastI = i + (vs.length : Int) - 1 → ∀ w ∈ vs, w ≤ v))
  | [], i, _ => by
    simp [ListExpression.scan]
  | a :: t, i, hs => by
    have hs2 := List.sorted_cons.1 hs
    have ih := scan_spec frm inc lastI t (i + 1) hs2.2
    unfold ListExpression.scan
    by_cases hq : frm < a ∨ (inc = true ∧ frm = a)
    · rw [if_pos hq]
      refine ⟨(by intro h; cases h), ?_⟩
      intro v fl h
      simp only [Option.some.injEq, Prod.mk.injEq] at h
      obtain ⟨rfl, rfl⟩ := h
      refine ⟨List.mem_cons_self _ _, hq, ?_, ?_⟩
      · intro w hw _
        rcases List.mem_cons.1 hw with hw | hw
        · omega
        · exact hs2.1 w hw
      · intro hfl hlast w hw
        simp only [decide_eq_true_eq] at hfl
        have hlen : (t.length : Int) = 0 := by
          simp only [List.length_cons, Nat.cast_add, Nat.cast_one] at hlast
          omega
        have ht : t = [] := by
          cases t with
          | nil => rfl
          | cons b t2 => simp at hlen; omega
        subst ht
        simp at hw
        omega
    · rw [if_neg hq]
      refine ⟨?_, ?_⟩
      · intro h w hw
        rcases List.mem_cons.1 hw with hw | hw
        · subst hw; exact hq
        · exact ih.1 h w hw
      · intro v fl h
        obtain ⟨hm, hqv, hmin, hmax⟩ := ih.2 v fl h
        refine ⟨List.mem_cons_of_mem _ hm, hqv, ?_, ?_⟩
        · intro w hw hqw
          rcases List.mem_cons.1 hw with hw | hw
          · subst hw; exact absurd hqw hq
          · exact hmin w hw hqw
        · intro hfl hlast w hw
          have hlast2 : lastI = i + 1 + (t.length : Int) - 1 := by
            simp only [List.length_cons, Nat.cast_add, Nat.cast_one] at hlast
            omega
          rcases List.mem_cons.1 hw with hw | hw
          · subst hw; exact hs2.1 v hm
          · exact hmax hfl hlast2 w hw

theorem Steps_list (lo hi : Int) (l : ListExpression)
    (h : l.values ≠ [] ∧ l.values.Sorted (· ≤ ·) ∧ ∀ v ∈ l.values, lo ≤ v ∧ v ≤ hi) :
    (Expression.list l).Steps lo hi := by
  obtain ⟨hne, hs, hdom⟩ := h
  have hC := List_Contains_iff l hne hs
  refine ⟨?_, ?_⟩
  · intro w hw
    simp only [Expression.admits, decide_eq_true_eq] at hw
    exact hdom w ((hC w).1 hw)
  · intro frm inc
    simp only [Expression.admits, decide_eq_true_eq, next, hC]
    unfold ListExpression.Next
    have hlast : ∃ lastV, l.values.getLast? = some lastV := by
      cases hg : l.values.getLast? with
      | none => simp at hg; exact absurd hg hne
      | some x => exact ⟨x, rfl⟩
    obtain ⟨lastV, hl⟩ := hlast
    have hmax := sorted_le_getLast l.values hs lastV hl
    have hmem := getLast_mem l.values lastV hl
    have hsc := scan_spec frm inc ((l.values.length : Int) - 1) l.values 0 hs
    simp only [hl]
    by_cases h1 : frm < lastV
    · rw [if_pos h1]
      cases hscan : ListExpression.scan frm inc ((l.values.length : Int) - 1) l.values 0 with
      | none =>
        exact absurd (Or.inl h1) (hsc.1 hscan lastV hmem)
      | some r =>
        obtain ⟨v, fl⟩ := r
        obtain ⟨hm, hq, hmin, hmx⟩ := hsc.2 v fl hscan
        exact ⟨v, fl, rfl, hm, hmin, Or.inl hq, fun hfl => hmx hfl (by omega)⟩
    · rw [if_neg h1]
      refine ⟨lastV, true, rfl, hmem, ?_, Or.inr rfl, fun _ => hmax⟩
      intro w hw hq
      have := hmax w hw
      omega

theorem tmod_eq_zero_iff (a n : Int) : a.tmod n = 0 ↔ a % n = 0 :=
  Int.dvd_iff_tmod_eq_zero.symm.trans Int.dvd_iff_emod_eq_zero

theorem daysPerMonthAt_vals :
    daysPerMonthAt 0 = .ok 0 ∧ daysPerMonthAt 1 = .ok 31 ∧ daysPerMonthAt 2 = .ok 59 ∧
    daysPerMonthAt 3 = .ok 90 ∧ daysPerMonthAt 4 = .ok 120 ∧ daysPerMonthAt 5 = .ok 151 ∧
    daysPerMonthAt 6 = .ok 181 ∧ daysPerMonthAt 7 = .ok 212 ∧ daysPerMonthAt 8 = .ok 243 ∧
    daysPerMonthAt 9 = .ok 273 ∧ daysPerMonthAt 10 = .ok 304 ∧ daysPerMonthAt 11 = .ok 334 ∧
    daysPerMonthAt 12 = .ok 365 := by
  refine ⟨?_, ?_, ?_, ?_, ?_, ?_, ?_, ?_, ?_, ?_, ?_, ?_, ?_⟩ <;> decide

/-- The leap flag the helper computes is the Gregorian rule. -/
theorem isLeap_eq (y : Int) :
    decide (y.tmod 4 = 0 ∧ (y.tmod 100 ≠ 0 ∨ y.tmod 400 = 0)) = isLeapYear y := by
  unfold isLeapYear
  simp only [tmod_eq_zero_iff, ne_eq]

/-- What `determineUnixMonth` followed by `determineLastDay` yields for a month
in 1..12. -/
theorem determine_month (my : AttunedMonth) (h1 : 1 ≤ my.mon) (h2 : my.mon ≤ 12) :
    (my.determineUnixMonth >>= fun m => m.determineLastDay) =
      .ok { my with
        unixMonth := wrapInt (my.unixYear + wrapInt
          ((daysBeforeMonthCommon my.mon + (if my.isLeap = true ∧ my.mon > 2 then 1 else 0))
            * secondsPerDay))
        lastDay := if my.isLeap = true ∧ my.mon = 2 then 29
                   else if my.mon = 2 then 28
                   else if my.mon = 4 ∨ my.mon = 6 ∨ my.mon = 9 ∨ my.mon = 11 then 30 else 31 } := by
  obtain ⟨y, mon, uy, um, lp, ld⟩ := my
  simp only at h1 h2
  obtain ⟨v0, v1, v2, v3, v4, v5, v6, v7, v8, v9, v10, v11, v12⟩ := daysPerMonthAt_vals
  have hm : mon = 1 ∨ mon = 2 ∨ mon = 3 ∨ mon = 4 ∨ mon = 5 ∨ mon = 6 ∨ mon = 7 ∨ mon = 8 ∨
      mon = 9 ∨ mon = 10 ∨ mon = 11 ∨ mon = 12 := by omega
  rcases hm with h | h | h | h | h | h | h | h | h | h | h | h <;> subst h <;>
    cases lp <;>
    simp [AttunedMonth.determineUnixMonth, AttunedMonth.determineLastDay, daysBeforeMonthCommon,
      v0, v1, v2, v3, v4, v5, v6, v7, v8, v9, v10, v11, v12]

theorem recompute_eq (my : AttunedMonth) (mon y : Int) (h1 : 1 ≤ mon) (h2 : mon ≤ 12) :
    ((AttunedMonth.determineIsLeap (AttunedMonth.determineUnixYear
        { my with mon := mon, y := y })).determineUnixMonth >>= fun m => m.determineLastDay)
      = .ok (amOf mon y) := by
  have := determine_month
    (AttunedMonth.determineIsLeap (AttunedMonth.determineUnixYear { my with mon := mon, y := y }))
    h1 h2
  simp only [AttunedMonth.determineIsLeap, AttunedMonth.determineUnixYear, isLeap_eq] at this
  simp only [AttunedMonth.determineIsLeap, AttunedMonth.determineUnixYear, isLeap_eq]
  rw [this]
  simp only [amOf, unixYearOf, Res.ok.injEq, AttunedMonth.mk.injEq, true_and]
  unfold daysIn
  by_cases hl : isLeapYear y = true <;> by_cases hm : mon = 2 <;> simp [hl, hm]

theorem NewAttunedMonth_eq (mon y : Int) (h1 : 1 ≤ mon) (h2 : mon ≤ 12) :
    NewAttunedMonth mon y = .ok (amOf mon y) := by
  unfold NewAttunedMonth AttunedMonth.UpdateMonthYear
  rw [if_pos (Or.inr (by simp only [ne_eq]; omega))]
  exact recompute_eq _ mon y h1 h2

theorem Coherent_amOf (mon y : Int) (h1 : 1 ≤ mon) (h2 : mon ≤ 12) : (amOf mon y).Coherent :=
  ⟨h1, h2, NewAttunedMonth_eq mon y h1 h2⟩

theorem AttunedMonth.Coherent.eq_amOf {my : AttunedMonth} (h : my.Coherent) :
    my = amOf my.mon my.y := by
  obtain ⟨h1, h2, h3⟩ := h
  rw [NewAttunedMonth_eq _ _ h1 h2] at h3
  simp only [Res.ok.injEq] at h3
  exact h3.symm

theorem AttunedMonth.Coherent.lastDay_eq {my : AttunedMonth} (h : my.Coherent) :
    my.lastDay = daysIn my.y my.mon := by
  have := h.eq_amOf
  rw [this]; rfl

theorem AttunedMonth.Coherent.UpdateMonthYear_eq {my : AttunedMonth} (h : my.Coherent) (mon y : Int)
    (h1 : 1 ≤ mon) (h2 : mon ≤ 12) : my.UpdateMonthYear mon y = .ok (amOf mon y) := by
  by_cases hc : my.y ≠ y ∨ my.mon ≠ mon
  · unfold AttunedMonth.UpdateMonthYear
    rw [if_pos hc]
    exact recompute_eq _ mon y h1 h2
  · unfold AttunedMonth.UpdateMonthYear
    rw [if_neg hc]
    have hy : my.y = y := by omega
    have hm : my.mon = mon := by omega
    have := h.eq_amOf
    rw [hy, hm] at this
    rw [← this]; rfl

theorem AttunedMonth.Coherent.UpdateMonth_eq {my : AttunedMonth} (h : my.Coherent) (mon : Int)
    (h1 : 1 ≤ mon) (h2 : mon ≤ 12) : my.UpdateMonth mon = .ok (amOf mon my.y) := by
  have g := h.eq_amOf
  by_cases hc : my.mon ≠ mon
  · unfold AttunedMonth.UpdateMonth
    rw [if_pos hc]
    have := determine_month { my with mon := mon } h1 h2
    simp only [Res.pure_eq, Res.ok_bind]
    rw [this]
    have gy : my.unixYear = (amOf my.mon my.y).unixYear := by rw [← g]
    have gl : my.isLeap = (amOf my.mon my.y).isLeap := by rw [← g]
    simp only [amOf] at gy gl
    simp only [gy, gl, amOf, Res.ok.injEq, AttunedMonth.mk.injEq, true_and]
    unfold daysIn
    by_cases hl : isLeapYear my.y = true <;> by_cases hm : mon = 2 <;> simp [hl, hm]
  · unfold AttunedMonth.UpdateMonth
    rw [if_neg hc]
    have hm : my.mon = mon := by omega
    rw [hm] at g
    rw [← g]; rfl

theorem daysBeforeMonthCommon_nonneg (m : Int) : 0 ≤ daysBeforeMonthCommon m := by
  have hm : m ≤ 1 ∨ m = 2 ∨ m = 3 ∨ m = 4 ∨ m = 5 ∨ m = 6 ∨ m = 7 ∨ m = 8 ∨
      m = 9 ∨ m = 10 ∨ m = 11 ∨ 12 ≤ m := by omega
  unfold daysBeforeMonthCommon
  rcases hm with h | h | h | h | h | h | h | h | h | h | h | h
  · rw [if_pos h]
  all_goals (try subst h); simp <;> omega

theorem secondsPerDay_eq : secondsPerDay = 86400 := by norm_num [secondsPerDay]

theorem secondsBeforeUnix_eq : secondsBeforeUnix = 719162 * 86400 := by
  norm_num [secondsBeforeUnix, secondsPerDay]

theorem firstWeekDay_eq : firstWeekDay = 4 * 86400 := by
  norm_num [firstWeekDay, secondsPerDay]

theorem daysBeforeMonthCommon_le (m : Int) : daysBeforeMonthCommon m ≤ 334 := by
  have hm : m ≤ 1 ∨ m = 2 ∨ m = 3 ∨ m = 4 ∨ m = 5 ∨ m = 6 ∨ m = 7 ∨ m = 8 ∨
      m = 9 ∨ m = 10 ∨ m = 11 ∨ 12 ≤ m := by omega
  unfold daysBeforeMonthCommon
  rcases hm with h | h | h | h | h | h | h | h | h | h | h | h
  · rw [if_pos h]; omega
  all_goals (try subst h); simp <;> omega

/-- For a year of ordinary size the seconds of the year start are computed without
wrapping around. -/
theorem unixYearOf_eq (y : Int) (h1 : 1 ≤ y) (h2 : y ≤ maxYear) :
    unixYearOf y =
      ((y - 1) * 365 + (y - 1) / 4 - (y - 1) / 100 + (y - 1) / 400) * 86400
        - 719162 * 86400 := by
  unfold maxYear at h2
  unfold unixYearOf
  rw [secondsPerDay_eq, secondsBeforeUnix_eq, wrapInt_eq (y - 1) (by omega) (by omega)]
  rw [Int.tdiv_eq_ediv (show (0:Int) ≤ y - 1 by omega) (by omega),
    Int.tdiv_eq_ediv (show (0:Int) ≤ y - 1 by omega) (by omega),
    Int.tdiv_eq_ediv (show (0:Int) ≤ y - 1 by omega) (by omega)]
  rw [wrapInt_eq ((y - 1) * 365) (by omega) (by omega),
    wrapInt_eq ((y - 1) * 365 + (y - 1) / 4) (by omega) (by omega),
    wrapInt_eq ((y - 1) * 365 + (y - 1) / 4 - (y - 1) / 100) (by omega) (by omega),
    wrapInt_eq ((y - 1) * 365 + (y - 1) / 4 - (y - 1) / 100 + (y - 1) / 400)
      (by omega) (by omega),
    wrapInt_eq (((y - 1) * 365 + (y - 1) / 4 - (y - 1) / 100 + (y - 1) / 400) * 86400)
      (by omega) (by omega),
    wrapInt_eq _ (by omega) (by omega)]

/-- From 1970 on, for a year and a day number of ordinary size, the helper's weekday
of a day is the weekday of the calendar. -/
theorem AttunedMonth.Coherent.WeekDay_eq {my : AttunedMonth} (h : my.Coherent) (hy : 1970 ≤ my.y)
    (hy2 : my.y ≤ maxYear) (d : Int)
    (hd : 1 ≤ d) (hd2 : d ≤ 1000000000) : my.WeekDay d = (dayNumber my.y my.mon d + 4) % 7 := by
  have g := h.eq_amOf
  have hum : my.unixMonth = (amOf my.mon my.y).unixMonth := by rw [← g]
  unfold AttunedMonth.WeekDay AttunedMonth.unixDay
  rw [hum]
  simp only [amOf]
  rw [unixYearOf_eq my.y (by omega) hy2]
  unfold maxYear at hy2
  have hcm := daysBeforeMonthCommon_nonneg my.mon
  have hcm2 := daysBeforeMonthCommon_le my.mon
  rw [secondsPerDay_eq, firstWeekDay_eq]
  have hite : (0:Int) ≤ (if isLeapYear my.y = true ∧ my.mon > 2 then 1 else 0) ∧
      (if isLeapYear my.y = true ∧ my.mon > 2 then 1 else 0) ≤ (1:Int) := by
    split <;> omega
  rw [wrapInt_eq ((daysBeforeMonthCommon my.mon +
      (if isLeapYear my.y = true ∧ my.mon > 2 then 1 else 0)) * 86400) (by omega) (by omega),
    wrapInt_eq (d - 1) (by omega) (by omega),
    wrapInt_eq ((d - 1) * 86400) (by omega) (by omega),
    wrapInt_eq (((my.y - 1) * 365 + (my.y - 1) / 4 - (my.y - 1) / 100 + (my.y - 1) / 400)
      * 86400 - 719162 * 86400 + (daysBeforeMonthCommon my.mon +
      (if isLeapYear my.y = true ∧ my.mon > 2 then 1 else 0)) * 86400) (by omega) (by omega),
    wrapInt_eq (((my.y - 1) * 365 + (my.y - 1) / 4 - (my.y - 1) / 100 + (my.y - 1) / 400)
      * 86400 - 719162 * 86400 + (daysBeforeMonthCommon my.mon +
      (if isLeapYear my.y = true ∧ my.mon > 2 then 1 else 0)) * 86400 + (d - 1) * 86400)
      (by omega) (by omega),
    wrapInt_eq _ (by omega) (by omega)]
  have e : ((my.y - 1) * 365 + (my.y - 1) / 4 - (my.y - 1) / 100 + (my.y - 1) / 400)
      * 86400 - 719162 * 86400
      + (daysBeforeMonthCommon my.mon + (if isLeapYear my.y = true ∧ my.mon > 2 then 1 else 0))
        * 86400 + (d - 1) * 86400 + 4 * 86400
      = (dayNumber my.y my.mon d + 4) * 86400 := by
    unfold dayNumber daysBeforeYear
    split <;> omega
  rw [e]
  have hnn : 0 ≤ dayNumber my.y my.mon d + 4 := by
    unfold dayNumber daysBeforeYear
    split <;> omega
  rw [Int.tdiv_eq_ediv (by omega) (by omega),
    Int.mul_ediv_cancel _ (by omega), Int.tmod_eq_emod hnn (by omega)]

/-- The month/year step, on the numbers: the cache afterwards is that of an admitted
month of an admitted year, which is the least pair that qualifies (forward), or lies
before the pair held while no admitted pair is at or after it (fallen back), or is
the pair held while nothing later is admitted (stay; only when `inc` is false). -/
theorem nextMonY_spec (crn : CronExpression) (hM : crn.months.Steps 1 12)
    (hY : crn.years.Steps 1970 200000000) (c : CronInstance) (hc : c.crn = crn)
    (ham : c.am.Coherent) (inc : Bool) :
    ∃ b y2 m2, c.nextMonY inc = .ok (b, { c with am := amOf m2 y2 }) ∧
      1 ≤ m2 ∧ m2 ≤ 12 ∧ crn.years.admits y2 = true ∧ crn.months.admits m2 = true ∧
      (((c.am.y < y2 ∨ (c.am.y = y2 ∧ c.am.mon < m2) ∨ (inc = true ∧ c.am.y = y2 ∧ c.am.mon = m2)) ∧
          (b = true ↔ ¬ (y2 = c.am.y ∧ m2 = c.am.mon)) ∧
          ∀ ky km, crn.years.admits ky = true → crn.months.admits km = true →
            (c.am.y < ky ∨ (c.am.y = ky ∧ c.am.mon < km) ∨ (inc = true ∧ c.am.y = ky ∧ c.am.mon = km)) →
            (y2 < ky ∨ (y2 = ky ∧ m2 ≤ km)))
       ∨ (b = true ∧ (y2 < c.am.y ∨ (y2 = c.am.y ∧ m2 < c.am.mon)) ∧
          (∀ ky km, crn.years.admits ky = true → crn.months.admits km = true →
            (ky < c.am.y ∨ (ky = c.am.y ∧ km < c.am.mon))) ∧
          (y2 = c.am.y ∨ ∀ w, crn.years.admits w = true → w ≤ y2))
       ∨ (b = false ∧ y2 = c.am.y ∧ m2 = c.am.mon ∧ inc = false ∧
          ∀ ky km, crn.years.admits ky = true → crn.months.admits km = true →
            ¬ (c.am.y < ky ∨ (c.am.y = ky ∧ c.am.mon < km)))) := by
  obtain ⟨hMdom, hMnext⟩ := hM
  obtain ⟨hYdom, hYnext⟩ := hY
  obtain ⟨nm, l1, e1, a1, min1, q1, max1⟩ := hMnext c.am.mon inc
  obtain ⟨ny, l2, e2, a2, min2, q2, max2⟩ :=
    hYnext c.am.y (decide (nm > c.am.mon ∨ (inc = true ∧ nm = c.am.mon)))
  obtain ⟨fm, l3, e3, a3, min3, q3, max3⟩ := hMnext 1 true
  have hnm := hMdom nm a1
  have hfm := hMdom fm a3
  have hfirst : ∀ w, crn.months.admits w = true → fm ≤ w := by
    intro w hw
    have := hMdom w hw
    apply min3 w hw
    by_cases h : 1 < w
    · exact Or.inl h
    · exact Or.inr ⟨rfl, by omega⟩
  -- no admitted month qualifies when the month returned does not
  have hnoM : ¬ (nm > c.am.mon ∨ (inc = true ∧ nm = c.am.mon)) →
      ∀ km, crn.months.admits km = true → ¬ (c.am.mon < km ∨ (inc = true ∧ c.am.mon = km)) := by
    intro hinc km hkm hq
    have h1 := min1 km hkm hq
    rcases q1 with q | q
    · apply hinc
      rcases q with q | q
      · exact Or.inl q
      · exact Or.inr ⟨q.1, q.2.symm⟩
    · have h2 := max1 q km hkm
      apply hinc
      rcases hq with hq | hq
      · left; omega
      · right; exact ⟨hq.1, by omega⟩
  have hmaxM : ¬ (nm > c.am.mon ∨ (inc = true ∧ nm = c.am.mon)) →
      ∀ km, crn.months.admits km = true → km ≤ nm := by
    intro hinc
    rcases q1 with q | q
    · exfalso; apply hinc
      rcases q with q | q
      · exact Or.inl q
      · exact Or.inr ⟨q.1, q.2.symm⟩
    · exact max1 q
  unfold CronInstance.nextMonY
  simp only [hc, e1, e2, e3, Res.ok_bind, Res.pure_eq]
  simp only [decide_eq_true_eq] at min2 q2
  by_cases hne : ny ≠ c.am.y
  · rw [if_pos hne]
    rw [ham.UpdateMonthYear_eq fm ny hfm.1 hfm.2]
    simp only [Res.ok_bind]
    refine ⟨true, ny, fm, rfl, hfm.1, hfm.2, a2, a3, ?_⟩
    by_cases hlt : c.am.y < ny
    · left
      refine ⟨Or.inl hlt, ⟨fun _ => by omega, fun _ => rfl⟩, ?_⟩
      intro ky km hky hkm hq
      have hkm1 := hfirst km hkm
      have hky2 : ny ≤ ky := by
        by_cases hinc : nm > c.am.mon ∨ (inc = true ∧ nm = c.am.mon)
        · apply min2 ky hky
          rcases hq with h | h | h
          · exact Or.inl h
          · exact Or.inr ⟨hinc, h.1⟩
          · exact Or.inr ⟨hinc, h.2.1⟩
        · apply min2 ky hky
          left
          have hno := hnoM hinc km hkm
          rcases hq with h | h | h
          · exact h
          · exact absurd (Or.inl h.2) hno
          · exact absurd (Or.inr ⟨h.1, h.2.2⟩) hno
      omega
    · right; left
      have hlt2 : ny < c.am.y := by omega
      have hmaxy : ∀ w, crn.years.admits w = true → w ≤ ny := by
        rcases q2 with q | q
        · rcases q with q | q <;> omega
        · exact max2 q
      refine ⟨rfl, Or.inl hlt2, ?_, Or.inr hmaxy⟩
      intro ky km hky _
      have := hmaxy ky hky
      omega
  · rw [if_neg hne]
    have hyeq : ny = c.am.y := by omega
    rw [ham.UpdateMonth_eq nm hnm.1 hnm.2]
    simp only [Res.ok_bind]
    refine ⟨decide (nm ≠ c.am.mon), c.am.y, nm, rfl, hnm.1, hnm.2, hyeq ▸ a2, a1, ?_⟩
    by_cases hinc : nm > c.am.mon ∨ (inc = true ∧ nm = c.am.mon)
    · left
      refine ⟨?_, ⟨fun h => by have := of_decide_eq_true h; omega, fun h => decide_eq_true (by omega)⟩, ?_⟩
      · rcases hinc with h | h
        · exact Or.inr (Or.inl ⟨rfl, h⟩)
        · exact Or.inr (Or.inr ⟨h.1, rfl, h.2.symm⟩)
      · intro ky km hky hkm hq
        rcases hq with h | h | h
        · exact Or.inl h
        · right
          exact ⟨h.1, min1 km hkm (Or.inl h.2)⟩
        · right
          exact ⟨h.2.1, min1 km hkm (Or.inr ⟨h.1, h.2.2⟩)⟩
    · have hno := hnoM hinc
      have hmx := hmaxM hinc
      -- the year did not move although it had to: no later year is admitted
      have hmaxy : ∀ w, crn.years.admits w = true → w ≤ c.am.y := by
        intro w hw
        by_contra hcon
        have := min2 w hw (Or.inl (by omega))
        rcases q2 with q | q
        · rcases q with q | q
          · omega
          · exact hinc q.1
        · have := max2 q w hw
          omega
      by_cases hmeq : nm = c.am.mon
      · right; right
        have hincf : inc = false := by
          cases inc
          · rfl
          · exact absurd (Or.inr ⟨rfl, hmeq⟩) hinc
        refine ⟨decide_eq_false (by simpa using hmeq), rfl, hmeq, hincf, ?_⟩
        intro ky km hky hkm hq
        have h1 := hmaxy ky hky
        have h2 := hmx km hkm
        omega
      · right; left
        have hlt : nm < c.am.mon := by
          by_contra hcon
          exact hinc (Or.inl (by omega))
        refine ⟨decide_eq_true hmeq, Or.inr ⟨rfl, hlt⟩, ?_, Or.inl rfl⟩
        intro ky km hky hkm
        have h1 := hmaxy ky hky
        have h2 := hmx km hkm
        omega

theorem measure_month_step (fromY y m d y2 m2 : Int) (inc : Bool) (h1 : 1 ≤ m) (h2 : m ≤ 12)
    (h3 : 1 ≤ m2) (h4 : m2 ≤ 12) (hlt : y < y2 ∨ (y = y2 ∧ m < m2)) (hnear : y2 - fromY ≤ 400)
    (hstay : ¬ fromY ≤ y → y2 = y) :
    measureOf fromY y2 m2 1 true < measureOf fromY y m d inc := by
  unfold measureOf
  have e1 : min 33 (32 - (1:Int)).toNat + (if true = true then 1 else 0) = 32 := by decide
  rw [e1]
  by_cases hf : fromY ≤ y
  · have hf2 : fromY ≤ y2 := by omega
    rw [if_pos hf, if_pos hf2]
    omega
  · have hy := hstay hf
    subst hy
    rw [if_neg hf, if_neg hf]
    omega

theorem measure_day_step (fromY y m d d2 : Int) (inc : Bool) (hd1 : 1 ≤ d2) (hd2 : d2 ≤ 31)
    (hq : d < d2 ∨ (inc = true ∧ d = d2)) :
    measureOf fromY y m d2 false < measureOf fromY y m d inc := by
  unfold measureOf
  have e1 : (if false = true then 1 else 0) = 0 := rfl
  rw [e1]
  rcases hq with hq | ⟨hi, hq⟩
  · have : min 33 (32 - d2).toNat < min 33 (32 - d).toNat := by omega
    omega
  · subst hi; subst hq
    simp

theorem measure_bound (fromY y m d : Int) (inc : Bool) (h1 : 1 ≤ m) :
    measureOf fromY y m d inc < nextDBudget := by
  unfold measureOf nextDBudget
  have : (if inc = true then 1 else 0) ≤ 1 := by split <;> omega
  split <;> omega


theorem nextDay_spec (crn : CronExpression) (hD : crn.days.Steps 1 31)
    (hW : ∀ w, ∃ b, crn.containsWeekday w = .ok b) (c : CronInstance) (hc : c.crn = crn)
    (ham : c.am.Coherent) (hy : 1970 ≤ c.am.y) (hy2 : c.am.y ≤ maxYear) (fromD : Int)
    (inc : Bool) :
    ∃ d last invalid, c.nextDay fromD inc = .ok (d, last, invalid) ∧
      crn.days.admits d = true ∧
      (∀ w, crn.days.admits w = true → (fromD < w ∨ (inc = true ∧ fromD = w)) → d ≤ w) ∧
      ((fromD < d ∨ (inc = true ∧ fromD = d)) ∨ last = true) ∧
      (last = true → (∀ w, crn.days.admits w = true → w ≤ d) ∨ d = daysIn c.am.y c.am.mon) ∧
      (invalid = false ↔ ((fromD < d ∨ (inc = true ∧ fromD = d)) ∧ 1 ≤ d ∧
        d ≤ daysIn c.am.y c.am.mon ∧
        crn.containsWeekday ((dayNumber c.am.y c.am.mon d + 4) % 7) = .ok true)) := by
  obtain ⟨hDdom, hDnext⟩ := hD
  obtain ⟨d, l, e, a, hmin, q, hmax⟩ := hDnext fromD inc
  have hd := hDdom d a
  have hld := ham.lastDay_eq
  unfold CronInstance.nextDay
  simp only [hc, e, Res.ok_bind, Res.pure_eq]
  by_cases h1 : d < fromD ∨ (inc = false ∧ d = fromD) ∨ c.am.Contains d = false
  · rw [if_pos h1]
    refine ⟨d, l || c.am.IsMonthLastDay d, true, rfl, a, hmin, ?_, ?_, ?_⟩
    · rcases q with q | q
      · exact Or.inl q
      · right; simp [q]
    · intro hl
      simp only [Bool.or_eq_true, AttunedMonth.IsMonthLastDay, decide_eq_true_eq] at hl
      rcases hl with hl | hl
      · exact Or.inl (hmax hl)
      · right; rw [hl, hld]
    · constructor
      · intro h; cases h
      · rintro ⟨hq, hd1, hd2, _⟩
        exfalso
        rcases h1 with h | h | h
        · omega
        · rcases hq with hq | hq
          · omega
          · rw [h.1] at hq; cases hq.1
        · simp only [AttunedMonth.Contains, decide_eq_false_iff_not, hld] at h
          omega
  · rw [if_neg h1]
    have hq : fromD < d ∨ (inc = true ∧ fromD = d) := by
      by_cases hlt : fromD < d
      · exact Or.inl hlt
      · right
        have : d = fromD := by
          by_contra hcon
          exact h1 (Or.inl (by omega))
        refine ⟨?_, this.symm⟩
        cases inc
        · exact absurd (Or.inr (Or.inl ⟨rfl, this⟩)) h1
        · rfl
    have hcont : 1 ≤ d ∧ d ≤ daysIn c.am.y c.am.mon := by
      have : ¬ c.am.Contains d = false := fun h => h1 (Or.inr (Or.inr h))
      simp only [AttunedMonth.Contains, decide_eq_false_iff_not, not_not, hld] at this
      omega
    obtain ⟨b, hb⟩ := hW (c.am.WeekDay d)
    simp only [hb, Res.ok_bind, Res.pure_eq]
    refine ⟨d, l || c.am.IsMonthLastDay d, !b, rfl, a, hmin, Or.inl hq, ?_, ?_⟩
    · intro hl
      simp only [Bool.or_eq_true, AttunedMonth.IsMonthLastDay, decide_eq_true_eq] at hl
      rcases hl with hl | hl
      · exact Or.inl (hmax hl)
      · right; rw [hl, hld]
    · rw [ham.WeekDay_eq hy hy2 d hcont.1 (by omega)] at hb
      rw [hb]
      cases b <;> simp [hq, hcont]


theorem After3_true (y m d ky km kd : Int) :
    After3 y m d true ky km kd ↔ (y < ky ∨ (y = ky ∧ m < km) ∨ (y = ky ∧ m = km ∧ d ≤ kd)) := by
  unfold After3
  simp only [true_and]
  omega

theorem After3_false (y m d ky km kd : Int) :
    After3 y m d false ky km kd ↔ (y < ky ∨ (y = ky ∧ m < km) ∨ (y = ky ∧ m = km ∧ d < kd)) := by
  unfold After3
  simp only [Bool.false_eq_true, false_and, or_false]

theorem After3_weaken (y m d ky km kd : Int) (inc : Bool) (h : After3 y m d inc ky km kd) :
    After3 y m d true ky km kd := by
  rw [After3_true]
  rcases h with h | h | ⟨h1, h2, h3 | h3⟩
  · exact Or.inl h
  · exact Or.inr (Or.inl h)
  · exact Or.inr (Or.inr ⟨h1, h2, by omega⟩)
  · exact Or.inr (Or.inr ⟨h1, h2, by omega⟩)

theorem nextDLoop_spec (crn : CronExpression) (hD : crn.days.Steps 1 31)
    (hM : crn.months.Steps 1 12) (hY : crn.years.Steps 1970 200000000)
    (hW : ∀ w, ∃ b, crn.containsWeekday w = .ok b) (fromD fromY : Int) :
    ∀ (fuel : Nat) (c : CronInstance) (inc reset : Bool),
      c.crn = crn → c.am.Coherent → crn.years.admits c.am.y = true →
      crn.months.admits c.am.mon = true →
      (fromY ≤ c.am.y ∨ ∀ w, crn.years.admits w = true → w ≤ c.am.y) →
      loopMeasure fromY c inc < fuel →
      ∃ b c2, CronInstance.nextDLoop fromD fromY fuel c inc reset = .ok (b, c2) ∧
        c2.am.Coherent ∧
        ((c2 = { c with d := c2.d, am := c2.am, err := some Error.CronOutdatedInvalidError } ∧
            ∀ ky km kd, DateOK crn ky km kd → After3 c.am.y c.am.mon c.d inc ky km kd →
              fromY + 400 < ky)
         ∨ (c2 = { c with d := c2.d, am := c2.am } ∧ DateOK crn c2.am.y c2.am.mon c2.d ∧
            After3 c.am.y c.am.mon c.d inc c2.am.y c2.am.mon c2.d ∧
            (∀ ky km kd, DateOK crn ky km kd → After3 c.am.y c.am.mon c.d inc ky km kd →
              After3 c2.am.y c2.am.mon c2.d true ky km kd) ∧
            b = ((reset || decide (¬ (c2.am.y = c.am.y ∧ c2.am.mon = c.am.mon)))
                  || decide (c2.d ≠ fromD)))) := by
  intro fuel
  induction fuel with
  | zero => intro c inc reset _ _ _ _ _ hm; omega
  | succ n ih =>
    intro c inc reset hc ham hay ham2 hfy hmeas
    have hy1970 : 1970 ≤ c.am.y := (hY.1 _ hay).1
    have hmon := hM.1 _ ham2
    obtain ⟨d, last, invalid, e, ad, dmin, dq, dlast, dinv⟩ :=
      nextDay_spec crn hD hW c hc ham hy1970
        (by have := (hY.1 _ hay).2; unfold maxYear; omega) c.d inc
    have hdd := hD.1 d ad
    unfold CronInstance.nextDLoop
    simp only [e, Res.ok_bind, Res.pure_eq]
    -- no admitted date of the month held qualifies once the day is invalid and last
    have hmonthdone : invalid = true → last = true →
        ∀ kd, DateOK crn c.am.y c.am.mon kd → ¬ (c.d < kd ∨ (inc = true ∧ c.d = kd)) := by
      intro hi hl kd hk hq
      have h1 := dmin kd hk.2.2.1 hq
      have h2 : kd ≤ d := by
        rcases dlast hl with h | h
        · exact h kd hk.2.2.1
        · have := hk.2.2.2.2.1; omega
      have hkd : kd = d := by omega
      subst hkd
      have : invalid = false := dinv.2 ⟨by
        rcases hq with hq | hq
        · exact Or.inl hq
        · exact Or.inr hq, hk.2.2.2.1, hk.2.2.2.2.1, hk.2.2.2.2.2⟩
      rw [this] at hi; cases hi
    by_cases hil : invalid = true ∧ last = true
    · rw [if_pos hil]
      have hdone := hmonthdone hil.1 hil.2
      have hc1 : ({ c with d := d } : CronInstance).crn = crn := hc
      obtain ⟨bm, y2, m2, em, hm1, hm2, ay2, am2, hcase⟩ :=
        nextMonY_spec crn hM hY { c with d := d } hc1 ham false
      simp only [em, Res.ok_bind, Res.pure_eq]
      simp only [Bool.false_eq_true, false_and, or_false] at hcase
      rcases hcase with ⟨hq, hb, hmin⟩ | ⟨_, _, hall, _⟩ | ⟨hb, hy2, hm2e, _, hnone⟩
      · -- the month moved forward
        have hbt : bm = true := hb.2 (by omega)
        by_cases hstop : bm = false ∨ (amOf m2 y2).y - fromY > 400
        · rw [if_pos hstop]
          refine ⟨false, _, rfl, Coherent_amOf m2 y2 hm1 hm2, Or.inl ⟨rfl, ?_⟩⟩
          intro ky km kd hk haft
          have hfar : y2 - fromY > 400 := by
            rcases hstop with h | h
            · rw [hbt] at h; cases h
            · exact (show y2 - fromY > 400 from h)
          have hlater : c.am.y < ky ∨ (c.am.y = ky ∧ c.am.mon < km) := by
            rcases haft with h | h | ⟨h1, h2, h3⟩
            · exact Or.inl h
            · exact Or.inr h
            · subst h1; subst h2
              exact absurd h3 (hdone kd hk)
          have := hmin ky km hk.1 hk.2.1 hlater
          omega
        · rw [if_neg hstop]
          have hnear : y2 - fromY ≤ 400 := by
            by_contra hcon
            exact hstop (Or.inr (by show y2 - fromY > 400; omega))
          have hfy2 : fromY ≤ y2 ∨ ∀ w, crn.years.admits w = true → w ≤ y2 := by
            rcases hfy with h | h
            · left; omega
            · right
              have := h y2 ay2
              have : y2 = c.am.y := by omega
              rw [this]; exact h
          have hmeas2 : loopMeasure fromY
              { c with d := 1, am := amOf m2 y2 } true < n := by
            have hy2le : ¬ fromY ≤ c.am.y → y2 = c.am.y := by
              intro hnot
              rcases hfy with h | h
              · exact absurd h hnot
              · have := h y2 ay2; omega
            have := measure_month_step fromY c.am.y c.am.mon c.d y2 m2 inc hmon.1 hmon.2 hm1 hm2
              (by omega) hnear hy2le
            unfold loopMeasure at hmeas ⊢
            simp only [amOf] at this ⊢
            omega
          obtain ⟨b, c2, e2, hco2, hres⟩ := ih { c with d := 1, am := amOf m2 y2 } true bm hc
            (Coherent_amOf m2 y2 hm1 hm2) ay2 am2 hfy2 hmeas2
          refine ⟨b, c2, e2, hco2, ?_⟩
          have hlater : ∀ ky km kd, DateOK crn ky km kd →
              After3 c.am.y c.am.mon c.d inc ky km kd →
              After3 y2 m2 1 true ky km kd := by
            intro ky km kd hk haft
            have hlat : c.am.y < ky ∨ (c.am.y = ky ∧ c.am.mon < km) := by
              rcases haft with h | h | ⟨h1, h2, h3⟩
              · exact Or.inl h
              · exact Or.inr h
              · subst h1; subst h2
                exact absurd h3 (hdone kd hk)
            have := hmin ky km hk.1 hk.2.1 hlat
            have := hk.2.2.2.1
            rw [After3_true]
            omega
          rcases hres with ⟨hfr, hfail⟩ | ⟨hfr, hok, haft, hmn, hbb⟩
          · left
            refine ⟨hfr.trans rfl, ?_⟩
            intro ky km kd hk haft
            exact hfail ky km kd hk (hlater ky km kd hk haft)
          · right
            simp only [amOf] at haft hmn
            rw [After3_true] at haft
            refine ⟨hfr.trans rfl, hok, ?_, ?_, ?_⟩
            · have hlt : c.am.y < y2 ∨ (c.am.y = y2 ∧ c.am.mon < m2) := by omega
              rcases hlt with h | h
              · exact Or.inl (by omega)
              · rcases haft with h2 | h2 | h2
                · exact Or.inl (by omega)
                · exact Or.inr (Or.inl ⟨by omega, by omega⟩)
                · exact Or.inr (Or.inl ⟨by omega, by omega⟩)
            · intro ky km kd hk haft2
              exact hmn ky km kd hk (hlater ky km kd hk haft2)
            · rw [hbb, hbt]
              have : ¬ (c2.am.y = c.am.y ∧ c2.am.mon = c.am.mon) := by
                omega
              simp [this]
      · -- the pair held is admitted, so the month cannot fall back
        exfalso
        have := hall c.am.y c.am.mon hay ham2
        omega
      · -- nothing later is admitted
        rw [if_pos (Or.inl hb)]
        refine ⟨false, _, rfl, Coherent_amOf m2 y2 hm1 hm2, Or.inl ⟨rfl, ?_⟩⟩
        intro ky km kd hk haft
        exfalso
        rcases haft with h | h | ⟨h1, h2, h3⟩
        · exact hnone ky km hk.1 hk.2.1 (Or.inl h)
        · exact hnone ky km hk.1 hk.2.1 (Or.inr h)
        · subst h1; subst h2
          exact hdone kd hk h3
    · rw [if_neg hil]
      by_cases hinv : invalid = true
      · rw [if_pos hinv]
        have hnl : last = false := by
          cases last
          · rfl
          · exact absurd ⟨hinv, rfl⟩ hil
        have hq : c.d < d ∨ (inc = true ∧ c.d = d) := by
          rcases dq with h | h
          · exact h
          · rw [hnl] at h; cases h
        have hmeas2 : loopMeasure fromY { c with d := d } false < n := by
          have := measure_day_step fromY c.am.y c.am.mon c.d d inc hdd.1 hdd.2 hq
          unfold loopMeasure at hmeas ⊢
          simp only at this ⊢
          omega
        obtain ⟨b, c2, e2, hco2, hres⟩ := ih { c with d := d } false reset hc ham hay ham2 hfy hmeas2
        refine ⟨b, c2, e2, hco2, ?_⟩
        have hlater : ∀ ky km kd, DateOK crn ky km kd →
            After3 c.am.y c.am.mon c.d inc ky km kd →
            After3 c.am.y c.am.mon d false ky km kd := by
          intro ky km kd hk haft
          rcases haft with h | h | ⟨h1, h2, h3⟩
          · exact Or.inl h
          · exact Or.inr (Or.inl h)
          · right; right
            refine ⟨h1, h2, Or.inl ?_⟩
            have h4 := dmin kd hk.2.2.1 h3
            rcases lt_or_eq_of_le h4 with h5 | h5
            · exact h5
            · exfalso
              subst h1; subst h2; subst h5
              have : invalid = false := dinv.2 ⟨hq, hk.2.2.2.1, hk.2.2.2.2.1, hk.2.2.2.2.2⟩
              rw [this] at hinv; cases hinv
        rcases hres with ⟨hfr, hfail⟩ | ⟨hfr, hok, haft, hmn, hbb⟩
        · left
          refine ⟨hfr.trans rfl, ?_⟩
          intro ky km kd hk haft
          exact hfail ky km kd hk (hlater ky km kd hk haft)
        · right
          refine ⟨hfr.trans rfl, hok, ?_, ?_, hbb⟩
          · rw [After3_false] at haft
            rcases haft with h | h | ⟨h1, h2, h3⟩
            · exact Or.inl h
            · exact Or.inr (Or.inl h)
            · refine Or.inr (Or.inr ⟨h1, h2, Or.inl ?_⟩)
              have h3 : d < c2.d := h3
              rcases hq with hq | hq <;> omega
          · intro ky km kd hk haft2
            exact hmn ky km kd hk (hlater ky km kd hk haft2)
      · rw [if_neg hinv]
        have hinvf : invalid = false := by
          cases invalid
          · rfl
          · exact absurd rfl hinv
        obtain ⟨hq, hd1, hd2, hwd⟩ := dinv.1 hinvf
        refine ⟨_, _, rfl, ham, Or.inr ⟨rfl, ⟨hay, ham2, ad, hd1, hd2, hwd⟩, ?_, ?_, ?_⟩⟩
        · right; right; exact ⟨rfl, rfl, hq⟩
        · intro ky km kd hk haft
          rcases haft with h | h | ⟨h1, h2, h3⟩
          · exact Or.inl h
          · exact Or.inr (Or.inl h)
          · right; right
            refine ⟨h1, h2, ?_⟩
            have h4 := dmin kd hk.2.2.1 h3
            rcases lt_or_eq_of_le h4 with h5 | h5
            · exact Or.inl h5
            · exact Or.inr ⟨rfl, h5⟩
        · simp

theorem nextH_eq : CronInstance.nextH =
    levelStep (fun c => c.h) (fun c v => { c with h := v }) (fun e => e.hours) CronInstance.nextD := by
  funext c inc; rfl

theorem nextMin_eq : CronInstance.nextMin =
    levelStep (fun c => c.min) (fun c v => { c with min := v }) (fun e => e.minutes)
      CronInstance.nextH := by
  funext c inc; rfl

theorem nextS_eq : CronInstance.nextS =
    levelStep (fun c => c.s) (fun c v => { c with s := v }) (fun e => e.seconds)
      CronInstance.nextMin := by
  funext c inc; rfl

theorem lex_lt_iff {κ : Type} [LinearOrder κ] (a b : κ) (x y : Int) :
    toLex (a, x) < toLex (b, y) ↔ a < b ∨ (a = b ∧ x < y) := Prod.Lex.lt_iff _ _

theorem lex_le_iff {κ : Type} [LinearOrder κ] (a b : κ) (x y : Int) :
    toLex (a, x) ≤ toLex (b, y) ↔ a < b ∨ (a = b ∧ x ≤ y) := Prod.Lex.le_iff _ _

theorem lex_eq_iff {κ : Type} [LinearOrder κ] (a b : κ) (x y : Int) :
    toLex (a, x) = toLex (b, y) ↔ a = b ∧ x = y := by
  simp

theorem levelStep_ok {κ π : Type} [LinearOrder κ] (crn : CronExpression)
    (key : CronInstance → κ) (V : κ → Prop) (far : CronInstance → κ → Prop)
    (proj : CronInstance → π) (get : CronInstance → Int)
    (set : CronInstance → Int → CronInstance) (E : CronExpression → Expression)
    (up : CronInstance → Bool → Res (Bool × CronInstance)) (hi : Int)
    (hE : (E crn).Steps 0 hi)
    (hup : StepOK crn key V far (fun c => (get c, proj c)) up)
    (hget : ∀ c v, get (set c v) = v) (hkey : ∀ c v, key (set c v) = key c)
    (hproj : ∀ c v, proj (set c v) = proj c) (hcrn : ∀ c v, (set c v).crn = c.crn)
    (ham : ∀ c v, (set c v).am = c.am) (hfol : ∀ c v, (set c v).following = c.following)
    (herr : ∀ c v, (set c v).err = c.err) (hfar : ∀ c v, far (set c v) = far c) :
    StepOK crn (fun c => toLex (key c, get c))
      (fun p => V (ofLex p).1 ∧ (E crn).admits (ofLex p).2 = true)
      (fun c p => far c (ofLex p).1) proj (levelStep get set E up) := by
  intro c inc hc hco
  obtain ⟨hdom, hnext⟩ := hE
  obtain ⟨v1, l1, e1, a1, min1, q1, max1⟩ := hnext (get c) inc
  obtain ⟨vf, lf, ef, af, minf, _, _⟩ := hnext 0 true
  have hfirst : ∀ w, (E crn).admits w = true → vf ≤ w := by
    intro w hw
    have := hdom w hw
    apply minf w hw
    by_cases h : 0 < w
    · exact Or.inl h
    · exact Or.inr ⟨rfl, by omega⟩
  -- the value returned qualifies as soon as some member does
  have hq1 : ∀ w, (E crn).admits w = true → (get c < w ∨ (inc = true ∧ get c = w)) →
      (get c < v1 ∨ (inc = true ∧ get c = v1)) := by
    intro w hw hq
    have h1 := min1 w hw hq
    rcases q1 with q | q
    · exact q
    · have h2 := max1 q w hw
      have : v1 = w := by omega
      rw [this]; exact hq
  have hc1 : (set c v1).crn = crn := by rw [hcrn]; exact hc
  have hco1 : (set c v1).am.Coherent := by rw [ham]; exact hco
  obtain ⟨r, c2, eu, hc2, hco2, hfol2, hpr2, hcase⟩ :=
    hup (set c v1) (decide (get (set c v1) > get c ∨ (inc = true ∧ get (set c v1) = get c)))
      hc1 hco1
  simp only [Prod.mk.injEq, hget, hproj] at hpr2
  obtain ⟨hg2, hpr2⟩ := hpr2
  rw [hfol] at hfol2
  simp only [hkey, hget, hfar, herr, decide_eq_true_eq] at hcase
  -- a qualifying pair in the key held makes the coarser call inclusive
  have hsame : ∀ w, (E crn).admits w = true → (get c < w ∨ (inc = true ∧ get c = w)) →
      (v1 > get c ∨ (inc = true ∧ v1 = get c)) := by
    intro w hw hq
    rcases hq1 w hw hq with h | h
    · exact Or.inl h
    · exact Or.inr ⟨h.1, h.2.symm⟩
  have hlift : ∀ k w, (E crn).admits w = true → Qual (toLex (key c, get c)) inc (toLex (k, w)) →
      Qual (key c) (decide (v1 > get c ∨ (inc = true ∧ v1 = get c))) k := by
    intro k w hw hq
    rcases hq with hq | ⟨hi1, hq⟩
    · rcases (lex_lt_iff _ _ _ _).1 hq with h | ⟨h1, h2⟩
      · exact Or.inl h
      · exact Or.inr ⟨decide_eq_true (hsame w hw (Or.inl h2)), h1⟩
    · obtain ⟨h1, h2⟩ := (lex_eq_iff _ _ _ _).1 hq
      exact Or.inr ⟨decide_eq_true (hsame w hw (Or.inr ⟨hi1, h2⟩)), h1⟩
  simp only [hget] at eu
  unfold levelStep
  simp only [hc, e1, Res.ok_bind, Res.pure_eq, hget, eu, hc2, ef]
  by_cases hr : r = true
  · rw [if_pos hr]
    refine ⟨true, set c2 vf, rfl, by rw [hcrn]; exact hc2, by rw [ham]; exact hco2,
      by rw [hfol]; exact hfol2, by rw [hproj]; exact hpr2, ?_⟩
    simp only [hkey, hget, herr, ofLex_toLex]
    rcases hcase with ⟨he, hnone⟩ | ⟨he, hv, hq, hb, hmin⟩ | ⟨he, hv, hb, hlt, hall⟩
    · left
      refine ⟨he, ?_⟩
      intro p hp hqp
      exact hnone _ hp.1 (hlift (ofLex p).1 (ofLex p).2 hp.2 hqp)
    · right; left
      have hne : key c2 ≠ key c := hb.1 hr
      have hlt : key c < key c2 := by
        rcases hq with h | h
        · exact h
        · exact absurd h.2.symm hne
      refine ⟨he, ⟨hv, af⟩, Or.inl ((lex_lt_iff _ _ _ _).2 (Or.inl hlt)), ?_, ?_⟩
      · have hne2 : toLex (key c2, vf) ≠ toLex (key c, get c) :=
          fun h => hne ((lex_eq_iff _ _ _ _).1 h).1
        simp [hne2]
      · intro p hp hqp
        have hk := hmin _ hp.1 (hlift (ofLex p).1 (ofLex p).2 hp.2 hqp)
        have hw := hfirst _ hp.2
        show toLex (key c2, vf) ≤ toLex ((ofLex p).1, (ofLex p).2)
        rw [lex_le_iff]
        rcases lt_or_eq_of_le hk with h | h
        · exact Or.inl h
        · exact Or.inr ⟨h, hw⟩
    · right; right
      refine ⟨he, ⟨hv, af⟩, trivial, (lex_lt_iff _ _ _ _).2 (Or.inl hlt), ?_⟩
      intro p hp
      show toLex ((ofLex p).1, (ofLex p).2) < toLex (key c, get c)
      rw [lex_lt_iff]
      exact Or.inl (hall _ hp.1)
  · rw [if_neg hr]
    refine ⟨decide (v1 ≠ get c), c2, by rw [hg2], hc2, hco2, hfol2, hpr2, ?_⟩
    simp only [hg2, ofLex_toLex]
    rcases hcase with ⟨he, hnone⟩ | ⟨he, hv, hq, hb, hmin⟩ | ⟨he, hv, hb, hlt, hall⟩
    · left
      refine ⟨he, ?_⟩
      intro p hp hqp
      exact hnone _ hp.1 (hlift (ofLex p).1 (ofLex p).2 hp.2 hqp)
    · right; left
      have heq : key c2 = key c := by
        by_contra hne
        exact hr (hb.2 hne)
      have hqv : v1 > get c ∨ (inc = true ∧ v1 = get c) := by
        rcases hq with h | h
        · rw [heq] at h; exact absurd h (lt_irrefl _)
        · exact of_decide_eq_true h.1
      refine ⟨he, ⟨hv, a1⟩, ?_, ?_, ?_⟩
      · rw [heq]
        rcases hqv with h | h
        · exact Or.inl ((lex_lt_iff _ _ _ _).2 (Or.inr ⟨rfl, h⟩))
        · exact Or.inr ⟨h.1, by rw [h.2]⟩
      · rw [heq]
        simp only [ne_eq, decide_eq_true_eq, lex_eq_iff, true_and]
      · intro p hp hqp
        show toLex (key c2, v1) ≤ toLex ((ofLex p).1, (ofLex p).2)
        rw [lex_le_iff, heq]
        have hqp2 : Qual (toLex (key c, get c)) inc (toLex ((ofLex p).1, (ofLex p).2)) := hqp
        rcases hqp2 with h | ⟨hi1, h⟩
        · rcases (lex_lt_iff _ _ _ _).1 h with h1 | ⟨h1, h2⟩
          · exact Or.inl h1
          · exact Or.inr ⟨h1, min1 _ hp.2 (Or.inl h2)⟩
        · obtain ⟨h1, h2⟩ := (lex_eq_iff _ _ _ _).1 h
          exact Or.inr ⟨h1, min1 _ hp.2 (Or.inr ⟨hi1, h2⟩)⟩
    · exact absurd hb hr

theorem key3_lt (y m d ky km kd : Int) :
    (toLex (toLex (y, m), d) : Lex (Lex (Int × Int) × Int)) < toLex (toLex (ky, km), kd) ↔
      (y < ky ∨ (y = ky ∧ m < km) ∨ (y = ky ∧ m = km ∧ d < kd)) := by
  rw [lex_lt_iff, lex_lt_iff, lex_eq_iff]
  tauto

theorem key3_eq (y m d ky km kd : Int) :
    (toLex (toLex (y, m), d) : Lex (Lex (Int × Int) × Int)) = toLex (toLex (ky, km), kd) ↔
      (y = ky ∧ m = km ∧ d = kd) := by
  rw [lex_eq_iff, lex_eq_iff]
  tauto

theorem key3_le (y m d ky km kd : Int) :
    (toLex (toLex (y, m), d) : Lex (Lex (Int × Int) × Int)) ≤ toLex (toLex (ky, km), kd) ↔
      After3 y m d true ky km kd := by
  rw [lex_le_iff, lex_lt_iff, lex_eq_iff, After3_true]
  tauto

theorem key3_qual (y m d ky km kd : Int) (inc : Bool) :
    Qual (toLex (toLex (y, m), d) : Lex (Lex (Int × Int) × Int)) inc (toLex (toLex (ky, km), kd)) ↔
      After3 y m d inc ky km kd := by
  unfold Qual After3
  rw [key3_lt, key3_eq]
  tauto

theorem nextD_ok (crn : CronExpression) (hD : crn.days.Steps 1 31)
    (hM : crn.months.Steps 1 12) (hY : crn.years.Steps 1970 200000000)
    (hW : ∀ w, ∃ b, crn.containsWeekday w = .ok b) :
    StepOK crn dayKey (DayOK crn) dayFar (fun c => (c.h, c.min, c.s, c.ms, c.location))
      CronInstance.nextD := by
  intro c inc hc hco
  have hmon : 1 ≤ c.am.mon ∧ c.am.mon ≤ 12 := ⟨hco.1, hco.2.1⟩
  obtain ⟨bm, y2, m2, em, hm1, hm2, ay2, am2, hcase⟩ := nextMonY_spec crn hM hY c hc hco true
  unfold CronInstance.nextD
  simp only [em, Res.ok_bind, Res.pure_eq]
  -- what the two results of the loop mean for the call
  have hqual : ∀ k, Qual (dayKey c) inc k ↔
      After3 c.am.y c.am.mon c.d inc (ofLex (ofLex k).1).1 (ofLex (ofLex k).1).2 (ofLex k).2 :=
    fun k => key3_qual _ _ _ _ _ _ _
  have hle : ∀ (a b d : Int) k, toLex (toLex (a, b), d) ≤ k ↔
      After3 a b d true (ofLex (ofLex k).1).1 (ofLex (ofLex k).1).2 (ofLex k).2 :=
    fun a b d k => key3_le _ _ _ _ _ _
  have hlt : ∀ (a b d : Int) k, k < toLex (toLex (a, b), d) ↔
      ((ofLex (ofLex k).1).1 < a ∨ ((ofLex (ofLex k).1).1 = a ∧ (ofLex (ofLex k).1).2 < b) ∨
        ((ofLex (ofLex k).1).1 = a ∧ (ofLex (ofLex k).1).2 = b ∧ (ofLex k).2 < d)) :=
    fun a b d k => key3_lt _ _ _ _ _ _
  have hloop := nextDLoop_spec crn hD hM hY hW c.d c.am.y nextDBudget
  rcases hcase with ⟨hq, hb, hmin⟩ | ⟨hb, hback, hall, hyy⟩ | ⟨_, _, _, hf, _⟩
  · by_cases hbm : bm = true
    · -- the month or the year moved forward: search from the first day
      rw [if_pos hbm]
      have hne : ¬ (y2 = c.am.y ∧ m2 = c.am.mon) := hb.1 hbm
      have hgt : c.am.y < y2 ∨ (c.am.y = y2 ∧ c.am.mon < m2) := by omega
      obtain ⟨b, c2, e2, hco2, hres⟩ := hloop { c with am := amOf m2 y2, d := 1 } true bm hc
        (Coherent_amOf m2 y2 hm1 hm2) ay2 am2 (Or.inl (by show c.am.y ≤ y2; omega))
        (measure_bound _ _ _ _ _ hm1)
      simp only [amOf] at hres
      have hlater : ∀ ky km kd, DateOK crn ky km kd → After3 c.am.y c.am.mon c.d inc ky km kd →
          After3 y2 m2 1 true ky km kd := by
        intro ky km kd hk haft
        have h1 := hk.2.2.2.1
        have h2 := hmin ky km hk.1 hk.2.1 (by
          rcases haft with h | h | ⟨h3, h4, _⟩
          · exact Or.inl h
          · exact Or.inr (Or.inl h)
          · exact Or.inr (Or.inr ⟨rfl, h3, h4⟩))
        rw [After3_true]
        omega
      refine ⟨b, c2, e2, ?_, hco2, ?_, ?_, ?_⟩
      · rcases hres with ⟨hfr, _⟩ | ⟨hfr, _⟩ <;> rw [hfr] <;> exact hc
      · rcases hres with ⟨hfr, _⟩ | ⟨hfr, _⟩ <;> rw [hfr]
      · rcases hres with ⟨hfr, _⟩ | ⟨hfr, _⟩ <;> rw [hfr]
      · rcases hres with ⟨hfr, hfail⟩ | ⟨hfr, hok, haft, hmn, hbb⟩
        · left
          refine ⟨by rw [hfr], ?_⟩
          intro k hk hqk
          exact hfail _ _ _ hk (hlater _ _ _ hk ((hqual k).1 hqk))
        · right; left
          rw [After3_true] at haft
          have hne2 : ¬ (c2.am.y = c.am.y ∧ c2.am.mon = c.am.mon) := by omega
          refine ⟨by rw [hfr], hok, ?_, ?_, ?_⟩
          · apply (key3_qual _ _ _ _ _ _ _).2
            rcases hgt with h | h
            · exact Or.inl (by omega)
            · rcases haft with h2 | h2 | h2
              · exact Or.inl (by omega)
              · exact Or.inr (Or.inl ⟨by omega, by omega⟩)
              · exact Or.inr (Or.inl ⟨by omega, by omega⟩)
          · rw [hbb, hbm]
            have : dayKey c2 ≠ dayKey c := by
              intro h
              have := (key3_eq _ _ _ _ _ _).1 h
              omega
            simp [this]
          · intro k hk hqk
            exact (hle _ _ _ k).2 (hmn _ _ _ hk (hlater _ _ _ hk ((hqual k).1 hqk)))
    · -- the month and the year held are admitted: search on from the day held
      rw [if_neg hbm]
      have hbf : bm = false := by
        cases bm
        · rfl
        · exact absurd rfl hbm
      have hsame : y2 = c.am.y ∧ m2 = c.am.mon := by
        by_contra hcon
        exact hbm (hb.2 hcon)
      have hamc : amOf m2 y2 = c.am := by
        rw [hsame.1, hsame.2]; exact hco.eq_amOf.symm
      have hcc : ({ c with am := amOf m2 y2 } : CronInstance) = c := by
        rw [hamc]
      rw [hcc]
      obtain ⟨b, c2, e2, hco2, hres⟩ := hloop c inc bm hc hco (hsame.1 ▸ ay2) (hsame.2 ▸ am2)
        (Or.inl (le_refl _)) (measure_bound _ _ _ _ _ hmon.1)
      refine ⟨b, c2, e2, ?_, hco2, ?_, ?_, ?_⟩
      · rcases hres with ⟨hfr, _⟩ | ⟨hfr, _⟩ <;> rw [hfr] <;> exact hc
      · rcases hres with ⟨hfr, _⟩ | ⟨hfr, _⟩ <;> rw [hfr]
      · rcases hres with ⟨hfr, _⟩ | ⟨hfr, _⟩ <;> rw [hfr]
      · rcases hres with ⟨hfr, hfail⟩ | ⟨hfr, hok, haft, hmn, hbb⟩
        · left
          refine ⟨by rw [hfr], ?_⟩
          intro k hk hqk
          exact hfail _ _ _ hk ((hqual k).1 hqk)
        · right; left
          refine ⟨by rw [hfr], hok, (key3_qual _ _ _ _ _ _ _).2 haft, ?_, ?_⟩
          · rw [hbb, hbf]
            simp only [Bool.false_or, Bool.or_eq_true, decide_eq_true_eq, ne_eq]
            unfold dayKey
            rw [key3_eq]
            tauto
          · intro k hk hqk
            exact (hle _ _ _ k).2 (hmn _ _ _ hk ((hqual k).1 hqk))
  · -- the month or the year fell back
    rw [if_pos hb]
    have hnone : ∀ ky km kd, DateOK crn ky km kd → ¬ After3 c.am.y c.am.mon c.d inc ky km kd := by
      intro ky km kd hk haft
      have := hall ky km hk.1 hk.2.1
      unfold After3 at haft
      omega
    obtain ⟨b, c2, e2, hco2, hres⟩ := hloop { c with am := amOf m2 y2, d := 1 } true bm hc
      (Coherent_amOf m2 y2 hm1 hm2) ay2 am2 (by
        rcases hyy with h | h
        · exact Or.inl (by show c.am.y ≤ y2; omega)
        · exact Or.inr h)
      (measure_bound _ _ _ _ _ hm1)
    refine ⟨b, c2, e2, ?_, hco2, ?_, ?_, ?_⟩
    · rcases hres with ⟨hfr, _⟩ | ⟨hfr, _⟩ <;> rw [hfr] <;> exact hc
    · rcases hres with ⟨hfr, _⟩ | ⟨hfr, _⟩ <;> rw [hfr]
    · rcases hres with ⟨hfr, _⟩ | ⟨hfr, _⟩ <;> rw [hfr]
    · rcases hres with ⟨hfr, hfail⟩ | ⟨hfr, hok, haft, hmn, hbb⟩
      · left
        refine ⟨by rw [hfr], ?_⟩
        intro k hk hqk
        exact absurd ((hqual k).1 hqk) (hnone _ _ _ hk)
      · right; right
        have hprev := hall c2.am.y c2.am.mon hok.1 hok.2.1
        refine ⟨by rw [hfr], hok, ?_, ?_, ?_⟩
        · rw [hbb, hb]; simp
        · unfold dayKey
          rw [key3_lt]
          omega
        · intro k hk
          have := hall _ _ hk.1 hk.2.1
          rw [dayKey, hlt]
          omega
  · cases hf

theorem WF_Steps (lo hi : Int) (e : Expression) (h : e.WF lo hi)
    (hlo : 0 ≤ lo) : e.Steps lo hi := by
  cases e with
  | int v => exact Steps_int lo hi v h
  | between b =>
    obtain ⟨h1, h2, h3, h4, h5⟩ := h
    refine Steps_between lo hi b ⟨h1, h2, h3, h4⟩ ?_
    unfold maxInt at h5
    unfold BetweenExpression.Exact minInt maxInt
    omega
  | list l => exact Steps_list lo hi l h
  | nil => cases h
  | month v => cases h
  | weekday v => cases h

theorem WFMonth_Steps (e : Expression) (h : e.WFMonth) : e.Steps 1 12 := by
  cases e with
  | month v => exact Steps_month 1 12 v h
  | int v => exact Steps_int 1 12 v h
  | between b =>
    obtain ⟨h1, h2, h3, h4, h5⟩ := h
    refine Steps_between 1 12 b ⟨h1, h2, h3, h4⟩ ?_
    unfold maxInt at h5
    unfold BetweenExpression.Exact minInt maxInt
    omega
  | list l => exact Steps_list 1 12 l h
  | nil => cases h
  | weekday v => cases h

theorem WFWeekday_total (crn : CronExpression) (h : crn.weekdays.WFWeekday) :
    ∀ w, ∃ b, crn.containsWeekday w = .ok b := by
  intro w
  unfold CronExpression.containsWeekday
  cases hw : crn.weekdays with
  | weekday v => exact ⟨_, rfl⟩
  | between b =>
    rw [hw] at h
    obtain ⟨_, hxy, _, hs, _⟩ := h
    by_cases hc : b.Contains w = .ok true
    · exact ⟨true, hc⟩
    · refine ⟨false, ?_⟩
      simp only
      unfold BetweenExpression.Contains at hc ⊢
      split_ifs at hc ⊢ <;> first | rfl | omega | simp_all
  | list l =>
    rw [hw] at h
    obtain ⟨hne, _, _⟩ := h
    simp only
    unfold ListExpression.Contains
    cases hv : l.values with
    | nil => exact absurd hv hne
    | cons a t =>
      have hlast : ∃ lastV, (a :: t).getLast? = some lastV := by
        cases hg : (a :: t).getLast? with
        | none => simp at hg
        | some x => exact ⟨x, rfl⟩
      obtain ⟨lastV, hl⟩ := hlast
      simp only [List.head?_cons, hl]
      split_ifs <;> exact ⟨_, rfl⟩
  | nil => rw [hw] at h; cases h
  | int v => rw [hw] at h; cases h
  | month v => rw [hw] at h; cases h

theorem nextH_ok (crn : CronExpression) (hwf : crn.WF) :
    StepOK crn (fun c => toLex (dayKey c, c.h))
      (fun p => DayOK crn (ofLex p).1 ∧ crn.hours.admits (ofLex p).2 = true)
      (fun c p => dayFar c (ofLex p).1) (fun c => (c.min, c.s, c.ms, c.location))
      CronInstance.nextH := by
  rw [nextH_eq]
  exact levelStep_ok crn dayKey (DayOK crn) dayFar (fun c => (c.min, c.s, c.ms, c.location))
    (fun c => c.h) (fun c v => { c with h := v }) (fun e => e.hours) CronInstance.nextD 23
    (WF_Steps 0 23 _ hwf.hours (by decide))
    (nextD_ok crn (WF_Steps 1 31 _ hwf.days (by decide)) (WFMonth_Steps _ hwf.months)
      (WF_Steps 1970 200000000 _ hwf.years (by decide)) (WFWeekday_total crn hwf.weekdays))
    (fun _ _ => rfl) (fun _ _ => rfl) (fun _ _ => rfl) (fun _ _ => rfl) (fun _ _ => rfl)
    (fun _ _ => rfl) (fun _ _ => rfl) (fun _ _ => rfl)

theorem nextMin_ok (crn : CronExpression) (hwf : crn.WF) :
    StepOK crn (fun c => toLex (toLex (dayKey c, c.h), c.min))
      (fun p => (DayOK crn (ofLex (ofLex p).1).1 ∧ crn.hours.admits (ofLex (ofLex p).1).2 = true) ∧
        crn.minutes.admits (ofLex p).2 = true)
      (fun c p => dayFar c (ofLex (ofLex p).1).1) (fun c => (c.s, c.ms, c.location))
      CronInstance.nextMin := by
  rw [nextMin_eq]
  exact levelStep_ok crn (fun c => toLex (dayKey c, c.h)) _ (fun c p => dayFar c (ofLex p).1)
    (fun c => (c.s, c.ms, c.location))
    (fun c => c.min) (fun c v => { c with min := v }) (fun e => e.minutes) CronInstance.nextH 59
    (WF_Steps 0 59 _ hwf.minutes (by decide)) (nextH_ok crn hwf)
    (fun _ _ => rfl) (fun _ _ => rfl) (fun _ _ => rfl) (fun _ _ => rfl) (fun _ _ => rfl)
    (fun _ _ => rfl) (fun _ _ => rfl) (fun _ _ => rfl)

theorem nextS_ok (crn : CronExpression) (hwf : crn.WF) :
    StepOK crn (fun c => toLex (toLex (toLex (dayKey c, c.h), c.min), c.s))
      (fun p => ((DayOK crn (ofLex (ofLex (ofLex p).1).1).1 ∧
        crn.hours.admits (ofLex (ofLex (ofLex p).1).1).2 = true) ∧
        crn.minutes.admits (ofLex (ofLex p).1).2 = true) ∧
        crn.seconds.admits (ofLex p).2 = true)
      (fun c p => dayFar c (ofLex (ofLex (ofLex p).1).1).1) (fun c => (c.ms, c.location))
      CronInstance.nextS := by
  rw [nextS_eq]
  exact levelStep_ok crn (fun c => toLex (toLex (dayKey c, c.h), c.min)) _
    (fun c p => dayFar c (ofLex (ofLex p).1).1) (fun c => (c.ms, c.location))
    (fun c => c.s) (fun c v => { c with s := v }) (fun e => e.seconds) CronInstance.nextMin 59
    (WF_Steps 0 59 _ hwf.seconds (by decide)) (nextMin_ok crn hwf)
    (fun _ _ => rfl) (fun _ _ => rfl) (fun _ _ => rfl) (fun _ _ => rfl) (fun _ _ => rfl)
    (fun _ _ => rfl) (fun _ _ => rfl) (fun _ _ => rfl)

theorem msStep_ok (crn : CronExpression) (hwf : crn.WF) :
    StepOK crn msKey (KeyOK crn) keyFar (fun c => c.location) msStep := by
  exact levelStep_ok crn (fun c => toLex (toLex (toLex (dayKey c, c.h), c.min), c.s)) _
    (fun c p => dayFar c (ofLex (ofLex (ofLex p).1).1).1) (fun c => c.location)
    (fun c => c.ms) (fun c v => { c with ms := v }) (fun e => e.milliseconds) CronInstance.nextS 999
    (WF_Steps 0 999 _ hwf.milliseconds (by decide)) (nextS_ok crn hwf)
    (fun _ _ => rfl) (fun _ _ => rfl) (fun _ _ => rfl) (fun _ _ => rfl) (fun _ _ => rfl)
    (fun _ _ => rfl) (fun _ _ => rfl) (fun _ _ => rfl)

theorem nextMs_eq (c : CronInstance) :
    c.nextMs = (msStep c false >>= fun r => pure r.2) := by
  unfold CronInstance.nextMs msStep levelStep
  simp only [Bool.false_eq_true, false_and, or_false, gt_iff_lt]
  cases h1 : next c.crn.milliseconds c.ms false with
  | ok a =>
    obtain ⟨v, l⟩ := a
    simp only [Res.ok_bind]
    cases h2 : CronInstance.nextS { c with ms := v } (decide (c.ms < v)) with
    | ok r =>
      obtain ⟨b, c2⟩ := r
      simp only [Res.ok_bind]
      by_cases hb : b = true
      · simp only [hb, if_true]
        cases h3 : next c2.crn.milliseconds 0 true with
        | ok a3 => rfl
        | panic => rfl
        | outOfFuel => rfl
      · simp only [hb, if_false]
        rfl
    | panic => rfl
    | outOfFuel => rfl
  | panic => rfl
  | outOfFuel => rfl

theorem timeKey_lt_imp (a b : Time) (h : timeKey a < timeKey b) :
    (a.year < b.year ∨ (a.year = b.year ∧ (a.month < b.month ∨ (a.month = b.month ∧
    (a.day < b.day ∨ (a.day = b.day ∧ (a.hour < b.hour ∨ (a.hour = b.hour ∧
    (a.minute < b.minute ∨ (a.minute = b.minute ∧ (a.second < b.second ∨
    (a.second = b.second ∧
      a.nanosecond / 1000000 < b.nanosecond / 1000000)))))))))))) := by
  unfold timeKey at h
  rw [lex_lt_iff, lex_lt_iff, lex_lt_iff, lex_lt_iff, lex_lt_iff, lex_lt_iff] at h
  repeat rw [lex_eq_iff] at h
  rcases h with (((((h | h) | h) | h) | h) | h) | h <;> omega

theorem timeKey_eq_imp (a b : Time) (h : timeKey a = timeKey b) :
    (a.year = b.year ∧ a.month = b.month ∧ a.day = b.day ∧ a.hour = b.hour ∧
      a.minute = b.minute ∧ a.second = b.second ∧
      a.nanosecond / 1000000 = b.nanosecond / 1000000) := by
  unfold timeKey at h
  repeat rw [lex_eq_iff] at h
  omega

theorem isLeapYear_iff (y : Int) :
    isLeapYear y = true ↔ (y % 4 = 0 ∧ (y % 100 ≠ 0 ∨ y % 400 = 0)) := by
  unfold isLeapYear
  simp only [decide_eq_true_eq]

theorem daysIn_bounds (y m : Int) : 28 ≤ daysIn y m ∧ daysIn y m ≤ 31 := by
  unfold daysIn
  split
  · split <;> omega
  · split <;> omega

/-- The day count is linear in the day of the month. -/
theorem dayNumber_day (y m d : Int) : dayNumber y m d = dayNumber y m 1 + (d - 1) := by
  unfold dayNumber
  omega

/-- The day count grows by one from the last day of a month to the first of the next. -/
theorem dayNumber_month_end (y m : Int) (hm1 : 1 ≤ m) (hm2 : m ≤ 11) :
    dayNumber y (m + 1) 1 = dayNumber y m (daysIn y m) + 1 := by
  unfold dayNumber daysIn daysBeforeMonthCommon
  have hcases : m = 1 ∨ m = 2 ∨ m = 3 ∨ m = 4 ∨ m = 5 ∨ m = 6 ∨ m = 7 ∨ m = 8 ∨ m = 9 ∨
      m = 10 ∨ m = 11 := by omega
  rcases hcases with h | h | h | h | h | h | h | h | h | h | h <;> subst h <;>
    by_cases hl : isLeapYear y = true <;> simp [hl] <;> omega

/-- The day count grows by one from the 31st of December to the first of January. -/
theorem dayNumber_year_end (y : Int) : dayNumber (y + 1) 1 1 = dayNumber y 12 31 + 1 := by
  unfold dayNumber daysBeforeYear daysBeforeMonthCommon
  by_cases hl : isLeapYear y = true
  · have hl2 := hl
    simp only [isLeapYear, decide_eq_true_eq, ne_eq] at hl2
    simp [hl]
    omega
  · have hl2 := hl
    simp only [isLeapYear, decide_eq_true_eq, ne_eq] at hl2
    simp [hl]
    omega

/-- The first days of the months of a year come in the order of the months, each after
the last day of any earlier month. -/
theorem dayNumber_month_lt (y m m2 : Int) (h1 : 1 ≤ m) (h : m < m2) (h2 : m2 ≤ 12) :
    dayNumber y m (daysIn y m) < dayNumber y m2 1 := by
  have key : ∀ k : Int, m + 1 ≤ k → k ≤ 12 → dayNumber y m (daysIn y m) < dayNumber y k 1 := by
    intro k hk
    refine Int.le_induction (P := fun k => k ≤ 12 →
      dayNumber y m (daysIn y m) < dayNumber y k 1) ?_ ?_ k hk
    · intro _
      have := dayNumber_month_end y m h1 (by omega)
      omega
    · intro k hk ih hk2
      have h3 := ih (by omega)
      have h4 := dayNumber_month_end y k (by omega) (by omega)
      have h5 := dayNumber_day y k (daysIn y k)
      have h6 := daysIn_bounds y k
      omega
  exact key m2 (by omega) h2

/-- The first days of the years come in the order of the years. -/
theorem dayNumber_year_le (y y2 : Int) (h : y ≤ y2) : dayNumber y 1 1 ≤ dayNumber y2 1 1 := by
  unfold dayNumber daysBeforeYear daysBeforeMonthCommon
  simp only [le_refl, if_true, gt_iff_lt]
  have e1 : (if isLeapYear y = true ∧ (2:Int) < 1 then (1:Int) else 0) = 0 := by
    rw [if_neg]; omega
  have e2 : (if isLeapYear y2 = true ∧ (2:Int) < 1 then (1:Int) else 0) = 0 := by
    rw [if_neg]; omega
  rw [e1, e2]
  omega

/-- The day count of the dates of the calendar follows their order. -/
theorem dayNumber_lt_of_lex (y m d y2 m2 d2 : Int) (hm1 : 1 ≤ m) (hm2 : m ≤ 12)
    (hd2 : d ≤ daysIn y m) (hn1 : 1 ≤ m2) (hn2 : m2 ≤ 12) (he1 : 1 ≤ d2)
    (h : y < y2 ∨ (y = y2 ∧ (m < m2 ∨ (m = m2 ∧ d < d2)))) :
    dayNumber y m d < dayNumber y2 m2 d2 := by
  have a1 := dayNumber_day y m d
  have a2 := dayNumber_day y2 m2 d2
  have a3 := dayNumber_day y m (daysIn y m)
  have hmonth : ∀ yy mm, 1 ≤ mm → mm ≤ 12 → dayNumber yy 1 1 ≤ dayNumber yy mm 1 := by
    intro yy mm hmm1 hmm2
    by_cases hone : mm = 1
    · rw [hone]
    · have := dayNumber_month_lt yy 1 mm (by omega) (by omega) hmm2
      have := dayNumber_day yy 1 (daysIn yy 1)
      have := daysIn_bounds yy 1
      omega
  rcases h with h | ⟨h, h3 | ⟨h3, h4⟩⟩
  · -- an earlier year: through the last day of the year
    have b1 : dayNumber y m (daysIn y m) ≤ dayNumber y 12 31 := by
      by_cases h12 : m = 12
      · rw [h12]
        have : daysIn y 12 = 31 := by unfold daysIn; simp
        rw [this]
      · have := dayNumber_month_lt y m 12 hm1 (by omega) (by omega)
        have := dayNumber_day y 12 31
        omega
    have b2 := dayNumber_year_end y
    have b3 := dayNumber_year_le (y + 1) y2 (by omega)
    have b4 := hmonth y2 m2 hn1 hn2
    omega
  · subst h
    have := dayNumber_month_lt y m m2 hm1 h3 hn2
    omega
  · subst h; subst h3
    omega

/-- Among the readings of one offset, the earlier instant is the earlier reading. -/
theorem Before_iff (a b : Time) (ha : a.Valid) (hb : b.Valid) (ho : a.offset = b.offset) :
    a.Before b = true ↔
    (a.year < b.year ∨ (a.year = b.year ∧ (a.month < b.month ∨ (a.month = b.month ∧
    (a.day < b.day ∨ (a.day = b.day ∧ (a.hour < b.hour ∨ (a.hour = b.hour ∧
    (a.minute < b.minute ∨ (a.minute = b.minute ∧ (a.second < b.second ∨
    (a.second = b.second ∧ a.nanosecond < b.nanosecond)))))))))))) := by
  unfold Time.Before Time.Unix
  simp only [decide_eq_true_eq]
  obtain ⟨a1, a2, a3, a4, a5, a6, a7, a8, a9, a10, a11, a12⟩ := ha
  obtain ⟨b1, b2, b3, b4, b5, b6, b7, b8, b9, b10, b11, b12⟩ := hb
  have hlt := dayNumber_lt_of_lex a.year a.month a.day b.year b.month b.day a1 a2 a4 b1 b2 b3
  have hgt := dayNumber_lt_of_lex b.year b.month b.day a.year a.month a.day b1 b2 b4 a1 a2 a3
  by_cases h1 : a.year < b.year ∨ (a.year = b.year ∧ (a.month < b.month ∨
      (a.month = b.month ∧ a.day < b.day)))
  · have := hlt h1
    omega
  · by_cases h2 : b.year < a.year ∨ (b.year = a.year ∧ (b.month < a.month ∨
        (b.month = a.month ∧ b.day < a.day)))
    · have := hgt h2
      omega
    · have h3 : a.year = b.year ∧ a.month = b.month ∧ a.day = b.day := by omega
      obtain ⟨e1, e2, e3⟩ := h3
      rw [e1, e2, e3]
      omega

/-- A later key is a later instant. -/
theorem Before_of_key_lt (a b : Time) (ha : a.Valid) (hb : b.Valid) (ho : a.offset = b.offset)
    (h : timeKey a < timeKey b) : a.Before b = true := by
  have h := timeKey_lt_imp a b h
  rw [Before_iff a b ha hb ho]
  omega

/-- An instant before a whole millisecond has an earlier key. -/
theorem key_lt_of_Before (a b : Time) (ha : a.Valid) (hv : b.Valid) (ho : a.offset = b.offset)
    (hb : b.nanosecond % 1000000 = 0)
    (h : a.Before b = true) : timeKey a < timeKey b := by
  rw [Before_iff a b ha hv ho] at h
  by_contra hcon
  rcases lt_or_eq_of_le (le_of_not_lt hcon) with h2 | h2
  · have := timeKey_lt_imp b a h2
    omega
  · have := timeKey_eq_imp b a h2
    omega

theorem Before_asymm (a b : Time) (h : a.Before b = true) : b.Before a = false := by
  unfold Time.Before at h ⊢
  simp only [decide_eq_true_eq, decide_eq_false_iff_not] at h ⊢
  omega

theorem timeKey_candidate (c : CronInstance) : timeKey c.candidate = msKey c := by
  unfold timeKey msKey dayKey CronInstance.candidate
  simp only
  rw [Int.mul_ediv_cancel _ (by decide : (1000000 : Int) ≠ 0)]

theorem KeyOK_timeKey (crn : CronExpression) (t : Time) (hw : t.nanosecond % 1000000 = 0) :
    KeyOK crn (timeKey t) ↔ crn.Satisfied t := by
  unfold KeyOK timeKey DayOK DateOK CronExpression.Satisfied Time.Weekday
  simp only [ofLex_toLex]
  tauto

theorem candidate_whole (c : CronInstance) : c.candidate.nanosecond % 1000000 = 0 := by
  unfold CronInstance.candidate
  simp only
  exact Int.mul_emod_left _ _

theorem KeyOK_msKey (crn : CronExpression) (c : CronInstance) :
    KeyOK crn (msKey c) ↔ crn.Satisfied c.candidate := by
  rw [← timeKey_candidate, KeyOK_timeKey crn _ (candidate_whole c)]

/-- Fields that satisfy a built expression are a reading: `time.Date` returns it. -/
theorem Satisfied_Valid (crn : CronExpression) (hwf : crn.WF) (t : Time)
    (h : crn.Satisfied t) : t.Valid := by
  obtain ⟨hw, h1, h2, h3, h4, h5, h6, h7, h8, h9, _⟩ := h
  have d1 := (WF_Steps 0 999 _ hwf.milliseconds (by decide)).1 _ h1
  have d2 := (WF_Steps 0 59 _ hwf.seconds (by decide)).1 _ h2
  have d3 := (WF_Steps 0 59 _ hwf.minutes (by decide)).1 _ h3
  have d4 := (WF_Steps 0 23 _ hwf.hours (by decide)).1 _ h4
  have d6 := (WFMonth_Steps _ hwf.months).1 _ h6
  unfold Time.Valid
  omega

theorem Satisfied_year (crn : CronExpression) (hwf : crn.WF) (t : Time)
    (h : crn.Satisfied t) : 1970 ≤ t.year :=
  ((WF_Steps 1970 200000000 _ hwf.years (by decide)).1 _ h.2.2.2.2.2.2.2.1).1

theorem lookup_fixed (l : Location) (h : l.transitions = []) (sec : Int) :
    l.lookup sec = (l.offset, none, none) := by
  unfold Location.lookup
  rw [h]
  rfl

/-- In a fixed-offset zone `time.Date` returns the reading it is given. -/
theorem timeDate_Valid (year month day hour min sec nsec : Int) (loc : Location)
    (hz : loc.transitions = [])
    (hv : (Time.mk year month day hour min sec nsec loc.offset loc).Valid) :
    timeDate year month day hour min sec nsec loc =
      Time.mk year month day hour min sec nsec loc.offset loc := by
  unfold timeDate
  simp only [lookup_fixed _ hz]
  have e : (if loc.offset ≠ 0 then
        if (false = true) ∨ (false = true) then loc.offset else loc.offset
      else loc.offset) = loc.offset := by
    split
    · split <;> rfl
    · rfl
  simp only [e]
  exact if_pos ⟨hv, trivial⟩

theorem stamp_eq_candidate (crn : CronExpression) (hwf : crn.WF) (c : CronInstance)
    (hz : c.location.transitions = []) (h : crn.Satisfied c.candidate) :
    c.stamp = c.candidate := by
  have hv := Satisfied_Valid crn hwf _ h
  have hms : wrapInt (c.ms * 1000000) = c.ms * 1000000 := by
    obtain ⟨_, _, _, _, _, _, _, _, _, _, h11, h12⟩ := hv
    simp only [CronInstance.candidate] at h11 h12
    exact wrapInt_eq _ (by omega) (by omega)
  unfold CronInstance.stamp
  rw [hms]
  exact timeDate_Valid _ _ _ _ _ _ _ _ hz hv

/-- What a call of `Next` does, in terms of the millisecond level. -/
theorem Next_cases (crn : CronExpression) (hwf : crn.WF) (c : CronInstance) (hc : c.crn = crn)
    (hco : c.am.Coherent) :
    ∃ b c1, msStep c false = .ok (b, c1) ∧ c1.crn = crn ∧ c1.am.Coherent ∧
      c1.following = c.following ∧ c1.location = c.location ∧
      ((c1.err = some Error.CronOutdatedInvalidError ∧
          ∀ k, KeyOK crn k → Qual (msKey c) false k → keyFar c k)
       ∨ (c1.err = c.err ∧ KeyOK crn (msKey c1) ∧ Qual (msKey c) false (msKey c1) ∧
          (b = true ↔ msKey c1 ≠ msKey c) ∧
          ∀ k, KeyOK crn k → Qual (msKey c) false k → msKey c1 ≤ k)
       ∨ (c1.err = c.err ∧ KeyOK crn (msKey c1) ∧ b = true ∧ msKey c1 < msKey c ∧
          ∀ k, KeyOK crn k → k < msKey c)) ∧
      c.Next = .ok (match c1.err with
        | some e => (c1, some e)
        | none =>
          if c1.following.IsZero = false ∧ c1.stamp.Before c1.following = true then
            (c1, some Error.CronOutdatedInvalidError)
          else ({ c1 with following := c1.stamp }, none)) := by
  obtain ⟨b, c1, e, hc1, hco1, hf1, hl1, hcase⟩ := msStep_ok crn hwf c false hc hco
  refine ⟨b, c1, e, hc1, hco1, hf1, hl1, hcase, ?_⟩
  unfold CronInstance.Next
  rw [nextMs_eq]
  simp only [e, Res.ok_bind, Res.pure_eq]
  cases herr : c1.err with
  | some e1 => rfl
  | none =>
    simp only [CronInstance.stamp]
    split <;> rfl

theorem dayNumber_epoch : dayNumber 1970 1 1 = 0 := by decide

/-- No reading of 1970 or later, of an offset less than a day, is the zero instant. -/
theorem not_IsZero (f : Time) (hv : f.Valid) (hy : 1970 ≤ f.year) (h1 : -86400 < f.offset)
    (h2 : f.offset < 86400) : f.IsZero = false := by
  obtain ⟨b1, b2, b3, b4, b5, b6, b7, b8, b9, b10, b11, b12⟩ := hv
  have hd : 0 ≤ dayNumber f.year f.month f.day := by
    by_cases he : f.year = 1970 ∧ f.month = 1 ∧ f.day = 1
    · rw [he.1, he.2.1, he.2.2, dayNumber_epoch]
    · have := dayNumber_lt_of_lex 1970 1 1 f.year f.month f.day (by decide) (by decide)
        (by decide) b1 b2 b3 (by omega)
      rw [dayNumber_epoch] at this
      omega
  have hz : Time.zero.Unix = -719162 * 86400 := by decide
  unfold Time.IsZero
  rw [hz]
  unfold Time.Unix
  simp only [decide_eq_false_iff_not]
  omega

theorem not_Before_zero (crn : CronExpression) (hwf : crn.WF) (t : Time)
    (h : crn.Satisfied t) (f : Time) (hv : f.Valid) (ho : t.offset = f.offset)
    (h1 : -86400 < f.offset) (h2 : f.offset < 86400) (hb : t.Before f = true) :
    f.IsZero = false := by
  have hy := Satisfied_year crn hwf t h
  rw [Before_iff t f (Satisfied_Valid crn hwf t h) hv ho] at hb
  exact not_IsZero f hv (by omega) h1 h2

theorem keyFar_timeKey (c : CronInstance) (t : Time) :
    keyFar c (timeKey t) ↔ c.am.y + 400 < t.year := by
  unfold keyFar dayFar timeKey
  simp only [ofLex_toLex]

theorem msKey_year (c : CronInstance) (t : Time) (h : msKey c = timeKey t) :
    c.am.y = t.year := by
  have := timeKey_eq_imp c.candidate t (by rw [timeKey_candidate]; exact h)
  exact this.1

/-- A call of `Next` on a cursor that has not reported an error, in a fixed-offset
zone.  A call that returns nil moves `Following` forward to the next instant that
satisfies the expression, unless `Following` is the zero instant, which `Next` compares
with nothing, and no later instant satisfies the expression: then `Following` falls
back. -/
theorem Live_step (crn : CronExpression) (hwf : crn.WF) (c : CronInstance) (hc : c.crn = crn)
    (hco : c.am.Coherent) (hl : c.Live) (hz : c.Zoned) :
    ∃ c2 r, c.Next = .ok (c2, r) ∧ c2.crn = crn ∧ c2.am.Coherent ∧ c2.Zoned ∧
      c2.following.offset = c.following.offset ∧
      ((r = none ∧ c2.Live ∧ crn.Satisfied c2.following ∧
          ((c.following.Before c2.following = true ∧
            ∀ t, crn.Satisfied t → t.offset = c.following.offset →
              c.following.Before t = true → t.Before c2.following = false)
           ∨ (c.following.IsZero = true ∧ c2.following.Before c.following = true)))
       ∨ (r = some Error.CronOutdatedInvalidError ∧ c2.following = c.following ∧ c2.Term ∧
          ∀ t, crn.Satisfied t → t.offset = c.following.offset →
            c.following.Before t = true → c.am.y + 400 < t.year)) := by
  obtain ⟨herr, hkey⟩ := hl
  obtain ⟨hfv, ⟨hnt, hfo⟩, hloc⟩ := hz
  obtain ⟨b, c1, _, hc1, hco1, hf1, hl1, hcase, hN⟩ := Next_cases crn hwf c hc hco
  have hz1 : c1.location.transitions = [] := by rw [hl1, ← hloc]; exact hnt
  have hco : c1.candidate.offset = c.following.offset := by
    show c1.location.offset = c.following.offset
    rw [hl1, ← hloc, hfo]
  have hzoned1 : c1.Zoned := by
    refine ⟨?_, ⟨?_, ?_⟩, ?_⟩ <;> rw [hf1]
    · exact hfv
    · exact hnt
    · exact hfo
    · rw [hl1]; exact hloc
  have hqual : ∀ t, crn.Satisfied t → t.offset = c.following.offset →
      c.following.Before t = true → Qual (msKey c) false (timeKey t) := by
    intro t ht hto hb
    left
    rw [hkey]
    exact key_lt_of_Before _ _ hfv (Satisfied_Valid crn hwf t ht) hto.symm ht.1 hb
  rcases hcase with ⟨he, hnone⟩ | ⟨he, hv, hq, _, hmin⟩ | ⟨he, hv, _, hlt, hall⟩
  · rw [he] at hN
    refine ⟨c1, _, hN, hc1, hco1, hzoned1, by rw [hf1],
      Or.inr ⟨rfl, hf1, Or.inl he, ?_⟩⟩
    intro t ht hto hb
    exact (keyFar_timeKey c t).1
      (hnone _ ((KeyOK_timeKey crn t ht.1).2 ht) (hqual t ht hto hb))
  · rw [herr] at he
    rw [he] at hN
    have hs := (KeyOK_msKey crn c1).1 hv
    have hcv := Satisfied_Valid crn hwf _ hs
    have hlt : timeKey c.following < timeKey c1.candidate := by
      rw [timeKey_candidate, ← hkey]
      rcases hq with h | h
      · exact h
      · cases h.1
    have hbef := Before_of_key_lt _ _ hfv hcv hco.symm hlt
    have hnb := Before_asymm _ _ hbef
    simp only [stamp_eq_candidate crn hwf c1 hz1 hs, hf1, hnb, Bool.false_eq_true, and_false,
      if_false] at hN
    refine ⟨_, _, hN, hc1, hco1, ⟨hcv, ⟨hz1, rfl⟩, rfl⟩, hco,
      Or.inl ⟨rfl, ⟨rfl, ?_⟩, hs, Or.inl ⟨hbef, ?_⟩⟩⟩
    · show msKey c1 = timeKey c1.candidate
      rw [timeKey_candidate]
    · intro t ht hto hb
      show t.Before c1.candidate = false
      cases htb : t.Before c1.candidate
      · rfl
      · exfalso
        have h1 := key_lt_of_Before _ _ (Satisfied_Valid crn hwf t ht) hcv (hto.trans hco.symm)
          (candidate_whole c1) htb
        have h2 := hmin _ ((KeyOK_timeKey crn t ht.1).2 ht) (hqual t ht hto hb)
        rw [timeKey_candidate] at h1
        exact absurd h1 (not_lt_of_le h2)
  · rw [herr] at he
    rw [he] at hN
    have hs := (KeyOK_msKey crn c1).1 hv
    have hcv := Satisfied_Valid crn hwf _ hs
    have hlt2 : timeKey c1.candidate < timeKey c.following := by
      rw [timeKey_candidate, ← hkey]; exact hlt
    have hbef := Before_of_key_lt _ _ hcv hfv hco hlt2
    have hallb : ∀ t, crn.Satisfied t → t.offset = c.following.offset →
        t.Before c.following = true := by
      intro t ht hto
      apply Before_of_key_lt _ _ (Satisfied_Valid crn hwf t ht) hfv hto
      rw [← hkey]
      exact hall _ ((KeyOK_timeKey crn t ht.1).2 ht)
    cases hnz : c.following.IsZero with
    | false =>
      simp only [stamp_eq_candidate crn hwf c1 hz1 hs, hf1, hnz, hbef, and_self, if_true] at hN
      refine ⟨_, _, hN, hc1, hco1, hzoned1, by rw [hf1],
        Or.inr ⟨rfl, hf1, Or.inr ⟨he, by rw [hf1]; exact hnz, ?_⟩, ?_⟩⟩
      · intro t ht hto
        rw [hf1] at hto ⊢
        rw [hc1] at ht
        exact hallb t ht hto
      · intro t ht hto hb
        have := Before_asymm _ _ (hallb t ht hto)
        rw [this] at hb; cases hb
    | true =>
      simp only [stamp_eq_candidate crn hwf c1 hz1 hs, hf1, hnz, Bool.true_eq_false, false_and,
        if_false] at hN
      refine ⟨_, _, hN, hc1, hco1, ⟨hcv, ⟨hz1, rfl⟩, rfl⟩, hco,
        Or.inl ⟨rfl, ⟨rfl, ?_⟩, hs, Or.inr ⟨rfl, hbef⟩⟩⟩
      show msKey c1 = timeKey c1.candidate
      rw [timeKey_candidate]

/-- A call of `Next` on a terminated cursor, in a fixed-offset zone. -/
theorem Term_step (crn : CronExpression) (hwf : crn.WF) (c : CronInstance) (hc : c.crn = crn)
    (hco : c.am.Coherent) (ht : c.Term) (hz : c.Zoned) :
    ∃ c2, c.Next = .ok (c2, some Error.CronOutdatedInvalidError) ∧ c2.crn = crn ∧
      c2.am.Coherent ∧ c2.following = c.following ∧ c2.Term ∧ c2.Zoned := by
  obtain ⟨hfv, ⟨hnt, hfo⟩, hloc⟩ := hz
  obtain ⟨b, c1, _, hc1, hco1, hf1, hl1, hcase, hN⟩ := Next_cases crn hwf c hc hco
  have hz1 : c1.location.transitions = [] := by rw [hl1, ← hloc]; exact hnt
  have hco : c1.candidate.offset = c.following.offset := by
    show c1.location.offset = c.following.offset
    rw [hl1, ← hloc, hfo]
  have hzoned1 : c1.Zoned := by
    refine ⟨?_, ⟨?_, ?_⟩, ?_⟩ <;> rw [hf1]
    · exact hfv
    · exact hnt
    · exact hfo
    · rw [hl1]; exact hloc
  rcases ht with herr | ⟨herr, hnz, hallb⟩
  · have he : c1.err = some Error.CronOutdatedInvalidError := by
      rcases hcase with ⟨he, _⟩ | ⟨he, _⟩ | ⟨he, _⟩
      · exact he
      · rw [he, herr]
      · rw [he, herr]
    rw [he] at hN
    exact ⟨c1, hN, hc1, hco1, hf1, Or.inl he, hzoned1⟩
  · rw [hc] at hallb
    have hdone : c1.err = none → KeyOK crn (msKey c1) →
        ∃ c2, c.Next = .ok (c2, some Error.CronOutdatedInvalidError) ∧ c2.crn = crn ∧
          c2.am.Coherent ∧ c2.following = c.following ∧ c2.Term ∧ c2.Zoned := by
      intro he hv
      rw [he] at hN
      have hs := (KeyOK_msKey crn c1).1 hv
      have hbef := hallb _ hs hco
      simp only [stamp_eq_candidate crn hwf c1 hz1 hs, hf1, hnz, hbef, and_self, if_true] at hN
      refine ⟨c1, hN, hc1, hco1, hf1, Or.inr ⟨he, by rw [hf1]; exact hnz, ?_⟩, hzoned1⟩
      intro t ht hto
      rw [hf1] at hto ⊢
      rw [hc1] at ht
      exact hallb t ht hto
    rcases hcase with ⟨he, _⟩ | ⟨he, hv, _⟩ | ⟨he, hv, _⟩
    · rw [he] at hN
      exact ⟨c1, hN, hc1, hco1, hf1, Or.inl he, hzoned1⟩
    · exact hdone (by rw [he, herr]) hv
    · exact hdone (by rw [he, herr]) hv

theorem NewInstance_live (crn0 crn : CronExpression) (frm : Time)
    (hinit : crn0.initialize = .ok crn) (hfrm : frm.Valid) :
    ∃ c, crn0.NewInstance frm = .ok c ∧ c.crn = crn ∧ c.am.Coherent ∧ c.Live ∧
      c.following = frm ∧ c.location = frm.loc := by
  obtain ⟨h1, h2, _, _, _, _, _, _, _, _, h11, _⟩ := hfrm
  unfold CronExpression.NewInstance
  simp only [hinit, Res.ok_bind, NewAttunedMonth_eq _ _ h1 h2, Res.pure_eq]
  refine ⟨_, rfl, rfl, Coherent_amOf _ _ h1 h2, ⟨rfl, ?_⟩, rfl, rfl⟩
  unfold msKey dayKey timeKey
  simp only [amOf]
  rw [Int.tdiv_eq_ediv h11 (by decide)]

/-- Every cursor reached from a fresh one is coherent, works in the zone of the fresh
one, and is live or terminated. -/
theorem Calls_inv (crn : CronExpression) (hwf : crn.WF) (c0 : CronInstance)
    (h0 : c0.crn = crn ∧ c0.am.Coherent ∧ c0.Zoned ∧ (c0.Live ∨ c0.Term)) (c : CronInstance)
    (hr : Calls c0 c) :
    c.crn = crn ∧ c.am.Coherent ∧ c.Zoned ∧ c.following.offset = c0.following.offset ∧
      (c.Live ∨ c.Term) := by
  induction hr with
  | refl => exact ⟨h0.1, h0.2.1, h0.2.2.1, rfl, h0.2.2.2⟩
  | next _ hn ih =>
    obtain ⟨hc, hco, hz, ho, hlt⟩ := ih
    rcases hlt with hl | ht
    · obtain ⟨c2, r, e, hc2, hco2, hz2, ho2, hcase⟩ := Live_step crn hwf _ hc hco hl hz
      rw [e] at hn
      simp only [Res.ok.injEq, Prod.mk.injEq] at hn
      obtain ⟨rfl, rfl⟩ := hn
      refine ⟨hc2, hco2, hz2, ho2.trans ho, ?_⟩
      rcases hcase with ⟨_, hl2, _⟩ | ⟨_, _, ht2, _⟩
      · exact Or.inl hl2
      · exact Or.inr ht2
    · obtain ⟨c2, e, hc2, hco2, hf2, ht2, hz2⟩ := Term_step crn hwf _ hc hco ht hz
      rw [e] at hn
      simp only [Res.ok.injEq, Prod.mk.injEq] at hn
      obtain ⟨rfl, rfl⟩ := hn
      exact ⟨hc2, hco2, hz2, by rw [hf2]; exact ho, Or.inr ht2⟩

theorem Yields_Calls (c0 c : CronInstance) (h : Yields c0 c) : Calls c0 c := by
  induction h with
  | refl => exact Calls.refl
  | next _ hn ih => exact Calls.next ih hn

/-- A cursor all of whose calls returned nil is live. -/
theorem Yields_live (crn : CronExpression) (hwf : crn.WF) (c0 : CronInstance)
    (h0 : c0.crn = crn ∧ c0.am.Coherent ∧ c0.Zoned ∧ c0.Live) (c : CronInstance)
    (hr : Yields c0 c) :
    c.crn = crn ∧ c.am.Coherent ∧ c.Zoned ∧ c.following.offset = c0.following.offset ∧
      c.Live := by
  induction hr with
  | refl => exact ⟨h0.1, h0.2.1, h0.2.2.1, rfl, h0.2.2.2⟩
  | next _ hn ih =>
    obtain ⟨hc, hco, hz, ho, hl⟩ := ih
    obtain ⟨c2, r, e, hc2, hco2, hz2, ho2, hcase⟩ := Live_step crn hwf _ hc hco hl hz
    rw [e] at hn
    simp only [Res.ok.injEq, Prod.mk.injEq] at hn
    obtain ⟨rfl, rfl⟩ := hn
    rcases hcase with ⟨_, hl2, _⟩ | ⟨hr2, _⟩
    · exact ⟨hc2, hco2, hz2, ho2.trans ho, hl2⟩
    · cases hr2

/-- A call that returns nil was made on a live cursor. -/
theorem nil_of_live (crn : CronExpression) (hwf : crn.WF) (c c2 : CronInstance)
    (hc : c.crn = crn) (hco : c.am.Coherent) (hz : c.Zoned) (hlt : c.Live ∨ c.Term)
    (hn : c.Next = .ok (c2, none)) : c.Live := by
  rcases hlt with hl | ht
  · exact hl
  · obtain ⟨c3, e, _⟩ := Term_step crn hwf _ hc hco ht hz
    rw [e] at hn
    simp only [Res.ok.injEq, Prod.mk.injEq] at hn
    cases hn.2

/-- What `NewInstance` returns for a reading: a coherent live cursor of the resolved
expression whose `Following` is the reference instant and whose location is that of the
reference instant. -/
theorem NewInstance_inv (crn0 : CronExpression) (frm : Time) (c0 : CronInstance)
    (h0 : crn0.NewInstance frm = .ok c0) (hfrm : frm.Valid) :
    c0.am.Coherent ∧ c0.Live ∧ c0.following = frm ∧ c0.location = frm.loc := by
  cases hi : crn0.initialize with
  | ok crn =>
    obtain ⟨c, e, _, hco, hl, hf, hloc⟩ := NewInstance_live crn0 crn frm hi hfrm
    rw [e] at h0
    simp only [Res.ok.injEq] at h0
    subst h0
    exact ⟨hco, hl, hf, hloc⟩
  | panic =>
    unfold CronExpression.NewInstance at h0
    rw [hi] at h0
    cases h0
  | outOfFuel =>
    unfold CronExpression.NewInstance at h0
    rw [hi] at h0
    cases h0

/-- The fresh cursor of a reading of a fixed-offset zone works in that zone. -/
theorem NewInstance_zoned (crn0 : CronExpression) (frm : Time) (c0 : CronInstance)
    (h0 : crn0.NewInstance frm = .ok c0) (hfrm : frm.Valid) (hzone : frm.Fixed) :
    c0.Zoned := by
  obtain ⟨_, _, hf, hloc⟩ := NewInstance_inv crn0 frm c0 h0 hfrm
  unfold CronInstance.Zoned
  rw [hf, hloc]
  exact ⟨hfrm, hzone, rfl⟩

/-- The state of a cursor reached from a fresh one by calls of `Next`. -/
theorem reached_inv (crn0 : CronExpression) (frm : Time) (c0 c : CronInstance)
    (h0 : crn0.NewInstance frm = .ok c0) (hwf : c0.crn.WF) (hfrm : frm.Valid)
    (hzone : frm.Fixed) (hr : Calls c0 c) :
    c.crn = c0.crn ∧ c.am.Coherent ∧ c.Zoned ∧ c.following.offset = frm.offset ∧
      (c.Live ∨ c.Term) := by
  obtain ⟨hco, hl, hf, _⟩ := NewInstance_inv crn0 frm c0 h0 hfrm
  have hz := NewInstance_zoned crn0 frm c0 h0 hfrm hzone
  have := Calls_inv c0.crn hwf c0 ⟨rfl, hco, hz, Or.inl hl⟩ c hr
  rw [hf] at this
  exact this

/-- What a call that returns nil does, on a cursor reached from a fresh one. -/
theorem reached_nil (crn0 : CronExpression) (frm : Time) (c0 c c2 : CronInstance)
    (h0 : crn0.NewInstance frm = .ok c0) (hwf : c0.crn.WF) (hfrm : frm.Valid)
    (hzone : frm.Fixed) (hr : Calls c0 c) (hn : c.Next = .ok (c2, none)) :
    c0.crn.Satisfied c2.following ∧
      ((c.following.Before c2.following = true ∧
        ∀ t, c0.crn.Satisfied t → t.offset = frm.offset → c.following.Before t = true →
          t.Before c2.following = false)
       ∨ (c.following.IsZero = true ∧ c2.following.Before c.following = true)) := by
  obtain ⟨hc, hco, hz, ho, hlt⟩ := reached_inv crn0 frm c0 c h0 hwf hfrm hzone hr
  have hl := nil_of_live c0.crn hwf c c2 hc hco hz hlt hn
  obtain ⟨c3, r, e, _, _, _, _, hcase⟩ := Live_step c0.crn hwf c hc hco hl hz
  rw [e] at hn
  simp only [Res.ok.injEq, Prod.mk.injEq] at hn
  obtain ⟨rfl, rfl⟩ := hn
  rcases hcase with ⟨_, _, hs, hfw | hzero⟩ | ⟨hr2, _⟩
  · exact ⟨hs, Or.inl ⟨hfw.1, fun t ht hto => hfw.2 t ht (hto.trans ho.symm)⟩⟩
  · exact ⟨hs, Or.inr hzero⟩
  · cases hr2

/-- In a zone whose offset is less than a day, a call that returns nil moves `Following`
forward to the next instant that satisfies the expression. -/
theorem reached_nil_near (crn0 : CronExpression) (frm : Time) (c0 c c2 : CronInstance)
    (h0 : crn0.NewInstance frm = .ok c0) (hwf : c0.crn.WF) (hfrm : frm.Valid)
    (hzone : frm.Fixed) (hnear : frm.NearUTC) (hr : Calls c0 c)
    (hn : c.Next = .ok (c2, none)) :
    c0.crn.Satisfied c2.following ∧ c.following.Before c2.following = true ∧
      ∀ t, c0.crn.Satisfied t → t.offset = frm.offset → c.following.Before t = true →
        t.Before c2.following = false := by
  obtain ⟨_, _, hz, ho, _⟩ := reached_inv crn0 frm c0 c h0 hwf hfrm hzone hr
  obtain ⟨hs, hfw | ⟨hzero, hback⟩⟩ := reached_nil crn0 frm c0 c c2 h0 hwf hfrm hzone hr hn
  · exact ⟨hs, hfw.1, hfw.2⟩
  · exfalso
    have hv2 := Satisfied_Valid c0.crn hwf _ hs
    have ho2 : c2.following.offset = c.following.offset := by
      by_contra hne
      -- the two readings compare as instants of one offset
      have hcalls : Calls c0 c2 := Calls.next hr hn
      obtain ⟨_, _, _, ho3, _⟩ := reached_inv crn0 frm c0 c2 h0 hwf hfrm hzone hcalls
      exact hne (ho3.trans ho.symm)
    have := not_Before_zero c0.crn hwf _ hs _ hz.1 ho2 (by rw [ho]; exact hnear.1)
      (by rw [ho]; exact hnear.2) hback
    rw [hzero] at this
    cases this

/-- Termination persists along further calls, and `Following` with it. -/
theorem Calls_term (crn : CronExpression) (hwf : crn.WF) (c1 : CronInstance)
    (h1 : c1.crn = crn ∧ c1.am.Coherent ∧ c1.Zoned ∧ c1.Term) (c : CronInstance)
    (hr : Calls c1 c) :
    c.crn = crn ∧ c.am.Coherent ∧ c.Zoned ∧ c.Term ∧ c.following = c1.following := by
  induction hr with
  | refl => exact ⟨h1.1, h1.2.1, h1.2.2.1, h1.2.2.2, rfl⟩
  | next _ hn ih =>
    obtain ⟨hc, hco, hz, ht, hf⟩ := ih
    obtain ⟨c2, e, hc2, hco2, hf2, ht2, hz2⟩ := Term_step crn hwf _ hc hco ht hz
    rw [e] at hn
    simp only [Res.ok.injEq, Prod.mk.injEq] at hn
    obtain ⟨rfl, rfl⟩ := hn
    exact ⟨hc2, hco2, hz2, ht2, hf2.trans hf⟩

/-- A call that returns the error leaves a terminated cursor with the same
`Following`. -/
theorem error_term (crn : CronExpression) (hwf : crn.WF) (c c1 : CronInstance) (e : Error)
    (hc : c.crn = crn) (hco : c.am.Coherent) (hz : c.Zoned) (hlt : c.Live ∨ c.Term)
    (hn : c.Next = .ok (c1, some e)) :
    e = Error.CronOutdatedInvalidError ∧ c1.crn = crn ∧ c1.am.Coherent ∧ c1.Zoned ∧ c1.Term ∧
      c1.following = c.following := by
  rcases hlt with hl | ht
  · obtain ⟨c3, r, e3, hc3, hco3, hz3, _, hcase⟩ := Live_step crn hwf c hc hco hl hz
    rw [e3] at hn
    simp only [Res.ok.injEq, Prod.mk.injEq] at hn
    obtain ⟨rfl, rfl⟩ := hn
    rcases hcase with ⟨hr2, _⟩ | ⟨hr2, hf, ht, _⟩
    · cases hr2
    · simp only [Option.some.injEq] at hr2
      exact ⟨hr2, hc3, hco3, hz3, ht, hf⟩
  · obtain ⟨c3, e3, hc3, hco3, hf, ht3, hz3⟩ := Term_step crn hwf c hc hco ht hz
    rw [e3] at hn
    simp only [Res.ok.injEq, Prod.mk.injEq, Option.some.injEq] at hn
    obtain ⟨rfl, rfl⟩ := hn
    exact ⟨rfl, hc3, hco3, hz3, ht3, hf⟩

set_option maxRecDepth 100000 in
/-- Counterexample to C1: in `America/New_York` the cursor of
`Cron().OnMinutes(30).OnHours(2)`, an expression of in-range bare values, created at
2019-03-10T00:00:00 EST returns nil from its first `Next` and leaves `Following()` at
2019-03-10T01:30:00 EST, whose hour 1 does not belong to the hour constraint: the reading
02:30 does not exist on the day the clocks are set forward, and `time.Date` returns the
instant an hour earlier. -/
theorem C1_counterexample :
    Time.ofUnix 1552194000 0 newYork = springMidnight ∧
    (do let crn ← cronHalfPastTwo
        let c ← crn.NewInstance springMidnight
        let (c1, e) ← c.Next
        pure (decide c.crn.WF, e, c1.Following, c.crn.hours.admits c1.Following.hour,
          decide (c.crn.Satisfied c1.Following))) =
      .ok (true, none,
        { year := 2019, month := 3, day := 10, hour := 1, minute := 30, second := 0,
          nanosecond := 0, offset := -18000, loc := newYork }, false, false) := by
  refine ⟨by decide, by decide⟩

/-- C1, amended (soundness of `CronInstance.Next` in a fixed-offset zone): for every
expression whose resolved fields are constraints made by the builder from in-range bare
values and the field-specific `Between*`/`List*` constructors, with steps that do not
overflow the upper bound (`hi + step ≤ math.MaxInt64`), every reference instant that is a
reading of a fixed-offset zone (a location without transitions) and every cursor reached
from `NewInstance` by calls of `Next`, a call of `Next` that returns nil leaves a
`Following()` that satisfies all eight constraints: it is a whole millisecond, its
millisecond, second, minute, hour, day, month and year belong to their constraints, its day
exists in that month of that year, and its weekday satisfies the weekday constraint. -/
theorem C1_Next_sound (crn0 : CronExpression) (frm : Time) (c0 c c2 : CronInstance)
    (h0 : crn0.NewInstance frm = .ok c0) (hwf : c0.crn.WF) (hfrm : frm.Valid)
    (hzone : frm.Fixed) (hr : Calls c0 c) (hn : c.Next = .ok (c2, none)) :
    c0.crn.Satisfied c2.Following :=
  (reached_nil crn0 frm c0 c c2 h0 hwf hfrm hzone hr hn).1

set_option maxRecDepth 100000 in
/-- Counterexample to C2: in UTC the cursor of `Cron().OnSeconds(Between(-5, -1))` created
at 2019-01-01T00:00:59Z returns nil from its first `Next` and leaves `Following()` at
2019-01-01T00:00:59Z, which is not later than it was; and the cursor of
`Cron().OnDays(BetweenDays(1, 31).Every(math.MaxInt64))` created at 2019-01-01T00:00:00Z
returns nil from its first `Next` and leaves `Following()` at 2019-01-01T00:00:00Z; and in
the fixed-offset zone `time.FixedZone("", 62293363200)`, where the zero instant is read as
1975-01-01T00:00:00, the cursor of `Cron().OnYears(1972)` created at that reading returns
nil from its first `Next` and moves `Following()` back to 1972-01-01T00:00:00. -/
theorem C2_counterexample :
    (do let crn ← cronNegativeSeconds
        let c ← crn.NewInstance
          { year := 2019, month := 1, day := 1, hour := 0, minute := 0, second := 59,
            nanosecond := 0 }
        let (c1, e) ← c.Next
        pure (e, c1.Following, c.Following.Before c1.Following)) =
      .ok (none,
        { year := 2019, month := 1, day := 1, hour := 0, minute := 0, second := 59,
          nanosecond := 0 }, false) ∧
    (do let crn ← cronHugeStep
        let c ← crn.NewInstance date
        let (c1, e) ← c.Next
        pure (e, c1.Following, c.Following.Before c1.Following)) =
      .ok (none, date, false) ∧
    Time.ofUnix (-62135596800) 0 farEast = farEastZero ∧
    (do let crn ← cron1972
        let c ← crn.NewInstance farEastZero
        let (c1, e) ← c.Next
        pure (decide c.crn.WF, e, c1.Following, c.Following.Before c1.Following)) =
      .ok (true, none, { farEastZero with year := 1972 }, false) := by
  refine ⟨by decide, by decide, by decide, by decide⟩

/-- C2, amended (strict monotonicity of `CronInstance.Next` for built expressions): for
every expression whose resolved fields are constraints made by the builder from in-range
bare values and the field-specific `Between*`/`List*` constructors, with steps that do not
overflow the upper bound (`hi + step ≤ math.MaxInt64`), and every reference instant that is
a reading of a fixed-offset zone (a location without transitions) whose offset is less than
a day, on every cursor reached from `NewInstance` by calls of `Next`, a call of `Next` that
returns nil leaves `Following()` strictly later than it was before the call; for the first
call that is the reference instant, so successive results increase strictly. -/
theorem C2_Next_strictly_later (crn0 : CronExpression) (frm : Time) (c0 c c2 : CronInstance)
    (h0 : crn0.NewInstance frm = .ok c0) (hwf : c0.crn.WF) (hfrm : frm.Valid)
    (hzone : frm.Fixed) (hnear : frm.NearUTC) (hr : Calls c0 c)
    (hn : c.Next = .ok (c2, none)) :
    c.Following.Before c2.Following = true :=
  (reached_nil_near crn0 frm c0 c c2 h0 hwf hfrm hzone hnear hr hn).2.1

set_option maxRecDepth 100000 in
/-- Counterexample to C3: in `America/New_York` the cursor of `Cron().EveryMinute()`
created at 2019-11-03T01:59:00 EDT returns nil from its first `Next` and sets `Following()`
to 2019-11-03T02:00:00 EST, although the instant 2019-11-03T01:00:00 EST, the reading an
hour after 01:00 EDT on the day the clocks are set back, satisfies all eight constraints and
lies strictly between the two.  Nor is the instant `Next` yields the next in every
fixed-offset zone: in `time.FixedZone("", 62293363200)`, where the zero instant is read as
1975-01-01T00:00:00, the cursor of `Cron().OnYears(1972)` created at that reading returns
nil from its first `Next` and sets `Following()` to the earlier 1972-01-01T00:00:00. -/
theorem C3_counterexample :
    Time.ofUnix 1572760740 0 newYork = autumnBefore ∧
    Time.ofUnix 1572760800 0 newYork = autumnBack ∧
    (do let crn ← cronEveryMinute
        let c ← crn.NewInstance autumnBefore
        let (c1, e) ← c.Next
        pure (decide c.crn.WF, e, c1.Following, decide (c.crn.Satisfied autumnBack),
          c.Following.Before autumnBack, autumnBack.Before c1.Following)) =
      .ok (true, none,
        { year := 2019, month := 11, day := 3, hour := 2, minute := 0, second := 0,
          nanosecond := 0, offset := -18000, loc := newYork }, true, true, true) ∧
    (do let crn ← cron1972
        let c ← crn.NewInstance farEastZero
        let (c1, e) ← c.Next
        pure (decide c.crn.WF, e, c1.Following, c1.Following.Before c.Following)) =
      .ok (true, none, { farEastZero with year := 1972 }, true) := by
  refine ⟨by decide, by decide, by decide, by decide⟩

/-- C3, amended (minimality of `CronInstance.Next` in a fixed-offset zone): for every
expression whose resolved fields are constraints made by the builder from in-range bare
values and the field-specific `Between*`/`List*` constructors, with steps that do not
overflow the upper bound (`hi + step ≤ math.MaxInt64`), every reference instant that is a
reading of a fixed-offset zone (a location without transitions) whose offset is less than a
day and every cursor reached from `NewInstance` by calls of `Next` whose `Following()` is
`t0`, if `Next` returns nil and sets `Following()` to `t1`, then `t1` satisfies all eight
constraints, `t0 < t1`, and no instant `t` read in that zone with `t0 < t < t1` satisfies
all eight constraints (which includes being at millisecond resolution): `Next` yields the
next valid cron date and never skips one. -/
theorem C3_Next_minimal (crn0 : CronExpression) (frm : Time) (c0 c c2 : CronInstance)
    (h0 : crn0.NewInstance frm = .ok c0) (hwf : c0.crn.WF) (hfrm : frm.Valid)
    (hzone : frm.Fixed) (hnear : frm.NearUTC) (hr : Calls c0 c)
    (hn : c.Next = .ok (c2, none)) :
    c0.crn.Satisfied c2.Following ∧ c.Following.Before c2.Following = true ∧
      ∀ t : Time, c0.crn.Satisfied t → t.offset = frm.offset →
        c.Following.Before t = true → t.Before c2.Following = false :=
  reached_nil_near crn0 frm c0 c c2 h0 hwf hfrm hzone hnear hr hn

set_option maxRecDepth 100000 in
/-- Counterexample to C4: in `America/New_York` the cursor of `Cron().EveryMinute()`
created at 2019-11-03T01:45:00 EST, which has reported no error, returns
`CronOutdatedInvalidError` from its first `Next`, although the instant
2019-11-03T01:46:00 EST satisfies all eight constraints, is strictly later than
`Following()` and lies in the cursor's current year. -/
theorem C4_counterexample :
    Time.ofUnix 1572763500 0 newYork = autumnAgain ∧
    (do let crn ← cronEveryMinute
        let c ← crn.NewInstance autumnAgain
        let (c1, e) ← c.Next
        pure (decide c.crn.WF, e, c1.Following, c.am.Year,
          decide (c.crn.Satisfied { autumnAgain with minute := 46 }),
          c.Following.Before { autumnAgain with minute := 46 })) =
      .ok (true, some Error.CronOutdatedInvalidError, autumnAgain, 2019, true, true) ∧
    Time.ofUnix 1572763560 0 newYork = { autumnAgain with minute := 46 } := by
  refine ⟨by decide, by decide, by decide⟩

/-- C4, amended (error accuracy of `CronInstance.Next` in a fixed-offset zone): for every
expression whose resolved fields are constraints made by the builder from in-range bare
values and the field-specific `Between*`/`List*` constructors, with steps that do not
overflow the upper bound (`hi + step ≤ math.MaxInt64`), and every reference instant that is
a reading of a fixed-offset zone (a location without transitions), on a cursor that has not
yet reported an error (all its calls returned nil), whose current year is then the year of
`Following()`, if `Next` returns `CronOutdatedInvalidError` then no instant read in that
zone, strictly later than `Following()`, whose year is at most 400 years after the cursor's
current year satisfies all eight constraints. -/
theorem C4_error_accurate (crn0 : CronExpression) (frm : Time) (c0 c c2 : CronInstance)
    (h0 : crn0.NewInstance frm = .ok c0) (hwf : c0.crn.WF) (hfrm : frm.Valid)
    (hzone : frm.Fixed)
    (hr : Yields c0 c) (hn : c.Next = .ok (c2, some Error.CronOutdatedInvalidError))
    (t : Time) (hsat : c0.crn.Satisfied t) (hoff : t.offset = frm.offset)
    (hlater : c.Following.Before t = true) :
    c.am.Year = c.Following.year ∧ ¬ (t.year ≤ c.am.Year + 400) := by
  obtain ⟨hco0, hl0, hf0, _⟩ := NewInstance_inv crn0 frm c0 h0 hfrm
  have hz0 := NewInstance_zoned crn0 frm c0 h0 hfrm hzone
  obtain ⟨hc, hco, hz, ho, hl⟩ := Yields_live c0.crn hwf c0 ⟨rfl, hco0, hz0, hl0⟩ c hr
  rw [hf0] at ho
  refine ⟨msKey_year c _ hl.2, ?_⟩
  obtain ⟨c3, r, e, _, _, _, _, hcase⟩ := Live_step c0.crn hwf c hc hco hl hz
  rw [e] at hn
  simp only [Res.ok.injEq, Prod.mk.injEq] at hn
  obtain ⟨rfl, rfl⟩ := hn
  rcases hcase with ⟨hr2, _⟩ | ⟨_, _, _, hfar⟩
  · cases hr2
  · have := hfar t hsat (hoff.trans ho.symm) hlater
    show ¬ (t.year ≤ c.am.y + 400)
    omega

set_option maxRecDepth 100000 in
/-- Witness of C1: the first `Next` of the cursor of
`Cron().OnMinutes(23).OnHours(Between(0,20).Every(2))` created at 2019-01-01T00:00:00Z
leaves a `Following()` that satisfies the expression. -/
theorem C1_witness :
    (cursorAt cronStepped).crn.Satisfied (afterNext (cursorAt cronStepped)).Following :=
  C1_Next_sound (cronStepped.getD Cron) date (cursorAt cronStepped) (cursorAt cronStepped)
    (afterNext (cursorAt cronStepped)) (by decide) (by decide) (by decide) (by decide)
    Calls.refl (by decide)

set_option maxRecDepth 100000 in
/-- Witness of C2: the second `Next` of that cursor moves `Following()` from 00:23 to a
later instant. -/
theorem C2_witness :
    (afterNext (cursorAt cronStepped)).Following.Before
      (afterNext (afterNext (cursorAt cronStepped))).Following = true :=
  C2_Next_strictly_later (cronStepped.getD Cron) date (cursorAt cronStepped)
    (afterNext (cursorAt cronStepped)) (afterNext (afterNext (cursorAt cronStepped)))
    (by decide) (by decide) (by decide) (by decide) (by decide)
    (Calls.next Calls.refl (show (cursorAt cronStepped).Next =
      .ok (afterNext (cursorAt cronStepped), none) by decide))
    (by decide)

set_option maxRecDepth 100000 in
/-- Witness of C3: the first result, 00:23, satisfies the stepped expression and is later
than the reference instant; 2019-01-01T02:23:00Z satisfies the expression and is later than
the reference instant, so it is not before the first result. -/
theorem C3_witness :
    (cursorAt cronStepped).crn.Satisfied (afterNext (cursorAt cronStepped)).Following ∧
      (cursorAt cronStepped).Following.Before
        (afterNext (cursorAt cronStepped)).Following = true ∧
      ({ year := 2019, month := 1, day := 1, hour := 2, minute := 23, second := 0,
         nanosecond := 0 } : Time).Before (afterNext (cursorAt cronStepped)).Following = false :=
  have h := C3_Next_minimal (cronStepped.getD Cron) date (cursorAt cronStepped)
    (cursorAt cronStepped) (afterNext (cursorAt cronStepped)) (by decide) (by decide)
    (by decide) (by decide) (by decide) Calls.refl (by decide)
  ⟨h.1, h.2.1, h.2.2
    { year := 2019, month := 1, day := 1, hour := 2, minute := 23, second := 0, nanosecond := 0 }
    (by decide) (by decide) (by decide)⟩

set_option maxRecDepth 100000 in
/-- Witness of C4: from 2019 the cursor of
`Cron().OnDays(30).OnMonths(BetweenMonths(2,3)).OnYears(2500)` reports the error, and the
instant 2500-03-30T00:00:00Z, which satisfies the expression, is more than 400 years
ahead. -/
theorem C4_witness :
    (cursorAt cronFarMarch).am.Year = (cursorAt cronFarMarch).Following.year ∧
      ¬ ((2500 : Int) ≤ (cursorAt cronFarMarch).am.Year + 400) :=
  C4_error_accurate (cronFarMarch.getD Cron) date (cursorAt cronFarMarch) (cursorAt cronFarMarch)
    (afterNext (cursorAt cronFarMarch)) (by decide) (by decide) (by decide) (by decide)
    Yields.refl (by decide)
    { year := 2500, month := 3, day := 30, hour := 0, minute := 0, second := 0, nanosecond := 0 }
    (by decide) (by decide) (by decide)

set_option maxRecDepth 100000 in
/-- C5 (conjunctive day/weekday semantics, concrete): the cursor of
`Cron().OnMonths(February).OnDays(29).OnWeekdays(Sunday)` created at 2019-01-01T00:00:00Z
produces 2032-02-29T00:00:00.000Z on its first `Next` and 2060-02-29T00:00:00.000Z on its
second `Next`, both without error. -/
theorem C5_feb29_sunday :
    (do let crn ← cronFeb29Sunday
        let c ← crn.NewInstance date
        let (c1, e1) ← c.Next
        let (c2, e2) ← c1.Next
        pure (c1.Following, e1, c2.Following, e2)) =
      .ok ({ year := 2032, month := 2, day := 29, hour := 0, minute := 0, second := 0,
             nanosecond := 0 }, none,
           { year := 2060, month := 2, day := 29, hour := 0, minute := 0, second := 0,
             nanosecond := 0 }, none) := by
  decide

theorem cronFeb30_eq : cronFeb30 = .ok
    { milliseconds := .int 0, seconds := .int 0, minutes := .int 0, hours := .int 0,
      days := .int 30, weekdays := .nil, months := .month 2, years := .nil,
      initialized := 0 } := by
  decide

/-- C6 (unsatisfiable combination detection): for every reference instant, the first
`Next` of the cursor of `Cron().OnMonths(February).OnDays(30)` returns
`CronOutdatedInvalidError`. -/
theorem C6_feb30_error (frm : Time) (hfrm : frm.Valid) :
    (do let crn ← cronFeb30
        let c ← crn.NewInstance frm
        let (_, e) ← c.Next
        pure e) = .ok (some Error.CronOutdatedInvalidError) := by
  rw [cronFeb30_eq]
  simp only [Res.ok_bind]
  have hi : CronExpression.initialize
      { milliseconds := .int 0, seconds := .int 0, minutes := .int 0, hours := .int 0,
        days := .int 30, weekdays := .nil, months := .month 2, years := .nil,
        initialized := 0 } = .ok
      { milliseconds := .int 0, seconds := .int 0, minutes := .int 0, hours := .int 0,
        days := .int 30, weekdays := .between { x := 0, y := 6, step := 1 },
        months := .month 2, years := .between { x := 1970, y := 200000000, step := 1 },
        initialized := 1 } := by
    decide
  obtain ⟨c, e, hc, hco, _, _, _⟩ := NewInstance_live _ _ frm hi hfrm
  have hwf : CronExpression.WF
      { milliseconds := .int 0, seconds := .int 0, minutes := .int 0, hours := .int 0,
        days := .int 30, weekdays := .between { x := 0, y := 6, step := 1 },
        months := .month 2, years := .between { x := 1970, y := 200000000, step := 1 },
        initialized := 1 } := by
    decide
  obtain ⟨b, c1, _, _, _, _, _, hcase, hN⟩ := Next_cases _ hwf c hc hco
  have hno : ∀ k, ¬ KeyOK
      { milliseconds := .int 0, seconds := .int 0, minutes := .int 0, hours := .int 0,
        days := .int 30, weekdays := .between { x := 0, y := 6, step := 1 },
        months := .month 2, years := .between { x := 1970, y := 200000000, step := 1 },
        initialized := 1 } k := by
    intro k hk
    obtain ⟨⟨⟨⟨⟨_, hm, hd, _, hle, _⟩, _⟩, _⟩, _⟩, _⟩ := hk
    simp only [Expression.admits, decide_eq_true_eq] at hd hm
    rw [hd, hm] at hle
    unfold daysIn at hle
    simp only [if_true] at hle
    split at hle <;> omega
  rw [e]
  simp only [Res.ok_bind, hN, Res.pure_eq]
  rcases hcase with ⟨he, _⟩ | ⟨_, hv, _⟩ | ⟨_, hv, _⟩
  · rw [he]
  · exact absurd hv (hno _)
  · exact absurd hv (hno _)

/-- Witness of C6: the reference instant 2019-01-01T00:00:00Z. -/
theorem C6_witness :
    (do let crn ← cronFeb30
        let c ← crn.NewInstance date
        let (_, e) ← c.Next
        pure e) = .ok (some Error.CronOutdatedInvalidError) :=
  C6_feb30_error date (by decide)

set_option maxRecDepth 100000 in
/-- Counterexample to C7: the year constraint of
`Cron().OnYears(2018).OnHours(Between(20000, 20001))` admits only 2018, yet the first `Next`
of its cursor created at 2019-01-01T00:00:00Z returns nil and sets `Following()` to
2020-04-13T08:00:00Z, the instant 20000 hours after the start of 2018; and in a location
whose clocks are set back across the new year, from 00:10 on 2019-01-01 to 23:10 on
2018-12-31, the first `Next` of the cursor of
`Cron().OnYears(2018).OnMonths(December).OnDays(31).OnHours(23).OnMinutes(45)` created at
the reading 2019-01-01T00:05:00+01:00 returns nil and sets `Following()` to the later
instant 2018-12-31T23:45:00Z; and in the fixed-offset zone
`time.FixedZone("", 62293363200)`, where the zero instant is read as 1975-01-01T00:00:00,
the first `Next` of the cursor of `Cron().OnYears(1972)` created at that reading, which
`Next` compares with nothing, returns nil and sets `Following()` to
1972-01-01T00:00:00. -/
theorem C7_counterexample :
    (do let crn ← cronLateHours
        let c ← crn.NewInstance date
        let (c1, e) ← c.Next
        pure (c.crn.years, e, c1.Following)) =
      .ok (.int 2018, none,
        { year := 2020, month := 4, day := 13, hour := 8, minute := 0, second := 0,
          nanosecond := 0 }) ∧
    Time.ofUnix 1546297500 0 newYearBack = newYearEarly ∧
    (do let crn ← cronOldYear
        let c ← crn.NewInstance newYearEarly
        let (c1, e) ← c.Next
        pure (decide c.crn.WF, c.crn.years, e, c1.Following)) =
      .ok (true, .int 2018, none,
        { year := 2018, month := 12, day := 31, hour := 23, minute := 45, second := 0,
          nanosecond := 0, offset := 0, loc := newYearBack }) ∧
    Time.ofUnix (-62135596800) 0 farEast = farEastZero ∧
    (do let crn ← cron1972
        let c ← crn.NewInstance farEastZero
        let (c1, e) ← c.Next
        pure (decide c.crn.WF, c.crn.years, c.Following.IsZero, e, c1.Following)) =
      .ok (true, .int 1972, true, none, { farEastZero with year := 1972 }) := by
  refine ⟨by decide, by decide, by decide, by decide, by decide⟩

/-- C7, amended (outdated expression detection in a fixed-offset zone): for every expression
whose resolved fields are constraints made by the builder from in-range bare values and the
field-specific `Between*`/`List*` constructors, with steps that do not overflow the upper
bound (`hi + step ≤ math.MaxInt64`), and every reference instant other than the zero instant
`time.Time{}` that is a reading of a fixed-offset zone (a location without transitions), if
the year constraint admits only years earlier than the year of the reference instant, the
first `Next` returns `CronOutdatedInvalidError` and `Following()` still equals the reference
instant. -/
theorem C7_outdated (crn0 : CronExpression) (frm : Time) (c0 : CronInstance)
    (h0 : crn0.NewInstance frm = .ok c0) (hwf : c0.crn.WF) (hfrm : frm.Valid)
    (hzone : frm.Fixed) (hnz : frm.IsZero = false)
    (hold : ∀ y, c0.crn.years.admits y = true → y < frm.year) :
    ∃ c1, c0.Next = .ok (c1, some Error.CronOutdatedInvalidError) ∧ c1.Following = frm := by
  obtain ⟨hco, hl, hf, _⟩ := NewInstance_inv crn0 frm c0 h0 hfrm
  have hz := NewInstance_zoned crn0 frm c0 h0 hfrm hzone
  obtain ⟨c2, r, e, _, _, _, ho, hcase⟩ := Live_step c0.crn hwf c0 rfl hco hl hz
  rcases hcase with ⟨_, _, hs, ⟨hb, _⟩ | ⟨hzero, _⟩⟩ | ⟨hr, hf2, _⟩
  · exfalso
    have hy := hold _ hs.2.2.2.2.2.2.2.1
    rw [Before_iff _ _ hz.1 (Satisfied_Valid c0.crn hwf _ hs) ho.symm, hf] at hb
    omega
  · rw [hf, hnz] at hzero
    cases hzero
  · subst hr
    exact ⟨c2, e, hf2.trans hf⟩

set_option maxRecDepth 100000 in
/-- Witness of C7: `Cron().OnYears(2018).OnMonths(February).OnDays(28)` from
2019-01-01T00:00:00Z. -/
theorem C7_witness :
    ∃ c1, (cursorAt cronOutdated).Next = .ok (c1, some Error.CronOutdatedInvalidError) ∧
      c1.Following = date :=
  C7_outdated (cronOutdated.getD Cron) date (cursorAt cronOutdated) (by decide) (by decide)
    (by decide) (by decide) (by decide) (by
      intro y hy
      have : y = 2018 := by
        have h : (cursorAt cronOutdated).crn.years = .int 2018 := by decide
        rw [h] at hy
        simpa [Expression.admits] using hy
      subst this
      decide)

set_option maxRecDepth 100000 in
/-- C8 (stepped interval, concrete): the cursor of
`Cron().OnMinutes(23).OnHours(Between(0,20).Every(2))` created at 2019-01-01T00:00:00Z
produces 2019-01-01T00:23:00Z after 1 `Next`, 2019-01-01T20:23:00Z after 10 more `Next`
calls, and 2019-01-02T00:23:00Z after one further `Next`, all without error. -/
theorem C8_stepped_interval :
    (do let crn ← cronStepped
        let c ← crn.NewInstance date
        let (c1, e1) ← c.advanceX 1
        pure (c1.Following, e1)) =
      .ok ({ year := 2019, month := 1, day := 1, hour := 0, minute := 23, second := 0,
             nanosecond := 0 }, none) ∧
    (do let crn ← cronStepped
        let c ← crn.NewInstance date
        let (c1, _) ← c.advanceX 1
        let (c2, e2) ← c1.advanceX 10
        pure (c2.Following, e2)) =
      .ok ({ year := 2019, month := 1, day := 1, hour := 20, minute := 23, second := 0,
             nanosecond := 0 }, none) ∧
    (do let crn ← cronStepped
        let c ← crn.NewInstance date
        let (c1, _) ← c.advanceX 1
        let (c2, _) ← c1.advanceX 10
        let (c3, e3) ← c2.advanceX 1
        pure (c3.Following, e3)) =
      .ok ({ year := 2019, month := 1, day := 2, hour := 0, minute := 23, second := 0,
             nanosecond := 0 }, none) := by
  refine ⟨?_, ?_, ?_⟩ <;> decide

set_option maxRecDepth 100000 in
/-- Counterexample to C9: in UTC the cursor of `Cron().OnSeconds(Between(-5, -1))` created
at 2019-01-01T00:00:59.5Z returns `CronOutdatedInvalidError` from its first `Next` and nil
from its second, which moves `Following()` to 2019-01-01T00:01:59Z; and in
`America/New_York` the cursor of `Cron().EveryMinute()` created at 2019-11-03T01:58:00 EST
returns `CronOutdatedInvalidError` from its first `Next` and nil from its second, which
moves `Following()` to 2019-11-03T02:00:00 EST. -/
theorem C9_counterexample :
    (do let crn ← cronNegativeSeconds
        let c ← crn.NewInstance
          { year := 2019, month := 1, day := 1, hour := 0, minute := 0, second := 59,
            nanosecond := 500000000 }
        let (c1, e1) ← c.Next
        let (c2, e2) ← c1.Next
        pure (e1, c1.Following, e2, c2.Following)) =
      .ok (some Error.CronOutdatedInvalidError,
        { year := 2019, month := 1, day := 1, hour := 0, minute := 0, second := 59,
          nanosecond := 500000000 }, none,
        { year := 2019, month := 1, day := 1, hour := 0, minute := 1, second := 59,
          nanosecond := 0 }) ∧
    Time.ofUnix 1572764280 0 newYork = autumnLate ∧
    (do let crn ← cronEveryMinute
        let c ← crn.NewInstance autumnLate
        let (c1, e1) ← c.Next
        let (c2, e2) ← c1.Next
        pure (decide c.crn.WF, e1, c1.Following, e2, c2.Following)) =
      .ok (true, some Error.CronOutdatedInvalidError, autumnLate, none,
        { year := 2019, month := 11, day := 3, hour := 2, minute := 0, second := 0,
          nanosecond := 0, offset := -18000, loc := newYork }) := by
  refine ⟨by decide, by decide, by decide⟩

/-- C9, amended (terminated-cursor stability for built expressions in a fixed-offset zone):
for every expression whose resolved fields are constraints made by the builder from in-range
bare values and the field-specific `Between*`/`List*` constructors, with steps that do not
overflow the upper bound (`hi + step ≤ math.MaxInt64`), and every reference instant that is
a reading of a fixed-offset zone (a location without transitions), once a call of `Next` on
a cursor reached from `NewInstance` has returned `CronOutdatedInvalidError`, every later
call of `Next` on the cursor returns the same error, and `Following()` keeps the value it
had before the first failing call. -/
theorem C9_terminated_stable (crn0 : CronExpression) (frm : Time) (c0 c c1 c2 : CronInstance)
    (h0 : crn0.NewInstance frm = .ok c0) (hwf : c0.crn.WF) (hfrm : frm.Valid)
    (hzone : frm.Fixed)
    (hr : Calls c0 c) (hn : c.Next = .ok (c1, some Error.CronOutdatedInvalidError))
    (hlater : Calls c1 c2) :
    ∃ c3, c2.Next = .ok (c3, some Error.CronOutdatedInvalidError) ∧
      c3.Following = c.Following := by
  obtain ⟨hc, hco, hz, _, hlt⟩ := reached_inv crn0 frm c0 c h0 hwf hfrm hzone hr
  obtain ⟨_, hc1, hco1, hz1, ht1, hf1⟩ := error_term c0.crn hwf c c1 _ hc hco hz hlt hn
  obtain ⟨hc2, hco2, hz2, ht2, hf2⟩ :=
    Calls_term c0.crn hwf c1 ⟨hc1, hco1, hz1, ht1⟩ c2 hlater
  obtain ⟨c3, e3, _, _, hf3, _⟩ := Term_step c0.crn hwf c2 hc2 hco2 ht2 hz2
  exact ⟨c3, e3, hf3.trans (hf2.trans hf1)⟩

set_option maxRecDepth 100000 in
/-- Witness of C9: the cursor of `Cron().EveryDay().OnYears(2018)` created at
2019-01-01T00:00:00Z reports the error on its first call, and the third call reports it
again with `Following()` still the reference instant. -/
theorem C9_witness :
    ∃ c3, (afterNext (afterNext (cursorAt cronPastDays))).Next =
        .ok (c3, some Error.CronOutdatedInvalidError) ∧
      c3.Following = (cursorAt cronPastDays).Following :=
  C9_terminated_stable (cronPastDays.getD Cron) date (cursorAt cronPastDays)
    (cursorAt cronPastDays) (afterNext (cursorAt cronPastDays))
    (afterNext (afterNext (cursorAt cronPastDays)))
    (by decide) (by decide) (by decide) (by decide) Calls.refl (by decide)
    (Calls.next Calls.refl (show (afterNext (cursorAt cronPastDays)).Next =
      .ok (afterNext (afterNext (cursorAt cronPastDays)),
        some Error.CronOutdatedInvalidError) by decide))

set_option maxRecDepth 100000 in
/-- Counterexample to C10: the cursor of `Cron().EveryDay().OnYears(2018)` created at
2019-01-01T00:00:00Z returns the error on its first `Next`, holding day 1 of January 2018;
its second `Next` returns the error again and moves the working field `d` to 2.  For an
interval that is out of range, and in a zone with transitions, `Following()` moves as
well: in UTC the second `Next` of the cursor of `Cron().OnSeconds(Between(-5, -1))` created
at 2019-01-01T00:00:59.5Z, after the error of the first, moves `Following()` to
2019-01-01T00:01:59Z, and in `America/New_York` the second `Next` of the cursor of
`Cron().EveryMinute()` created at 2019-11-03T01:58:00 EST, after the error of the first,
moves `Following()` to 2019-11-03T02:00:00 EST. -/
theorem C10_counterexample :
    (do let crn ← cronPastDays
        let c ← crn.NewInstance date
        let (c1, e1) ← c.Next
        let (c2, e2) ← c1.Next
        pure (e1, c1.d, e2, c2.d)) =
      .ok (some Error.CronOutdatedInvalidError, 1, some Error.CronOutdatedInvalidError, 2) ∧
    (do let crn ← cronNegativeSeconds
        let c ← crn.NewInstance
          { year := 2019, month := 1, day := 1, hour := 0, minute := 0, second := 59,
            nanosecond := 500000000 }
        let (c1, e1) ← c.Next
        let (c2, _) ← c1.Next
        pure (e1, c1.Following.minute, c2.Following.minute)) =
      .ok (some Error.CronOutdatedInvalidError, 0, 1) ∧
    (do let crn ← cronEveryMinute
        let c ← crn.NewInstance autumnLate
        let (c1, e1) ← c.Next
        let (c2, _) ← c1.Next
        pure (e1, c1.Following.hour, c2.Following.hour)) =
      .ok (some Error.CronOutdatedInvalidError, 1, 2) := by
  refine ⟨by decide, by decide, by decide⟩

/-- The expression a cursor holds and an error it has recorded survive a call. -/
theorem Next_frame (crn : CronExpression) (hwf : crn.WF) (c c2 : CronInstance)
    (r : Option Error) (hc : c.crn = crn) (hco : c.am.Coherent) (hn : c.Next = .ok (c2, r)) :
    c2.crn = c.crn ∧ (c.err ≠ none → c2.err ≠ none) := by
  obtain ⟨b, c1, _, hc1, _, _, _, hcase, hN⟩ := Next_cases crn hwf c hc hco
  rw [hN] at hn
  simp only [Res.ok.injEq] at hn
  have herr : c.err ≠ none → c1.err ≠ none := by
    intro h
    rcases hcase with ⟨he, _⟩ | ⟨he, _⟩ | ⟨he, _⟩
    · rw [he]; simp
    · rw [he]; exact h
    · rw [he]; exact h
  cases he1 : c1.err with
  | some e1 =>
    rw [he1] at hn
    simp only [Prod.mk.injEq] at hn
    obtain ⟨rfl, _⟩ := hn
    exact ⟨hc1.trans hc.symm, fun _ => by rw [he1]; simp⟩
  | none =>
    refine ⟨?_, fun h => absurd he1 (herr h)⟩
    rw [he1] at hn
    simp only at hn
    split at hn
    · simp only [Prod.mk.injEq] at hn
      obtain ⟨rfl, _⟩ := hn
      exact hc1.trans hc.symm
    · simp only [Prod.mk.injEq] at hn
      obtain ⟨rfl, _⟩ := hn
      exact hc1.trans hc.symm

/-- C10, amended (what survives a call after termination): for every expression whose
resolved fields are constraints made by the builder from in-range bare values and the
field-specific `Between*`/`List*` constructors, with steps that do not overflow the upper
bound (`hi + step ≤ math.MaxInt64`), and every reference instant that is a reading of a
fixed-offset zone (a location without transitions), on a cursor reached from `NewInstance`
on which `Next` has returned `CronOutdatedInvalidError`, a further call of `Next` returns
that error again and leaves `Following()` and the expression unchanged, and an error once
recorded stays recorded; the working fields ms, s, min, h, d and the calendar month and year
may change. -/
theorem C10_after_termination (crn0 : CronExpression) (frm : Time)
    (c0 c c1 c2 c3 : CronInstance) (r : Option Error)
    (h0 : crn0.NewInstance frm = .ok c0) (hwf : c0.crn.WF) (hfrm : frm.Valid)
    (hzone : frm.Fixed)
    (hr : Calls c0 c) (hn : c.Next = .ok (c1, some Error.CronOutdatedInvalidError))
    (hlater : Calls c1 c2) (hn2 : c2.Next = .ok (c3, r)) :
    r = some Error.CronOutdatedInvalidError ∧ c3.Following = c2.Following ∧
      c3.crn = c2.crn ∧ (c2.err ≠ none → c3.err ≠ none) := by
  obtain ⟨hc, hco, hz, _, hlt⟩ := reached_inv crn0 frm c0 c h0 hwf hfrm hzone hr
  obtain ⟨_, hc1, hco1, hz1, ht1, _⟩ := error_term c0.crn hwf c c1 _ hc hco hz hlt hn
  obtain ⟨hc2, hco2, hz2, ht2, _⟩ :=
    Calls_term c0.crn hwf c1 ⟨hc1, hco1, hz1, ht1⟩ c2 hlater
  obtain ⟨c4, e4, _, _, hf4, _⟩ := Term_step c0.crn hwf c2 hc2 hco2 ht2 hz2
  have hfr := Next_frame c0.crn hwf c2 c3 r hc2 hco2 hn2
  rw [e4] at hn2
  simp only [Res.ok.injEq, Prod.mk.injEq] at hn2
  obtain ⟨rfl, rfl⟩ := hn2
  exact ⟨rfl, hf4, hfr.1, hfr.2⟩

set_option maxRecDepth 100000 in
/-- Witness of the amended C10: the second call on the cursor of
`Cron().EveryDay().OnYears(2018)` created at 2019-01-01T00:00:00Z. -/
theorem C10_witness :
    (some Error.CronOutdatedInvalidError : Option Error) = some Error.CronOutdatedInvalidError ∧
      (afterNext (afterNext (cursorAt cronPastDays))).Following =
        (afterNext (cursorAt cronPastDays)).Following ∧
      (afterNext (afterNext (cursorAt cronPastDays))).crn = (afterNext (cursorAt cronPastDays)).crn ∧
      ((afterNext (cursorAt cronPastDays)).err ≠ none →
        (afterNext (afterNext (cursorAt cronPastDays))).err ≠ none) :=
  C10_after_termination (cronPastDays.getD Cron) date (cursorAt cronPastDays)
    (cursorAt cronPastDays) (afterNext (cursorAt cronPastDays))
    (afterNext (cursorAt cronPastDays)) (afterNext (afterNext (cursorAt cronPastDays)))
    (some Error.CronOutdatedInvalidError)
    (by decide) (by decide) (by decide) (by decide) Calls.refl (by decide) Calls.refl
    (by decide)

theorem Res.bind_ok_iff {α β : Type} (r : Res α) (f : α → Res β) (b : β) :
    (r >>= f) = .ok b ↔ ∃ a, r = .ok a ∧ f a = .ok b := by
  cases r <;> simp [Bind.bind, Res.bind]

/-- The month and year step touches only the calendar month. -/
theorem nextMonY_following (c c1 : CronInstance) (inc r : Bool)
    (h : c.nextMonY inc = .ok (r, c1)) : c1.following = c.following := by
  unfold CronInstance.nextMonY at h
  simp only [Res.bind_ok_iff, Prod.exists] at h
  obtain ⟨m, _, _, y, _, _, h⟩ := h
  split at h
  · simp only [Res.bind_ok_iff, Prod.exists, Res.pure_eq, Res.ok.injEq, Prod.mk.injEq] at h
    obtain ⟨_, _, _, am, _, _, rfl⟩ := h
    rfl
  · simp only [Res.bind_ok_iff, Prod.exists, Res.pure_eq, Res.ok.injEq, Prod.mk.injEq] at h
    obtain ⟨am, _, _, rfl⟩ := h
    rfl


/-- The day-search loop leaves `following` alone. -/
theorem nextDLoop_following (fromD fromY : Int) : ∀ (fuel : Nat) (c c1 : CronInstance)
    (inc reset r : Bool), CronInstance.nextDLoop fromD fromY fuel c inc reset = .ok (r, c1) →
    c1.following = c.following := by
  intro fuel
  induction fuel with
  | zero => intro c c1 inc reset r h; cases h
  | succ n ih =>
    intro c c1 inc reset r h
    unfold CronInstance.nextDLoop at h
    simp only [Res.bind_ok_iff, Prod.exists] at h
    obtain ⟨d, last, invalid, _, h⟩ := h
    split at h
    · simp only [Res.bind_ok_iff, Prod.exists] at h
      obtain ⟨r2, c2, h2, h⟩ := h
      have e2 := nextMonY_following _ _ _ _ h2
      split at h
      · simp only [Res.pure_eq, Res.ok.injEq, Prod.mk.injEq] at h
        obtain ⟨_, rfl⟩ := h
        exact e2
      · exact (ih _ _ _ _ _ h).trans e2
    · split at h
      · exact (ih _ _ _ _ _ h).trans rfl
      · simp only [Res.pure_eq, Res.ok.injEq, Prod.mk.injEq] at h
        obtain ⟨_, rfl⟩ := h
        rfl

theorem nextD_following (c c1 : CronInstance) (inc r : Bool)
    (h : c.nextD inc = .ok (r, c1)) : c1.following = c.following := by
  unfold CronInstance.nextD at h
  simp only [Res.bind_ok_iff, Prod.exists] at h
  obtain ⟨r2, c2, h2, h⟩ := h
  have e2 := nextMonY_following _ _ _ _ h2
  split at h
  · exact (nextDLoop_following _ _ _ _ _ _ _ _ h).trans e2
  · exact (nextDLoop_following _ _ _ _ _ _ _ _ h).trans e2

theorem nextH_following (c c1 : CronInstance) (inc r : Bool)
    (h : c.nextH inc = .ok (r, c1)) : c1.following = c.following := by
  unfold CronInstance.nextH at h
  simp only [Res.bind_ok_iff, Prod.exists] at h
  obtain ⟨v, _, _, r2, c2, h2, h⟩ := h
  have e2 := nextD_following _ _ _ _ h2
  split at h
  · simp only [Res.bind_ok_iff, Prod.exists, Res.pure_eq, Res.ok.injEq, Prod.mk.injEq] at h
    obtain ⟨_, _, _, _, rfl⟩ := h
    exact e2
  · simp only [Res.pure_eq, Res.ok.injEq, Prod.mk.injEq] at h
    obtain ⟨_, rfl⟩ := h
    exact e2

theorem nextMin_following (c c1 : CronInstance) (inc r : Bool)
    (h : c.nextMin inc = .ok (r, c1)) : c1.following = c.following := by
  unfold CronInstance.nextMin at h
  simp only [Res.bind_ok_iff, Prod.exists] at h
  obtain ⟨v, _, _, r2, c2, h2, h⟩ := h
  have e2 := nextH_following _ _ _ _ h2
  split at h
  · simp only [Res.bind_ok_iff, Prod.exists, Res.pure_eq, Res.ok.injEq, Prod.mk.injEq] at h
    obtain ⟨_, _, _, _, rfl⟩ := h
    exact e2
  · simp only [Res.pure_eq, Res.ok.injEq, Prod.mk.injEq] at h
    obtain ⟨_, rfl⟩ := h
    exact e2

theorem nextS_following (c c1 : CronInstance) (inc r : Bool)
    (h : c.nextS inc = .ok (r, c1)) : c1.following = c.following := by
  unfold CronInstance.nextS at h
  simp only [Res.bind_ok_iff, Prod.exists] at h
  obtain ⟨v, _, _, r2, c2, h2, h⟩ := h
  have e2 := nextMin_following _ _ _ _ h2
  split at h
  · simp only [Res.bind_ok_iff, Prod.exists, Res.pure_eq, Res.ok.injEq, Prod.mk.injEq] at h
    obtain ⟨_, _, _, _, rfl⟩ := h
    exact e2
  · simp only [Res.pure_eq, Res.ok.injEq, Prod.mk.injEq] at h
    obtain ⟨_, rfl⟩ := h
    exact e2

theorem nextMs_following (c c1 : CronInstance)
    (h : c.nextMs = .ok c1) : c1.following = c.following := by
  unfold CronInstance.nextMs at h
  simp only [Res.bind_ok_iff, Prod.exists] at h
  obtain ⟨v, _, _, r2, c2, h2, h⟩ := h
  have e2 := nextS_following _ _ _ _ h2
  split at h
  · simp only [Res.bind_ok_iff, Prod.exists, Res.pure_eq, Res.ok.injEq] at h
    obtain ⟨_, _, _, rfl⟩ := h
    exact e2
  · simp only [Res.pure_eq, Res.ok.injEq] at h
    subst h
    exact e2

/-- A call of `Next` that returns an error leaves `Following()` as it was, whatever the
expression. -/
theorem Next_error_following (c c1 : CronInstance) (e : Error)
    (h : c.Next = .ok (c1, some e)) : c1.Following = c.Following := by
  unfold CronInstance.Next at h
  simp only [Res.bind_ok_iff] at h
  obtain ⟨c2, h2, h⟩ := h
  have e2 := nextMs_following _ _ h2
  split at h
  · simp only [Res.pure_eq, Res.ok.injEq, Prod.mk.injEq] at h
    obtain ⟨rfl, _⟩ := h
    exact e2
  · split at h
    · simp only [Res.pure_eq, Res.ok.injEq, Prod.mk.injEq] at h
      obtain ⟨rfl, _⟩ := h
      exact e2
    · simp only [Res.pure_eq, Res.ok.injEq, Prod.mk.injEq] at h
      exact absurd h.2 (by simp)

set_option maxRecDepth 100000 in
/-- Counterexample to C11: the cursor of `Cron().OnMinutes(23).OnHours(Between(0,20).Every(2))`
created at 2019-01-01T00:00:00Z reports 2019-01-01T00:00:00Z from `Following()` before any
`Next`, and that instant is not the zero instant. -/
theorem C11_counterexample :
    (do let crn ← cronStepped
        let c ← crn.NewInstance date
        pure (c.Following, c.Following.IsZero)) =
      .ok ({ year := 2019, month := 1, day := 1, hour := 0, minute := 0, second := 0,
             nanosecond := 0 }, false) := by
  decide

/-- C11, amended (`Following()` before the first advance): for every expression and every
reference instant, the cursor returned by `NewInstance` reports the reference instant from
`Following()`, and keeps reporting it after calls of `Next` that returned an error, until
`Next` has succeeded once. -/
theorem C11_following_is_reference (crn0 : CronExpression) (frm : Time) (c0 c : CronInstance)
    (h0 : crn0.NewInstance frm = .ok c0) (hr : Refused c0 c) : c.Following = frm := by
  induction hr with
  | refl =>
    unfold CronExpression.NewInstance at h0
    simp only [Res.bind_ok_iff, Res.pure_eq, Res.ok.injEq] at h0
    obtain ⟨_, _, _, _, rfl⟩ := h0
    rfl
  | next _ hn ih => exact (Next_error_following _ _ _ hn).trans ih

set_option maxRecDepth 100000 in
/-- Witness of C11: the cursor of `Cron().EveryDay().OnYears(2018)` created at
2019-01-01T00:00:00Z, after one call of `Next` that returned an error. -/
theorem C11_witness : (afterNext (cursorAt cronPastDays)).Following = date :=
  C11_following_is_reference (cronPastDays.getD Cron) date (cursorAt cronPastDays)
    (afterNext (cursorAt cronPastDays)) (by decide)
    (Refused.next Refused.refl (show (cursorAt cronPastDays).Next =
      .ok (afterNext (cursorAt cronPastDays), some Error.CronOutdatedInvalidError) by decide))

/-- What `Between(lo,hi).Every(step)` builds. -/
theorem Between_Every_ok (lo hi step : Int) (b : BetweenExpression)
    (hb : (do let e ← Between lo hi; e.Every step) = .ok b) :
    lo ≤ hi ∧ 1 ≤ step ∧ b = { x := lo, y := hi, step := step } := by
  unfold Between at hb
  by_cases h1 : lo > hi
  · rw [if_pos h1] at hb; cases hb
  · rw [if_neg h1] at hb
    simp only [Res.ok_bind, BetweenExpression.Every] at hb
    by_cases h2 : step < 1
    · rw [if_pos h2] at hb; cases hb
    · rw [if_neg h2] at hb
      simp only [Res.ok.injEq] at hb
      exact ⟨by omega, by omega, hb.symm⟩

/-- Counterexample to C12: `Between(-10, math.MaxInt64).Every(3).Next(math.MaxInt64 - 1,
false)` returns `(math.MinInt64 + 1, false)`: the sum of `from` and the distance to the next
lattice value overflows, so the value returned is below `from` and below `lo`, not a
lattice value clamped to `hi`. -/
theorem C12_counterexample :
    (do let e ← Between (-10) 9223372036854775807
        let b ← e.Every 3
        b.Next 9223372036854775806 false) = .ok (-9223372036854775807, false) ∧
    ¬ ∃ (k v : Int) (last : Bool),
      BetweenExpression.Next { x := -10, y := 9223372036854775807, step := 3 }
        9223372036854775806 false = .ok (v, last) ∧ 0 ≤ k ∧
      Qual (9223372036854775806 : Int) false (-10 + k * 3) ∧
      (∀ j : Int, 0 ≤ j → Qual (9223372036854775806 : Int) false (-10 + j * 3) → k ≤ j) ∧
      v = min (-10 + k * 3) 9223372036854775807 ∧ (last = true ↔ v = 9223372036854775807) := by
  refine ⟨by decide, ?_⟩
  rintro ⟨k, v, last, h, hk, _, _, hv, _⟩
  have e : BetweenExpression.Next { x := -10, y := 9223372036854775807, step := 3 }
      9223372036854775806 false = .ok (-9223372036854775807, false) := by decide
  rw [e] at h
  simp only [Res.ok.injEq, Prod.mk.injEq] at h
  have hmin : (-10 : Int) ≤ min (-10 + k * 3) 9223372036854775807 :=
    le_min (by omega) (by norm_num)
  omega

/-- C12, amended (`BetweenExpression.Next` on the step lattice, without overflow): for every
`Between(lo,hi).Every(step)` (so `step ≥ 1`) of `int` values for which neither `hi − lo` nor
`hi + step` overflows, and every `from` with `lo ≤ from < hi`, `Next(from, inc)` returns the
lattice value `lo + k·step` with the least `k ≥ 0` that is `≥ from` when `inc` is true and
`> from` when `inc` is false, clamped to `hi`, and its boolean result is true exactly when
the returned value equals `hi`. -/
theorem C12_Between_Next_lattice (lo hi step frm : Int) (inc : Bool) (b : BetweenExpression)
    (hb : (do let e ← Between lo hi; e.Every step) = .ok b) (hex : b.Exact)
    (hlo : lo ≤ frm) (hhi : frm < hi) :
    ∃ (k v : Int) (last : Bool), b.Next frm inc = .ok (v, last) ∧ 0 ≤ k ∧
      Qual frm inc (lo + k * step) ∧
      (∀ j : Int, 0 ≤ j → Qual frm inc (lo + j * step) → k ≤ j) ∧
      v = min (lo + k * step) hi ∧ (last = true ↔ v = hi) := by
  obtain ⟨hxy, hs, rfl⟩ := Between_Every_ok lo hi step b hb
  have hdiv := Int.emod_add_ediv (frm - lo) step
  have hr0 := Int.emod_nonneg (frm - lo) (show step ≠ 0 by omega)
  have hr1 := Int.emod_lt_of_pos (frm - lo) (show 0 < step by omega)
  have hq0 : 0 ≤ (frm - lo) / step := Int.ediv_nonneg (by omega) (by omega)
  have hmul : ((frm - lo) / step) * step = step * ((frm - lo) / step) := by ring
  have hmul1 : ((frm - lo) / step + 1) * step = step * ((frm - lo) / step) + step := by ring
  -- a lattice index below the quotient gives a value below `frm`
  have hbelow : ∀ j : Int, j < (frm - lo) / step → lo + j * step < frm := by
    intro j hj
    have h1 : (j + 1) * step ≤ ((frm - lo) / step) * step :=
      Int.mul_le_mul_of_nonneg_right (by omega) (by omega)
    have h2 : (j + 1) * step = j * step + step := by ring
    omega
  rw [Between_Next_plain _ hs hex]
  dsimp only
  simp only [Qual]
  by_cases h1 : frm < lo ∨ (inc = true ∧ frm = lo)
  · rcases h1 with h1 | ⟨hinc, h1⟩
    · omega
    · refine ⟨0, lo, false, by rw [if_pos (Or.inr ⟨hinc, h1⟩)], le_refl _, ?_, ?_, ?_, ?_⟩
      · right; exact ⟨hinc, by omega⟩
      · intro j hj _; exact hj
      · rw [zero_mul, add_zero, min_eq_left hxy]
      · constructor
        · intro h; cases h
        · intro h; omega
  · rw [if_neg h1, if_neg (by omega), if_neg (by omega)]
    rw [Int.tmod_eq_emod (by omega) (by omega)]
    by_cases h3 : inc = true ∧ step - (frm - lo) % step = step
    · have e3 : (if inc = true ∧ step - (frm - lo) % step = step then (0 : Int)
          else step - (frm - lo) % step) = 0 := if_pos h3
      simp only [e3, add_zero]
      rw [if_neg (by omega)]
      refine ⟨(frm - lo) / step, frm, false, rfl, hq0, ?_, ?_, ?_, ?_⟩
      · right; exact ⟨h3.1, by omega⟩
      · intro j _ hj
        by_contra hcon
        have := hbelow j (by omega)
        omega
      · rw [min_eq_left (by omega)]; omega
      · constructor
        · intro h; cases h
        · intro h; omega
    · simp only [h3, if_false]
      have hk : Qual frm inc (lo + ((frm - lo) / step + 1) * step) := by
        left; omega
      have hmin : ∀ j : Int, 0 ≤ j → Qual frm inc (lo + j * step) →
          (frm - lo) / step + 1 ≤ j := by
        intro j _ hj
        by_contra hcon
        rcases lt_or_eq_of_le (show j ≤ (frm - lo) / step by omega) with hlt | heq
        · have := hbelow j hlt
          rcases hj with hj | ⟨_, hj⟩ <;> omega
        · subst heq
          rcases hj with hj | ⟨hinc, hj⟩
          · omega
          · exact h3 ⟨hinc, by omega⟩
      by_cases h4 : frm + (step - (frm - lo) % step) ≥ hi
      · rw [if_pos h4]
        refine ⟨(frm - lo) / step + 1, hi, true, rfl, by omega, hk, hmin, ?_, by simp⟩
        rw [min_eq_right (by omega)]
      · rw [if_neg h4]
        refine ⟨(frm - lo) / step + 1, _, false, rfl, by omega, hk, hmin, ?_, ?_⟩
        · rw [min_eq_left (by omega)]; omega
        · constructor
          · intro h; cases h
          · intro h; omega

/-- Witness of C12: `Between(0,10).Every(3)` at `from = 1`, together with the values the
comment of `Every` lists: `Next(0,true)=0`, `Next(0,false)=3`, `Next(1,_)=3`,
`Next(3,false)=6`, `Next(6,false)=9`, `Next(9,false)=10`. -/
theorem C12_witness :
    (∃ (k v : Int) (last : Bool),
      BetweenExpression.Next { x := 0, y := 10, step := 3 } 1 true = .ok (v, last) ∧ 0 ≤ k ∧
      Qual (1 : Int) true (0 + k * 3) ∧
      (∀ j : Int, 0 ≤ j → Qual (1 : Int) true (0 + j * 3) → k ≤ j) ∧
      v = min (0 + k * 3) 10 ∧ (last = true ↔ v = 10)) ∧
    BetweenExpression.Next { x := 0, y := 10, step := 3 } 0 true = .ok (0, false) ∧
    BetweenExpression.Next { x := 0, y := 10, step := 3 } 0 false = .ok (3, false) ∧
    BetweenExpression.Next { x := 0, y := 10, step := 3 } 1 true = .ok (3, false) ∧
    BetweenExpression.Next { x := 0, y := 10, step := 3 } 1 false = .ok (3, false) ∧
    BetweenExpression.Next { x := 0, y := 10, step := 3 } 3 false = .ok (6, false) ∧
    BetweenExpression.Next { x := 0, y := 10, step := 3 } 6 false = .ok (9, false) ∧
    BetweenExpression.Next { x := 0, y := 10, step := 3 } 9 false = .ok (10, true) :=
  ⟨C12_Between_Next_lattice 0 10 3 1 true { x := 0, y := 10, step := 3 } (by decide)
    (by decide) (by decide) (by decide), by decide, by decide, by decide, by decide, by decide, by decide,
    by decide⟩

/-- C13 (code at the failing input): on the single-valued interval `Between(5,5)`,
`Next(4, inc)` returns `(5, false)` for both values of `inc`, although 5 is the last value of
the interval; the sibling `List([5]).Next(4, inc)` returns `(5, true)`. -/
theorem C13_below_single_value :
    (do let e ← Between 5 5
        let b ← e.Every 1
        b.Next 4 true) = .ok (5, false) ∧
    (do let e ← Between 5 5
        let b ← e.Every 1
        b.Next 4 false) = .ok (5, false) ∧
    (do let l ← ListOf [5]
        l.Next 4 true) = .ok (5, true) ∧
    (do let l ← ListOf [5]
        l.Next 4 false) = .ok (5, true) := by
  refine ⟨?_, ?_, ?_, ?_⟩ <;> decide

/-- C14 (code at the failing input): on the single-valued interval `Between(5,5)`,
`Next(5, true)` returns `(5, false)` while `Next(5, false)` returns `(5, true)`: at the last
value the `inc` parameter is not ignored. -/
theorem C14_at_last_single_value :
    (do let e ← Between 5 5
        let b ← e.Every 1
        b.Next 5 true) = .ok (5, false) ∧
    (do let e ← Between 5 5
        let b ← e.Every 1
        b.Next 5 false) = .ok (5, true) := by
  refine ⟨?_, ?_⟩ <;> decide

/-- Counterexample to C15: for `Between(math.MinInt64, math.MaxInt64).Every(3)` the
difference `v − lo` overflows: `Contains(1)` is false although `1 − lo = 2^63 + 1` is a
multiple of 3, and `Contains(2)` is true although `2 − lo = 2^63 + 2` is not. -/
theorem C15_counterexample :
    (do let e ← Between (-9223372036854775808) 9223372036854775807
        let b ← e.Every 3
        b.Contains 1) = .ok false ∧
    (3 : Int) ∣ 1 - (-9223372036854775808) ∧
    (do let e ← Between (-9223372036854775808) 9223372036854775807
        let b ← e.Every 3
        b.Contains 2) = .ok true ∧
    ¬ ((2 : Int) = -9223372036854775808 ∨ (2 : Int) = 9223372036854775807 ∨
      (3 : Int) ∣ 2 - (-9223372036854775808)) := by
  refine ⟨by decide, by decide, by decide, by decide⟩

/-- C15, amended (`BetweenExpression.Contains`, without overflow): for every
`Between(lo,hi).Every(step)` of `int` values whose difference `hi − lo` does not overflow,
and every integer `v`, `Contains(v)` returns, and it is true iff `lo ≤ v ≤ hi` and (`v = lo`
or `v = hi` or `v − lo` is a multiple of `step`). -/
theorem C15_Between_Contains (lo hi step v : Int) (b : BetweenExpression)
    (hb : (do let e ← Between lo hi; e.Every step) = .ok b)
    (hspan : hi - lo ≤ maxInt) (hstep : step ≤ maxInt) :
    b.Contains v = .ok (decide (lo ≤ v ∧ v ≤ hi ∧ (v = lo ∨ v = hi ∨ step ∣ v - lo))) := by
  obtain ⟨hxy, hs, rfl⟩ := Between_Every_ok lo hi step b hb
  have hC := Between_Contains_iff { x := lo, y := hi, step := step } hxy hs hspan hstep v
  simp only [← Int.dvd_iff_emod_eq_zero] at hC
  have htot : ∃ r, BetweenExpression.Contains { x := lo, y := hi, step := step } v = .ok r := by
    unfold BetweenExpression.Contains
    split
    · exact ⟨_, rfl⟩
    · split
      · exact ⟨_, rfl⟩
      · rw [if_neg (show ¬ step = 0 by omega)]
        exact ⟨_, rfl⟩
  obtain ⟨r, hr⟩ := htot
  rw [hr] at hC ⊢
  congr 1
  cases r
  · simp only [Res.ok.injEq, Bool.false_eq_true, false_iff] at hC
    exact (decide_eq_false hC).symm
  · exact (decide_eq_true (hC.1 rfl)).symm

/-- Witness of C15: `Between(0,10).Every(3)` at `v = 6`, and among −1..10 it contains
exactly 0, 3, 6, 9, 10. -/
theorem C15_witness :
    BetweenExpression.Contains { x := 0, y := 10, step := 3 } 6 =
        .ok (decide ((0 : Int) ≤ 6 ∧ (6 : Int) ≤ 10 ∧
          ((6 : Int) = 0 ∨ (6 : Int) = 10 ∨ (3 : Int) ∣ 6 - 0))) ∧
      ([-1, 0, 1, 2, 3, 4, 5, 6, 7, 8, 9, 10].filter
        (fun v => decide (BetweenExpression.Contains { x := 0, y := 10, step := 3 } v = .ok true)) =
        [0, 3, 6, 9, 10]) :=
  ⟨C15_Between_Contains 0 10 3 6 { x := 0, y := 10, step := 3 } (by decide) (by decide)
    (by decide), by decide⟩

/-- Counterexample to C16: `Between(0,10)` (step 1) contains 5, yet `Next(4, true)` returns
4, not 5: with `inc` true a member `from` is itself returned.  With `inc` false the
round-trip still fails where the arithmetic overflows:
`Between(math.MinInt64, math.MaxInt64).Every(3)` contains 2, yet `Next(1, false)` returns
5. -/
theorem C16_counterexample :
    (do let e ← Between 0 10
        let b ← e.Every 1
        b.Contains 5) = .ok true ∧
    (do let e ← Between 0 10
        let b ← e.Every 1
        b.Next (5 - 1) true) = .ok (4, false) ∧
    (do let e ← Between (-9223372036854775808) 9223372036854775807
        let b ← e.Every 3
        b.Contains 2) = .ok true ∧
    (do let e ← Between (-9223372036854775808) 9223372036854775807
        let b ← e.Every 3
        b.Next (2 - 1) false) = .ok (5, false) := by
  refine ⟨?_, ?_, ?_, ?_⟩ <;> decide

/-- C16, amended (interval round-trip): for every `Between(lo,hi).Every(step)` of `int`
values for which neither `hi − lo` nor `hi + step` overflows, and every `v` with
`lo ≤ v ≤ hi`, `Contains(v)` holds iff the value returned by `Next(v − 1, false)` equals
`v`. -/
theorem C16_round_trip (lo hi step v : Int) (b : BetweenExpression)
    (hb : (do let e ← Between lo hi; e.Every step) = .ok b) (hex : b.Exact)
    (h1 : lo ≤ v) (h2 : v ≤ hi) :
    ∃ (c : Bool) (w : Int) (last : Bool), b.Contains v = .ok c ∧
      b.Next (v - 1) false = .ok (w, last) ∧ (c = true ↔ w = v) := by
  obtain ⟨hxy, hs, rfl⟩ := Between_Every_ok lo hi step b hb
  have hC := Between_Contains_iff { x := lo, y := hi, step := step } hxy hs hex.2.1
    hex.2.2.2 v
  simp only at hC
  have hdiv := Int.emod_add_ediv (v - 1 - lo) step
  have hr0 := Int.emod_nonneg (v - 1 - lo) (show step ≠ 0 by omega)
  have hr1 := Int.emod_lt_of_pos (v - 1 - lo) (show 0 < step by omega)
  have hdiv2 := Int.emod_add_ediv (v - lo) step
  have hs0 := Int.emod_nonneg (v - lo) (show step ≠ 0 by omega)
  have hs1 := Int.emod_lt_of_pos (v - lo) (show 0 < step by omega)
  have hkey : (v - lo) % step = 0 ↔ (v - 1 - lo) % step = step - 1 := by
    constructor
    · intro h
      have e : v - 1 - lo = (step - 1) + step * ((v - lo) / step - 1) := by
        have : step * ((v - lo) / step - 1) = step * ((v - lo) / step) - step := by ring
        omega
      rw [e, Int.add_mul_emod_self_left]
      exact Int.emod_eq_of_lt (by omega) (by omega)
    · intro h
      have e : v - lo = step * ((v - 1 - lo) / step + 1) := by
        have : step * ((v - 1 - lo) / step + 1) = step * ((v - 1 - lo) / step) + step := by ring
        omega
      rw [e]
      exact Int.mul_emod_right _ _
  have htot : ∃ r, BetweenExpression.Contains { x := lo, y := hi, step := step } v = .ok r := by
    unfold BetweenExpression.Contains
    split
    · exact ⟨_, rfl⟩
    · split
      · exact ⟨_, rfl⟩
      · rw [if_neg (show ¬ step = 0 by omega)]
        exact ⟨_, rfl⟩
  obtain ⟨r, hr⟩ := htot
  have hr2 : r = true ↔ (v = lo ∨ v = hi ∨ (v - lo) % step = 0) := by
    rw [hr] at hC
    simp only [Res.ok.injEq] at hC
    rw [hC]
    constructor
    · intro h; exact h.2.2
    · intro h; exact ⟨h1, h2, h⟩
  refine ⟨r, ?_⟩
  rw [Between_Next_plain _ hs hex]
  dsimp only
  by_cases ha : v - 1 < lo ∨ ((false : Bool) = true ∧ v - 1 = lo)
  · refine ⟨lo, false, hr, by rw [if_pos ha], ?_⟩
    rw [hr2]
    rcases ha with ha | ⟨ha, _⟩
    · constructor
      · intro _; omega
      · intro h; exact Or.inl h.symm
    · cases ha
  · rw [if_neg ha]
    have ha2 : lo ≤ v - 1 := by
      by_contra hcon
      exact ha (Or.inl (by omega))
    rw [if_neg (show ¬ v - 1 ≥ hi by omega), if_neg (show ¬ step = 0 by omega)]
    rw [Int.tmod_eq_emod (by omega) (by omega)]
    simp only [Bool.false_eq_true, false_and, if_false]
    by_cases h4 : v - 1 + (step - (v - 1 - lo) % step) ≥ hi
    · rw [if_pos h4]
      refine ⟨hi, true, hr, rfl, ?_⟩
      rw [hr2, hkey]
      constructor
      · intro h
        rcases h with h | h | h <;> omega
      · intro h
        exact Or.inr (Or.inl h.symm)
    · rw [if_neg h4]
      refine ⟨_, false, hr, rfl, ?_⟩
      rw [hr2, hkey]
      constructor
      · intro h
        rcases h with h | h | h <;> omega
      · intro h
        right; right; omega

/-- Witness of C16: `Between(0,10).Every(3)` at `v = 6`. -/
theorem C16_witness :
    ∃ (c : Bool) (w : Int) (last : Bool),
      BetweenExpression.Contains { x := 0, y := 10, step := 3 } 6 = .ok c ∧
      BetweenExpression.Next { x := 0, y := 10, step := 3 } (6 - 1) false = .ok (w, last) ∧
      (c = true ↔ w = 6) :=
  C16_round_trip 0 10 3 6 { x := 0, y := 10, step := 3 } (by decide) (by decide) (by decide)
    (by decide)

/-- What `List(values)` builds from a non-empty slice: the values in ascending order. -/
theorem ListOf_ok (values : List Int) (hne : values ≠ []) :
    ListOf values = .ok { values := values.insertionSort (· ≤ ·) } ∧
      values.insertionSort (· ≤ ·) ≠ [] ∧ (values.insertionSort (· ≤ ·)).Sorted (· ≤ ·) ∧
      ∀ v, v ∈ values.insertionSort (· ≤ ·) ↔ v ∈ values := by
  have hp := List.perm_insertionSort (· ≤ ·) values
  refine ⟨?_, ?_, List.sorted_insertionSort (· ≤ ·) values, fun v => hp.mem_iff⟩
  · unfold ListOf
    have := List.length_pos.2 hne
    rw [if_neg (by omega)]
  · intro h
    rw [h] at hp
    exact hne hp.symm.eq_nil

/-- `Next` of a sorted non-empty list: it returns a member, the least that qualifies when
one does; otherwise it returns the greatest member with the flag set; a set flag means the
greatest member; and the flag is set whenever no member exceeds `frm`. -/
theorem List_Next_spec (l : ListExpression) (hne : l.values ≠ []) (hs : l.values.Sorted (· ≤ ·))
    (frm : Int) (inc : Bool) :
    ∃ v last, l.Next frm inc = .ok (v, last) ∧ v ∈ l.values ∧
      (∀ w ∈ l.values, Qual frm inc w → v ≤ w) ∧
      (Qual frm inc v ∨ (last = true ∧ v ≤ frm)) ∧
      (last = true → ∀ w ∈ l.values, w ≤ v) ∧
      ((∀ w ∈ l.values, w ≤ frm) → last = true) := by
  unfold ListExpression.Next
  have hlast : ∃ lastV, l.values.getLast? = some lastV := by
    cases hg : l.values.getLast? with
    | none => simp at hg; exact absurd hg hne
    | some x => exact ⟨x, rfl⟩
  obtain ⟨lastV, hl⟩ := hlast
  have hmax := sorted_le_getLast l.values hs lastV hl
  have hmem := getLast_mem l.values lastV hl
  have hsc := scan_spec frm inc ((l.values.length : Int) - 1) l.values 0 hs
  simp only [hl, Qual]
  by_cases h1 : frm < lastV
  · rw [if_pos h1]
    cases hscan : ListExpression.scan frm inc ((l.values.length : Int) - 1) l.values 0 with
    | none => exact absurd (Or.inl h1) (hsc.1 hscan lastV hmem)
    | some r =>
      obtain ⟨v, fl⟩ := r
      obtain ⟨hm, hq, hmin, hmx⟩ := hsc.2 v fl hscan
      refine ⟨v, fl, rfl, hm, hmin, Or.inl hq, fun hfl => hmx hfl (by omega), ?_⟩
      intro hall
      have := hall lastV hmem
      omega
  · rw [if_neg h1]
    refine ⟨lastV, true, rfl, hmem, ?_, Or.inr ⟨rfl, by omega⟩, fun _ => hmax, fun _ => rfl⟩
    intro w hw hq
    have := hmax w hw
    rcases hq with hq | ⟨_, hq⟩ <;> omega

/-- `Contains` of a sorted non-empty list returns, and it returns membership. -/
theorem List_Contains_eq (l : ListExpression) (hne : l.values ≠ []) (hs : l.values.Sorted (· ≤ ·))
    (v : Int) : l.Contains v = .ok (decide (v ∈ l.values)) := by
  have hC := List_Contains_iff l hne hs v
  have htot : ∃ r, l.Contains v = .ok r := by
    unfold ListExpression.Contains
    cases hv : l.values with
    | nil => exact absurd hv hne
    | cons a t =>
      cases hg : (a :: t).getLast? with
      | none => simp at hg
      | some x =>
        simp only [List.head?_cons]
        split <;> exact ⟨_, rfl⟩
  obtain ⟨r, hr⟩ := htot
  rw [hr] at hC ⊢
  congr 1
  cases r
  · simp only [Res.ok.injEq, Bool.false_eq_true, false_iff] at hC
    exact (decide_eq_false hC).symm
  · exact (decide_eq_true (hC.1 rfl)).symm

/-- `Next` of `List(values)`, in terms of the values given. -/
theorem ListOf_Next_spec (values : List Int) (hne : values ≠ []) (frm : Int) (inc : Bool) :
    ∃ l v last, ListOf values = .ok l ∧ l.Next frm inc = .ok (v, last) ∧ v ∈ values ∧
      ((∃ w ∈ values, Qual frm inc w) → Qual frm inc v ∧ ∀ w ∈ values, Qual frm inc w → v ≤ w) ∧
      ((∀ w ∈ values, ¬ Qual frm inc w) → (∀ w ∈ values, w ≤ v) ∧ last = true) := by
  obtain ⟨hl, hne2, hs, hmem⟩ := ListOf_ok values hne
  obtain ⟨v, last, hn, hv, hmin, hq, hmx, _⟩ :=
    List_Next_spec { values := values.insertionSort (· ≤ ·) } hne2 hs frm inc
  simp only [hmem] at hv hmin hmx
  refine ⟨_, v, last, hl, hn, hv, ?_, ?_⟩
  · rintro ⟨w, hw, hqw⟩
    refine ⟨?_, hmin⟩
    rcases hq with hq | ⟨hlast, hle⟩
    · exact hq
    · have h1 := hmx hlast w hw
      rcases hqw with hqw | ⟨hinc, hqw⟩
      · omega
      · exact Or.inr ⟨hinc, by omega⟩
  · intro hnone
    rcases hq with hq | ⟨hlast, _⟩
    · exact absurd hq (hnone v hv)
    · exact ⟨hmx hlast, hlast⟩

/-- C17 (`ListExpression.Next`): for every non-empty list of integers, every `from` and
`inc`, `List(values).Next(from, inc)` returns the smallest element `v` of `values` with
`v > from` (`v ≥ from` when `inc` is true); if no element qualifies it returns the maximum
element with the last-flag true. -/
theorem C17_List_Next (values : List Int) (hne : values ≠ []) (frm : Int) (inc : Bool) :
    ∃ l v last, ListOf values = .ok l ∧ l.Next frm inc = .ok (v, last) ∧ v ∈ values ∧
      ((∃ w ∈ values, Qual frm inc w) → Qual frm inc v ∧ ∀ w ∈ values, Qual frm inc w → v ≤ w) ∧
      ((∀ w ∈ values, ¬ Qual frm inc w) → (∀ w ∈ values, w ≤ v) ∧ last = true) :=
  ListOf_Next_spec values hne frm inc

/-- Witness of C17: `List([9,0,6,3,10])` at `from = 4`, `inc = false`. -/
theorem C17_witness :
    ∃ l v last, ListOf [9, 0, 6, 3, 10] = .ok l ∧ l.Next 4 false = .ok (v, last) ∧
      v ∈ ([9, 0, 6, 3, 10] : List Int) ∧
      ((∃ w ∈ ([9, 0, 6, 3, 10] : List Int), Qual (4 : Int) false w) →
        Qual (4 : Int) false v ∧
          ∀ w ∈ ([9, 0, 6, 3, 10] : List Int), Qual (4 : Int) false w → v ≤ w) ∧
      ((∀ w ∈ ([9, 0, 6, 3, 10] : List Int), ¬ Qual (4 : Int) false w) →
        (∀ w ∈ ([9, 0, 6, 3, 10] : List Int), w ≤ v) ∧ last = true) :=
  C17_List_Next [9, 0, 6, 3, 10] (by decide) 4 false

/-- C18 (idempotence on members): for every non-empty list and every element `m` of it,
`List(values).Next(m, true)` returns `m`, and its last-flag is true iff `m` is the maximum
element of the list. -/
theorem C18_List_Next_member (values : List Int) (m : Int) (hm : m ∈ values) :
    ∃ l last, ListOf values = .ok l ∧ l.Next m true = .ok (m, last) ∧
      (last = true ↔ ∀ w ∈ values, w ≤ m) := by
  have hne : values ≠ [] := List.ne_nil_of_mem hm
  obtain ⟨hl, hne2, hs, hmem⟩ := ListOf_ok values hne
  obtain ⟨v, last, hn, hv, hmin, hq, hmx, hfl⟩ :=
    List_Next_spec { values := values.insertionSort (· ≤ ·) } hne2 hs m true
  simp only [hmem] at hv hmin hmx hfl
  have h1 : v ≤ m := hmin m hm (Or.inr ⟨rfl, rfl⟩)
  have hvm : v = m := by
    rcases hq with (hq | ⟨_, hq⟩) | ⟨hlast, hq⟩
    · omega
    · omega
    · have := hmx hlast m hm
      omega
  subst hvm
  exact ⟨_, last, hl, hn, hmx, hfl⟩

/-- Witness of C18: the member 6 of `List([9,0,6,3,10])`. -/
theorem C18_witness :
    ∃ l last, ListOf [9, 0, 6, 3, 10] = .ok l ∧ l.Next 6 true = .ok (6, last) ∧
      (last = true ↔ ∀ w ∈ ([9, 0, 6, 3, 10] : List Int), w ≤ 6) :=
  C18_List_Next_member [9, 0, 6, 3, 10] 6 (by decide)

/-- `Contains` of `List(values)`, in terms of the values given. -/
theorem ListOf_Contains_eq (values : List Int) (hne : values ≠ []) (v : Int) :
    ∃ l, ListOf values = .ok l ∧ l.Contains v = .ok (decide (v ∈ values)) := by
  obtain ⟨hl, hne2, hs, hmem⟩ := ListOf_ok values hne
  refine ⟨_, hl, ?_⟩
  rw [List_Contains_eq { values := values.insertionSort (· ≤ ·) } hne2 hs v]
  congr 1
  exact decide_eq_decide.2 (hmem v)

/-- C19 (`ListExpression.Contains` is membership): for every non-empty list of integers,
given in any order, and every integer `v`, `List(values).Contains(v)` returns, and it is
true iff `v` occurs in `values`. -/
theorem C19_List_Contains (values : List Int) (hne : values ≠ []) (v : Int) :
    ∃ l, ListOf values = .ok l ∧ l.Contains v = .ok (decide (v ∈ values)) :=
  ListOf_Contains_eq values hne v

/-- Witness of C19: `List([0,3,6,9,10])` at `v = 6`, given out of order as well; it
contains 0, 3, 6, 9, 10 and none of −1, 1, 2, 4, 5, 7, 8. -/
theorem C19_witness :
    (∃ l, ListOf [9, 0, 6, 3, 10] = .ok l ∧
      l.Contains 6 = .ok (decide ((6 : Int) ∈ ([9, 0, 6, 3, 10] : List Int)))) ∧
    ([-1, 0, 1, 2, 3, 4, 5, 6, 7, 8, 9, 10].filter
      (fun v => decide ((do let l ← ListOf [0, 3, 6, 9, 10]
                            l.Contains v) = .ok true)) = [0, 3, 6, 9, 10]) :=
  ⟨C19_List_Contains [9, 0, 6, 3, 10] (by decide) 6, by decide⟩

/-- Value and membership do not see duplicates: on a non-empty list, `Next` returns the same
value as on the list with duplicates removed, and `Contains` the same result. -/
theorem List_dedup_value (values : List Int) (hne : values ≠ []) (frm : Int) (inc : Bool)
    (x : Int) :
    ∃ l l2 v f1 f2, ListOf values = .ok l ∧ ListOf values.dedup = .ok l2 ∧
      l.Next frm inc = .ok (v, f1) ∧ l2.Next frm inc = .ok (v, f2) ∧
      l.Contains x = l2.Contains x := by
  have hne2 : values.dedup ≠ [] := by
    intro h
    cases values with
    | nil => exact hne rfl
    | cons a t =>
      have : a ∈ (a :: t).dedup := List.mem_dedup.2 (List.mem_cons_self _ _)
      rw [h] at this
      cases this
  obtain ⟨l, v, f1, hl, hn, hv, hq, hnq⟩ := ListOf_Next_spec values hne frm inc
  obtain ⟨l2, v2, f2, hl2, hn2, hv2, hq2, hnq2⟩ := ListOf_Next_spec values.dedup hne2 frm inc
  simp only [List.mem_dedup] at hv2 hq2 hnq2
  obtain ⟨l3, hl3, hc⟩ := ListOf_Contains_eq values hne x
  obtain ⟨l4, hl4, hc2⟩ := ListOf_Contains_eq values.dedup hne2 x
  simp only [List.mem_dedup] at hc2
  rw [hl] at hl3
  rw [hl2] at hl4
  simp only [Res.ok.injEq] at hl3 hl4
  subst hl3
  subst hl4
  have hvv : v2 = v := by
    by_cases hex : ∃ w ∈ values, Qual frm inc w
    · obtain ⟨hq1, hm1⟩ := hq hex
      obtain ⟨hq2', hm2⟩ := hq2 hex
      have h1 := hm1 v2 hv2 hq2'
      have h2 := hm2 v hv hq1
      omega
    · have hnone : ∀ w ∈ values, ¬ Qual frm inc w := fun w hw hqw => hex ⟨w, hw, hqw⟩
      have h1 := (hnq hnone).1 v2 hv2
      have h2 := (hnq2 hnone).1 v hv
      omega
  subst hvv
  exact ⟨l, l2, v2, f1, f2, hl, hl2, hn, hn2, hc.trans hc2.symm⟩

set_option maxRecDepth 100000 in
/-- C20 (code at the failing input): on `List([1,5,5])`, whose maximum is repeated,
`Next(3, false)` returns `(5, false)`, while on the list with duplicates removed, `[1,5]`, it
returns `(5, true)`: the value agrees and the last-flag does not, although 5 is the maximum
of the list; `Next(5, false)` on `[1,5,5]` returns `(5, true)`. -/
theorem C20_repeated_maximum :
    ([1, 5, 5] : List Int).dedup = [1, 5] ∧
    (do let l ← ListOf [1, 5, 5]
        l.Next 3 false) = .ok (5, false) ∧
    (do let l ← ListOf ([1, 5, 5] : List Int).dedup
        l.Next 3 false) = .ok (5, true) ∧
    (do let l ← ListOf [1, 5, 5]
        l.Next 5 false) = .ok (5, true) := by
  refine ⟨?_, ?_, ?_, ?_⟩ <;> decide

/-- C21 (leap year and last day of month): for every year `y` and month `m` in 1..12,
`NewAttunedMonth(m, y)` returns a month whose leap flag is true iff `y` is divisible by 4 and
(not by 100, or by 400); `MonthLastDay()` is 31 for `m` in {1,3,5,7,8,10,12}, 30 for `m` in
{4,6,9,11}, and for `m = 2` it is 29 in a leap year and 28 otherwise; `Contains(d)` holds
iff `1 ≤ d ≤ MonthLastDay()`. -/
theorem C21_leap_and_last_day (y m : Int) (hm1 : 1 ≤ m) (hm2 : m ≤ 12) :
    ∃ am, NewAttunedMonth m y = .ok am ∧
      (am.isLeap = true ↔ (4 ∣ y ∧ (¬ 100 ∣ y ∨ 400 ∣ y))) ∧
      am.MonthLastDay =
        (if m ∈ [1, 3, 5, 7, 8, 10, 12] then 31
         else if m ∈ [4, 6, 9, 11] then 30
         else if am.isLeap = true then 29 else 28) ∧
      ∀ d, am.Contains d = true ↔ 1 ≤ d ∧ d ≤ am.MonthLastDay := by
  refine ⟨amOf m y, NewAttunedMonth_eq m y hm1 hm2, ?_, ?_, ?_⟩
  · simp only [amOf, isLeapYear, decide_eq_true_eq, Int.dvd_iff_emod_eq_zero, ne_eq]
  · simp only [AttunedMonth.MonthLastDay, amOf, daysIn, List.mem_cons, List.mem_singleton,
      List.mem_nil_iff, or_false]
    have hcases : m = 1 ∨ m = 2 ∨ m = 3 ∨ m = 4 ∨ m = 5 ∨ m = 6 ∨ m = 7 ∨ m = 8 ∨ m = 9 ∨
        m = 10 ∨ m = 11 ∨ m = 12 := by omega
    rcases hcases with h | h | h | h | h | h | h | h | h | h | h | h <;> subst h <;> simp
  · intro d
    simp only [AttunedMonth.Contains, AttunedMonth.MonthLastDay, decide_eq_true_eq, ge_iff_le]

/-- Witness of C21: February 2020, and the years and months the claim lists: 2020, 2000
and 2400 are leap, 1900, 2100 and 2021 are not; February 2020 has 29 days, February 2021
has 28. -/
theorem C21_witness :
    (∃ am, NewAttunedMonth 2 2020 = .ok am ∧
      (am.isLeap = true ↔ ((4 : Int) ∣ 2020 ∧ (¬ (100 : Int) ∣ 2020 ∨ (400 : Int) ∣ 2020))) ∧
      am.MonthLastDay =
        (if (2 : Int) ∈ [1, 3, 5, 7, 8, 10, 12] then 31
         else if (2 : Int) ∈ [4, 6, 9, 11] then 30
         else if am.isLeap = true then 29 else 28) ∧
      ∀ d, am.Contains d = true ↔ 1 ≤ d ∧ d ≤ am.MonthLastDay) ∧
    ([2020, 2000, 2400, 1900, 2100, 2021].map
        (fun y => (NewAttunedMonth 2 y).getD (amOf 0 0) |>.isLeap) =
      [true, true, true, false, false, false]) ∧
    ((NewAttunedMonth 2 2020).getD (amOf 0 0)).MonthLastDay = 29 ∧
    ((NewAttunedMonth 2 2021).getD (amOf 0 0)).MonthLastDay = 28 :=
  ⟨C21_leap_and_last_day 2020 2 (by decide) (by decide), by decide, by decide, by decide⟩

/-- Counterexample to C22: for the year 300000000000 the seconds of the year start
overflow the 64 bits, and `NewAttunedMonth(1, 300000000000).WeekDay(1)` is -1, while the
first of January of that year is `N = 109572749280472` days after 1970-01-01 and
`(N + 4) mod 7` is 6. -/
theorem C22_counterexample :
    (do let am ← NewAttunedMonth 1 300000000000
        pure (am.WeekDay 1)) = .ok (-1) ∧
    dayNumber 300000000000 1 1 = 109572749280472 ∧
    (dayNumber 300000000000 1 1 + 4) % 7 = 6 := by
  refine ⟨by decide, by decide, by decide⟩

/-- C22, amended (weekday correctness while the seconds fit the 64 bits): for every year
`y` with `1970 ≤ y < 290000000000`, month `m` in 1..12 and day `d` with
`1 ≤ d ≤ MonthLastDay()`, `NewAttunedMonth(m, y).WeekDay(d)` equals `(N + 4) mod 7` where
`N` is the number of days from 1970-01-01 to the date (`N` is 0 on 1970-01-01 and grows by
one from each day to the next, also across month ends and year ends); equivalently,
consecutive calendar days have consecutive weekdays modulo 7. -/
theorem C22_weekday (y m d : Int) (am : AttunedMonth) (hy : 1970 ≤ y) (hy2 : y < maxYear)
    (hm1 : 1 ≤ m)
    (hm2 : m ≤ 12) (h : NewAttunedMonth m y = .ok am) (hd1 : 1 ≤ d)
    (hd2 : d ≤ am.MonthLastDay) :
    am.WeekDay d = (dayNumber y m d + 4) % 7 ∧ dayNumber 1970 1 1 = 0 ∧
    (d < am.MonthLastDay →
      dayNumber y m (d + 1) = dayNumber y m d + 1 ∧
      am.WeekDay (d + 1) = (am.WeekDay d + 1) % 7) ∧
    (d = am.MonthLastDay →
      ∃ am2, NewAttunedMonth (if m = 12 then 1 else m + 1) (if m = 12 then y + 1 else y)
          = .ok am2 ∧
        dayNumber (if m = 12 then y + 1 else y) (if m = 12 then 1 else m + 1) 1
          = dayNumber y m d + 1 ∧
        am2.WeekDay 1 = (am.WeekDay d + 1) % 7) := by
  rw [NewAttunedMonth_eq m y hm1 hm2] at h
  simp only [Res.ok.injEq] at h
  subst h
  have hco := Coherent_amOf m y hm1 hm2
  have hw : ∀ e, 1 ≤ e → e ≤ 32 → (amOf m y).WeekDay e = (dayNumber y m e + 4) % 7 :=
    fun e he he2 => hco.WeekDay_eq hy (le_of_lt hy2) e he (by omega)
  have hlast : (amOf m y).MonthLastDay = daysIn y m := rfl
  have hdb := daysIn_bounds y m
  have hd32 : d ≤ 31 := by rw [hlast] at hd2; omega
  refine ⟨hw d hd1 (by omega), by decide, ?_, ?_⟩
  · intro _
    have hs : dayNumber y m (d + 1) = dayNumber y m d + 1 := by
      unfold dayNumber; omega
    refine ⟨hs, ?_⟩
    rw [hw d hd1 (by omega), hw (d + 1) (by omega) (by omega), hs]
    omega
  · intro hd
    rw [hlast] at hd
    by_cases h12 : m = 12
    · subst h12
      simp only [if_true]
      have hd31 : d = 31 := by rw [hd]; simp [daysIn]
      subst hd31
      have hco2 := Coherent_amOf 1 (y + 1) (by decide) (by decide)
      refine ⟨amOf 1 (y + 1), NewAttunedMonth_eq 1 (y + 1) (by decide) (by decide),
        dayNumber_year_end y, ?_⟩
      rw [hw 31 (by decide) (by decide),
        hco2.WeekDay_eq (by show 1970 ≤ y + 1; omega)
          (by show y + 1 ≤ maxYear; omega) 1 (by decide) (by decide)]
      show (dayNumber (y + 1) 1 1 + 4) % 7 = _
      rw [dayNumber_year_end y]
      omega
    · simp only [h12, if_false]
      have hco2 := Coherent_amOf (m + 1) y (by omega) (by omega)
      have he := dayNumber_month_end y m hm1 (by omega)
      rw [← hd] at he
      refine ⟨amOf (m + 1) y, NewAttunedMonth_eq (m + 1) y (by omega) (by omega), he, ?_⟩
      rw [hw d hd1 (by omega), hco2.WeekDay_eq hy (le_of_lt hy2) 1 (by decide) (by decide)]
      show (dayNumber y (m + 1) 1 + 4) % 7 = _
      rw [he]
      omega

/-- Witness of C22: 2019-01-06, a Sunday, as is 2032-02-29. -/
theorem C22_witness :
    ((amOf 1 2019).WeekDay 6 = (dayNumber 2019 1 6 + 4) % 7 ∧ dayNumber 1970 1 1 = 0 ∧
    (6 < (amOf 1 2019).MonthLastDay →
      dayNumber 2019 1 (6 + 1) = dayNumber 2019 1 6 + 1 ∧
      (amOf 1 2019).WeekDay (6 + 1) = ((amOf 1 2019).WeekDay 6 + 1) % 7) ∧
    (6 = (amOf 1 2019).MonthLastDay →
      ∃ am2, NewAttunedMonth (if (1 : Int) = 12 then 1 else 1 + 1)
          (if (1 : Int) = 12 then 2019 + 1 else 2019) = .ok am2 ∧
        dayNumber (if (1 : Int) = 12 then 2019 + 1 else 2019)
          (if (1 : Int) = 12 then 1 else 1 + 1) 1 = dayNumber 2019 1 6 + 1 ∧
        am2.WeekDay 1 = ((amOf 1 2019).WeekDay 6 + 1) % 7)) ∧
    (do let am ← NewAttunedMonth 1 2019
        pure (am.WeekDay 6)) = .ok 0 ∧
    (do let am ← NewAttunedMonth 2 2032
        pure (am.WeekDay 29)) = .ok 0 ∧
    (do let am ← NewAttunedMonth 1 1970
        pure (am.WeekDay 1)) = .ok 4 :=
  ⟨C22_weekday 2019 1 6 (amOf 1 2019) (by decide) (by decide) (by decide) (by decide)
    (by decide) (by decide) (by decide), by decide, by decide, by decide⟩

theorem get_reset (crn : CronExpression) (F : Field) : crn.reset.get F = crn.get F := by
  unfold CronExpression.reset
  split <;> cases F <;> rfl

theorem get_handleMillisecond (crn : CronExpression) (F : Field) :
    crn.handleMillisecond.get F =
      if F = .millisecond ∧ crn.get F = .nil then .int 0 else crn.get F := by
  unfold CronExpression.handleMillisecond
  cases F <;> simp only [CronExpression.get] <;> split <;> simp_all

theorem get_handleSecond (crn : CronExpression) (F : Field) :
    crn.handleSecond.get F =
      if (F = .second ∨ F = .millisecond) ∧ crn.get F = .nil then .int 0 else crn.get F := by
  unfold CronExpression.handleSecond
  simp only [get_handleMillisecond]
  cases F <;> simp only [CronExpression.get] <;> split <;> simp_all

theorem get_handleMinute (crn : CronExpression) (F : Field) :
    crn.handleMinute.get F =
      if (F = .minute ∨ F = .second ∨ F = .millisecond) ∧ crn.get F = .nil then .int 0
      else crn.get F := by
  unfold CronExpression.handleMinute
  simp only [get_handleSecond]
  cases F <;> simp only [CronExpression.get] <;> split <;> simp_all

theorem get_handleHour (crn : CronExpression) (F : Field) :
    crn.handleHour.get F =
      if (F = .hour ∨ F = .minute ∨ F = .second ∨ F = .millisecond) ∧ crn.get F = .nil
      then .int 0 else crn.get F := by
  unfold CronExpression.handleHour
  simp only [get_handleMinute]
  cases F <;> simp only [CronExpression.get] <;> split <;> simp_all

theorem get_handleDay (crn : CronExpression) (F : Field) :
    crn.handleDay.get F =
      if (F = .day ∨ F = .hour ∨ F = .minute ∨ F = .second ∨ F = .millisecond) ∧
        crn.get F = .nil
      then .int F.minimum else crn.get F := by
  unfold CronExpression.handleDay
  simp only [get_handleHour]
  cases F <;> simp only [CronExpression.get, Field.minimum] <;> split <;> simp_all

theorem get_handleMonth (crn : CronExpression) (F : Field) :
    crn.handleMonth.get F =
      if (F = .month ∨ F = .day ∨ F = .hour ∨ F = .minute ∨ F = .second ∨ F = .millisecond) ∧
        crn.get F = .nil
      then .int F.minimum else crn.get F := by
  unfold CronExpression.handleMonth
  simp only [get_handleDay]
  cases F <;> simp only [CronExpression.get, Field.minimum] <;> split <;> simp_all

/-- C24 (dependency rule of the setters): for every builder state and every setter of a
field `X`, after the call `X` holds the given constraint, each field finer than `X` that was
unset is pinned to its fixed minimum (millisecond, second, minute, hour = 0; day = 1;
month = 1; for the weekday the finer fields are the hour and below), and every other field,
so every finer field that was already set and every field coarser than `X`, keeps its
previous constraint. -/
theorem C24_pinning (X : Field) (crn crn2 : CronExpression) (exp : Expression)
    (h : X.setter crn exp = .ok crn2) (F : Field) :
    crn2.get F =
      if F = X then exp
      else if F ∈ X.finer ∧ crn.get F = .nil then .int F.minimum
      else crn.get F := by
  cases X <;>
    simp only [Field.setter, CronExpression.OnMilliseconds, CronExpression.OnSeconds,
      CronExpression.OnMinutes, CronExpression.OnHours, CronExpression.OnDays,
      CronExpression.OnWeekdays, CronExpression.OnMonths, CronExpression.OnYears,
      Res.bind_ok_iff, Res.pure_eq, Res.ok.injEq] at h <;>
    obtain ⟨_, _, h⟩ := h <;> subst h <;>
    simp only [get_reset, get_handleMillisecond, get_handleSecond, get_handleMinute,
      get_handleHour, get_handleDay, get_handleMonth, Field.finer] <;>
    cases F <;> simp [CronExpression.get, Field.minimum]

/-- Every validator accepts exactly its field's domain. -/
theorem validator_eq (F : Field) (t : Int) :
    F.validator t = if F.lo ≤ t ∧ t ≤ F.hi then .ok () else .panic := by
  cases F <;>
    simp only [Field.validator, Field.lo, Field.hi, validateMillisecond, validateSecond,
      validateMinute, validateHour, validateDay, validateWeekday, validateMonth,
      validateYear] <;>
    split <;> split <;> first | rfl | omega

/-- A setter given a bare integer runs the field's validator first. -/
theorem setter_int (F : Field) (crn : CronExpression) (t : Int) :
    ∃ g : CronExpression, F.setter crn (.int t) = (F.validator t >>= fun _ => .ok g) := by
  cases F <;> exact ⟨_, rfl⟩

theorem between_eq (F : Field) (x y : Int) :
    F.between x y = (do F.validator x; F.validator y; Between x y) := by
  cases F <;> rfl

theorem listOf_eq (F : Field) (vs : List Int) :
    F.listOf vs = (do validateAll F.validator vs; ListOf vs) := by
  cases F <;> rfl

theorem validateAll_eq (F : Field) : ∀ vs : List Int,
    validateAll F.validator vs = if ∀ v ∈ vs, F.lo ≤ v ∧ v ≤ F.hi then .ok () else .panic
  | [] => by simp [validateAll]
  | v :: vs => by
    unfold validateAll
    rw [validator_eq, validateAll_eq F vs]
    by_cases h1 : F.lo ≤ v ∧ v ≤ F.hi
    · rw [if_pos h1]
      simp only [Res.ok_bind, List.mem_cons, forall_eq_or_imp, h1, true_and]
    · rw [if_neg h1]
      simp only [Res.panic_bind, List.mem_cons, forall_eq_or_imp, h1, false_and, if_false]

/-- C25 (field range validation): for each of the eight fields and every integer `t`, the
field's validator returns when `t` lies in the field's domain and panics otherwise, and so
do the field's setter given the bare integer `t` and the field-specific `Between*` and
`List*` constructors given `t`; in general `Between*(x, y)` returns the interval `[x, y]`
with step 1 exactly when both bounds lie in the domain and `x ≤ y`, and `List*(values)`
returns exactly when `values` is non-empty with every value in the domain.  The domains:
millisecond [0,999], second [0,59], minute [0,59], hour [0,23], day [1,31], weekday [0,6],
month [1,12], year [1970,200000000]. -/
theorem C25_field_validation (F : Field) (t : Int) :
    F.validator t = (if F.lo ≤ t ∧ t ≤ F.hi then .ok () else .panic) ∧
    (∀ crn, F.setter crn (.int t) = .panic ↔ ¬ (F.lo ≤ t ∧ t ≤ F.hi)) ∧
    (∀ crn, (∃ crn2, F.setter crn (.int t) = .ok crn2) ↔ (F.lo ≤ t ∧ t ≤ F.hi)) ∧
    F.between t t =
      (if F.lo ≤ t ∧ t ≤ F.hi then .ok { x := t, y := t, step := 1 } else .panic) ∧
    F.listOf [t] = (if F.lo ≤ t ∧ t ≤ F.hi then .ok { values := [t] } else .panic) ∧
    (∀ x y, F.between x y =
      (if (F.lo ≤ x ∧ x ≤ F.hi) ∧ (F.lo ≤ y ∧ y ≤ F.hi) ∧ x ≤ y
       then .ok { x := x, y := y, step := 1 } else .panic)) ∧
    (∀ vs, (F.listOf vs = .panic ↔ ¬ (vs ≠ [] ∧ ∀ v ∈ vs, F.lo ≤ v ∧ v ≤ F.hi)) ∧
      ((∃ l, F.listOf vs = .ok l) ↔ (vs ≠ [] ∧ ∀ v ∈ vs, F.lo ≤ v ∧ v ≤ F.hi))) ∧
    [Field.millisecond, .second, .minute, .hour, .day, .weekday, .month, .year].map
        (fun G => (G.lo, G.hi)) =
      [(0, 999), (0, 59), (0, 59), (0, 23), (1, 31), (0, 6), (1, 12), (1970, 200000000)] := by
  have hv := validator_eq F t
  have hbet : ∀ x y, F.between x y =
      (if (F.lo ≤ x ∧ x ≤ F.hi) ∧ (F.lo ≤ y ∧ y ≤ F.hi) ∧ x ≤ y
       then .ok { x := x, y := y, step := 1 } else .panic) := by
    intro x y
    rw [between_eq, validator_eq, validator_eq]
    by_cases h1 : F.lo ≤ x ∧ x ≤ F.hi
    · by_cases h2 : F.lo ≤ y ∧ y ≤ F.hi
      · simp only [h1, h2, and_self, if_true, Res.ok_bind, true_and, Between, gt_iff_lt]
        by_cases h3 : x ≤ y
        · rw [if_neg (by omega), if_pos h3]
        · rw [if_pos (by omega), if_neg h3]
      · simp only [h1, h2, and_self, if_true, if_false, Res.ok_bind, Res.panic_bind,
          false_and, and_false]
    · simp only [h1, if_false, Res.panic_bind, false_and]
  have hlist : ∀ vs, F.listOf vs =
      (if vs ≠ [] ∧ ∀ v ∈ vs, F.lo ≤ v ∧ v ≤ F.hi
       then .ok { values := vs.insertionSort (· ≤ ·) } else .panic) := by
    intro vs
    rw [listOf_eq, validateAll_eq]
    by_cases h1 : ∀ v ∈ vs, F.lo ≤ v ∧ v ≤ F.hi
    · rw [if_pos h1]
      simp only [Res.ok_bind]
      by_cases h2 : vs = []
      · subst h2; simp [ListOf]
      · rw [(ListOf_ok vs h2).1, if_pos ⟨h2, h1⟩]
    · rw [if_neg h1, if_neg (fun h => h1 h.2)]
      rfl
  refine ⟨hv, ?_, ?_, ?_, ?_, hbet, ?_, by decide⟩
  · intro crn
    obtain ⟨g, hg⟩ := setter_int F crn t
    rw [hg, hv]
    by_cases h : F.lo ≤ t ∧ t ≤ F.hi
    · rw [if_pos h]
      simp only [Res.ok_bind, h, and_self, not_true_eq_false, iff_false]
      intro hc; cases hc
    · rw [if_neg h]
      simp only [Res.panic_bind, h, not_false_eq_true]
  · intro crn
    obtain ⟨g, hg⟩ := setter_int F crn t
    rw [hg, hv]
    by_cases h : F.lo ≤ t ∧ t ≤ F.hi
    · rw [if_pos h]
      simp only [Res.ok_bind, h, and_self, iff_true]
      exact ⟨g, rfl⟩
    · rw [if_neg h]
      simp only [Res.panic_bind, h, iff_false]
      rintro ⟨c, hc⟩
      cases hc
  · rw [hbet]
    by_cases h : F.lo ≤ t ∧ t ≤ F.hi
    · rw [if_pos h, if_pos ⟨h, h, le_refl _⟩]
    · rw [if_neg h, if_neg (fun hc => h hc.1)]
  · rw [hlist]
    by_cases h : F.lo ≤ t ∧ t ≤ F.hi
    · rw [if_pos h, if_pos]
      · rfl
      · exact ⟨by simp, by simpa using h⟩
    · rw [if_neg h, if_neg]
      intro hc
      exact h (hc.2 t (List.mem_singleton_self t))
  · intro vs
    rw [hlist]
    by_cases h : vs ≠ [] ∧ ∀ v ∈ vs, F.lo ≤ v ∧ v ≤ F.hi
    · rw [if_pos h]
      refine ⟨⟨fun hc => (by cases hc), fun hc => absurd h hc⟩, ⟨fun _ => h, fun _ => ⟨_, rfl⟩⟩⟩
    · rw [if_neg h]
      refine ⟨⟨fun _ => h, fun _ => rfl⟩, ⟨?_, fun hc => absurd hc h⟩⟩
      rintro ⟨l, hl⟩
      cases hl

/-- C26 (malformed constraints are rejected at construction): `Between(x, y)` panics iff
`x > y` and otherwise yields the interval `[x, y]` with step 1; `Every(s)` panics iff
`s < 1` and otherwise only replaces the step; `List(values)` panics iff `values` is empty
and otherwise holds the same values in ascending order. -/
theorem C26_constructors (x y s : Int) (b : BetweenExpression) (values : List Int) :
    (Between x y = .panic ↔ x > y) ∧
    (¬ x > y → Between x y = .ok { x := x, y := y, step := 1 }) ∧
    (b.Every s = .panic ↔ s < 1) ∧
    (¬ s < 1 → b.Every s = .ok { x := b.x, y := b.y, step := s }) ∧
    (ListOf values = .panic ↔ values = []) ∧
    (values ≠ [] → ∃ l, ListOf values = .ok l ∧ l.values.Sorted (· ≤ ·) ∧
      l.values.Perm values) := by
  refine ⟨?_, ?_, ?_, ?_, ?_, ?_⟩
  · unfold Between
    by_cases h : x > y
    · simp [h]
    · simp [h]
  · intro h
    unfold Between
    rw [if_neg h]
  · unfold BetweenExpression.Every
    by_cases h : s < 1
    · simp [h]
    · simp [h]
  · intro h
    unfold BetweenExpression.Every
    rw [if_neg h]
  · constructor
    · intro h
      by_contra hne
      rw [(ListOf_ok values hne).1] at h
      cases h
    · intro h
      subst h
      rfl
  · intro hne
    exact ⟨_, (ListOf_ok values hne).1, List.sorted_insertionSort (· ≤ ·) values,
      List.perm_insertionSort (· ≤ ·) values⟩

/-- Witness of C26: `Between(1, 0)`, `Between(0, 1).Every(0)` and `List([])` panic, as the
tests expect; `Between(0, 10).Every(3)` and `List([9, 0, 6, 3, 10])` are built. -/
theorem C26_witness :
    Between 1 0 = .panic ∧
    (do let b ← Between 0 1
        b.Every 0) = .panic ∧
    ListOf [] = .panic ∧
    (do let b ← Between 0 10
        b.Every 3) = .ok { x := 0, y := 10, step := 3 } ∧
    ListOf [9, 0, 6, 3, 10] = .ok { values := [0, 3, 6, 9, 10] } ∧
    (¬ (0 : Int) > 10 → Between 0 10 = .ok { x := 0, y := 10, step := 1 }) :=
  ⟨by decide, by decide, by decide, by decide, by decide,
    (C26_constructors 0 10 3 { x := 0, y := 10, step := 1 } [9, 0, 6, 3, 10]).2.1⟩

theorem get_ensureSeconds (crn : CronExpression) :
    ∃ c, crn.ensureSeconds = .ok c ∧ c.initialized = crn.initialized ∧
      ∀ F, c.get F = if F = .second ∧ crn.get F = .nil then F.fullRange else crn.get F := by
  unfold CronExpression.ensureSeconds
  by_cases h : crn.seconds = .nil
  · rw [if_pos h]
    refine ⟨_, rfl, rfl, fun F => ?_⟩
    cases F <;> simp [CronExpression.get, h, Field.fullRange, Field.lo, Field.hi]
  · rw [if_neg h]
    refine ⟨_, rfl, rfl, fun F => ?_⟩
    cases F <;> simp [CronExpression.get, h]

theorem get_ensureMinutes (crn : CronExpression) :
    ∃ c, crn.ensureMinutes = .ok c ∧ c.initialized = crn.initialized ∧
      ∀ F, c.get F = if F = .minute ∧ crn.get F = .nil then F.fullRange else crn.get F := by
  unfold CronExpression.ensureMinutes
  by_cases h : crn.minutes = .nil
  · rw [if_pos h]
    refine ⟨_, rfl, rfl, fun F => ?_⟩
    cases F <;> simp [CronExpression.get, h, Field.fullRange, Field.lo, Field.hi]
  · rw [if_neg h]
    refine ⟨_, rfl, rfl, fun F => ?_⟩
    cases F <;> simp [CronExpression.get, h]

theorem get_ensureHours (crn : CronExpression) :
    ∃ c, crn.ensureHours = .ok c ∧ c.initialized = crn.initialized ∧
      ∀ F, c.get F = if F = .hour ∧ crn.get F = .nil then F.fullRange else crn.get F := by
  unfold CronExpression.ensureHours
  by_cases h : crn.hours = .nil
  · rw [if_pos h]
    refine ⟨_, rfl, rfl, fun F => ?_⟩
    cases F <;> simp [CronExpression.get, h, Field.fullRange, Field.lo, Field.hi]
  · rw [if_neg h]
    refine ⟨_, rfl, rfl, fun F => ?_⟩
    cases F <;> simp [CronExpression.get, h]

theorem get_ensureDays (crn : CronExpression) :
    ∃ c, crn.ensureDays = .ok c ∧ c.initialized = crn.initialized ∧
      ∀ F, c.get F = if F = .day ∧ crn.get F = .nil then F.fullRange else crn.get F := by
  unfold CronExpression.ensureDays
  by_cases h : crn.days = .nil
  · rw [if_pos h]
    refine ⟨_, rfl, rfl, fun F => ?_⟩
    cases F <;> simp [CronExpression.get, h, Field.fullRange, Field.lo, Field.hi]
  · rw [if_neg h]
    refine ⟨_, rfl, rfl, fun F => ?_⟩
    cases F <;> simp [CronExpression.get, h]

theorem get_ensureWeekdays (crn : CronExpression) :
    ∃ c, crn.ensureWeekdays = .ok c ∧ c.initialized = crn.initialized ∧
      ∀ F, c.get F = if F = .weekday ∧ crn.get F = .nil then F.fullRange else crn.get F := by
  unfold CronExpression.ensureWeekdays
  by_cases h : crn.weekdays = .nil
  · rw [if_pos h]
    refine ⟨_, rfl, rfl, fun F => ?_⟩
    cases F <;> simp [CronExpression.get, h, Field.fullRange, Field.lo, Field.hi]
  · rw [if_neg h]
    refine ⟨_, rfl, rfl, fun F => ?_⟩
    cases F <;> simp [CronExpression.get, h]

theorem get_ensureMonths (crn : CronExpression) :
    ∃ c, crn.ensureMonths = .ok c ∧ c.initialized = crn.initialized ∧
      ∀ F, c.get F = if F = .month ∧ crn.get F = .nil then F.fullRange else crn.get F := by
  unfold CronExpression.ensureMonths
  by_cases h : crn.months = .nil
  · rw [if_pos h]
    refine ⟨_, rfl, rfl, fun F => ?_⟩
    cases F <;> simp [CronExpression.get, h, Field.fullRange, Field.lo, Field.hi]
  · rw [if_neg h]
    refine ⟨_, rfl, rfl, fun F => ?_⟩
    cases F <;> simp [CronExpression.get, h]

theorem get_ensureYears (crn : CronExpression) :
    ∃ c, crn.ensureYears = .ok c ∧ c.initialized = crn.initialized ∧
      ∀ F, c.get F = if F = .year ∧ crn.get F = .nil then F.fullRange else crn.get F := by
  unfold CronExpression.ensureYears
  by_cases h : crn.years = .nil
  · rw [if_pos h]
    refine ⟨_, rfl, rfl, fun F => ?_⟩
    cases F <;> simp [CronExpression.get, h, Field.fullRange, Field.lo, Field.hi]
  · rw [if_neg h]
    refine ⟨_, rfl, rfl, fun F => ?_⟩
    cases F <;> simp [CronExpression.get, h]

/-- Resolution of an unresolved expression: each of the seven fields from the second to the
year that is unset receives its full-range default; the millisecond field and every set
field are left as they are. -/
theorem initialize_get (crn : CronExpression) (h0 : crn.initialized = 0) :
    ∃ crn2, crn.initialize = .ok crn2 ∧ crn2.initialized = 1 ∧
      ∀ F, crn2.get F =
        if F ≠ .millisecond ∧ crn.get F = .nil then F.fullRange else crn.get F := by
  unfold CronExpression.initialize
  rw [if_pos h0]
  obtain ⟨c1, e1, i1, g1⟩ := get_ensureSeconds { crn with initialized := 1 }
  obtain ⟨c2, e2, i2, g2⟩ := get_ensureMinutes c1
  obtain ⟨c3, e3, i3, g3⟩ := get_ensureHours c2
  obtain ⟨c4, e4, i4, g4⟩ := get_ensureDays c3
  obtain ⟨c5, e5, i5, g5⟩ := get_ensureWeekdays c4
  obtain ⟨c6, e6, i6, g6⟩ := get_ensureMonths c5
  obtain ⟨c7, e7, i7, g7⟩ := get_ensureYears c6
  simp only [e1, e2, e3, e4, e5, e6, e7, Res.ok_bind]
  refine ⟨c7, rfl, ?_, ?_⟩
  · rw [i7, i6, i5, i4, i3, i2, i1]
  · intro F
    have g0 : ({ crn with initialized := 1 } : CronExpression).get F = crn.get F := by
      cases F <;> rfl
    rw [g7, g6, g5, g4, g3, g2, g1, g0]
    cases F <;> simp


/-- C23 (code at the failing input): for `Cron()` with no setter called, `NewInstance`
resolves the seven fields from the second to the year to their full-range defaults and
leaves the millisecond field unset, there being no `ensureMilliseconds` beside
`ensureSeconds` … `ensureYears`; the first `Next` of that cursor then panics on the unset
field. -/
theorem C23_bare_Cron_milliseconds :
    (do let c ← Cron.NewInstance date
        pure c.crn) = .ok
      { milliseconds := .nil, seconds := Field.fullRange .second,
        minutes := Field.fullRange .minute, hours := Field.fullRange .hour,
        days := Field.fullRange .day, weekdays := Field.fullRange .weekday,
        months := Field.fullRange .month, years := Field.fullRange .year,
        initialized := 1 } ∧
    (do let c ← Cron.NewInstance date
        c.Next) = .panic := by
  refine ⟨?_, ?_⟩ <;> decide

set_option maxRecDepth 100000 in
/-- Witness of C24: `OnMinutes(5)` on `Cron()` pins the unset second to 0; and
`Cron().OnMinutes(5).EveryDay().OnMonths(time.August)` holds millisecond, second and hour
0, minute 5, every day and August, and from 2019-01-01T00:00:00Z fires at 00:05:00.000 on
2019-08-01, on each day up to 2019-08-31, and next on 2020-08-01. -/
theorem C24_witness :
    ((Cron.OnMinutes (.int 5)).getD Cron).get .second =
      (if Field.second = Field.minute then Expression.int 5
       else if Field.second ∈ Field.minute.finer ∧ Cron.get .second = .nil
         then .int Field.second.minimum
       else Cron.get .second) ∧
    cronAugust = .ok
      { milliseconds := .int 0, seconds := .int 0, minutes := .int 5, hours := .int 0,
        days := .between { x := 1, y := 31, step := 1 }, weekdays := .nil,
        months := .month 8, years := .nil, initialized := 0 } ∧
    (do let (c, e) ← (cursorAt cronAugust).advanceX 1
        pure (c.Following, e)) =
      .ok ({ year := 2019, month := 8, day := 1, hour := 0, minute := 5, second := 0,
             nanosecond := 0 }, none) ∧
    (do let (c, e) ← (cursorAt cronAugust).advanceX 10
        pure (c.Following, e)) =
      .ok ({ year := 2019, month := 8, day := 10, hour := 0, minute := 5, second := 0,
             nanosecond := 0 }, none) ∧
    (do let (c, e) ← (cursorAt cronAugust).advanceX 31
        pure (c.Following, e)) =
      .ok ({ year := 2019, month := 8, day := 31, hour := 0, minute := 5, second := 0,
             nanosecond := 0 }, none) ∧
    (do let (c, e) ← (cursorAt cronAugust).advanceX 32
        pure (c.Following, e)) =
      .ok ({ year := 2020, month := 8, day := 1, hour := 0, minute := 5, second := 0,
             nanosecond := 0 }, none) :=
  ⟨C24_pinning .minute Cron ((Cron.OnMinutes (.int 5)).getD Cron) (.int 5) (by decide) .second,
    by decide, by decide, by decide, by decide, by decide⟩

set_option maxRecDepth 100000 in
/-- C27 (code at the failing input): `Cron().OnWeekdays(3)` with the bare integer 3 is
accepted, and the first `Next` of its cursor created at 2019-01-01T00:00:00Z panics in
`containsWeekday`, whose type assertion admits only a weekday-typed value; with the
weekday-typed value 3 the same call returns 2019-01-02T00:00:00Z, a Wednesday. -/
theorem C27_bare_int_weekday :
    Cron.OnWeekdays (.int 3) = .ok
      { milliseconds := .int 0, seconds := .int 0, minutes := .int 0, hours := .int 0,
        days := .nil, weekdays := .int 3, months := .nil, years := .nil, initialized := 0 } ∧
    (do let crn ← Cron.OnWeekdays (.int 3)
        let c ← crn.NewInstance date
        c.Next) = .panic ∧
    (do let crn ← Cron.OnWeekdays (.int 3)
        crn.containsWeekday 3) = .panic ∧
    (do let crn ← Cron.OnWeekdays (.weekday 3)
        let c ← crn.NewInstance date
        let (c, e) ← c.Next
        pure (c.Following, e)) =
      .ok ({ year := 2019, month := 1, day := 2, hour := 0, minute := 0, second := 0,
             nanosecond := 0 }, none) := by
  refine ⟨?_, ?_, ?_, ?_⟩ <;> decide

set_option maxRecDepth 100000 in
/-- C28 (code at the failing input): the month-typed value 13 given to `OnMonths` and the
weekday-typed value 7 given to `OnWeekdays` are accepted and stored, while the bare integers
13 and 7 panic, as do `BetweenMonths(13, 13)` and `ListWeekdays(7)`; the first `Next` of a
cursor of `Cron().OnMonths(time.Month(13))` created at 2019-01-01T00:00:00Z then panics on
the index into `daysPerMonth`. -/
theorem C28_typed_values_unchecked :
    Cron.OnMonths (.month 13) = .ok
      { milliseconds := .int 0, seconds := .int 0, minutes := .int 0, hours := .int 0,
        days := .int 1, weekdays := .nil, months := .month 13, years := .nil,
        initialized := 0 } ∧
    Cron.OnWeekdays (.weekday 7) = .ok
      { milliseconds := .int 0, seconds := .int 0, minutes := .int 0, hours := .int 0,
        days := .nil, weekdays := .weekday 7, months := .nil, years := .nil,
        initialized := 0 } ∧
    Cron.OnMonths (.int 13) = .panic ∧ Cron.OnWeekdays (.int 7) = .panic ∧
    BetweenMonths 13 13 = .panic ∧ ListWeekdays [7] = .panic ∧
    (do let crn ← Cron.OnMonths (.month 13)
        let c ← crn.NewInstance date
        c.Next) = .panic := by
  refine ⟨?_, ?_, ?_, ?_, ?_, ?_, ?_⟩ <;> decide

/-- Two instants compare one way, or are the same instant. -/
theorem Before_trichotomy (t u : Time) :
    (t.Before u = true ∨ t.Equal u = true) ↔ ¬ u.Before t = true := by
  unfold Time.Before Time.Equal
  simp only [decide_eq_true_eq]
  omega

/-- The loop of `At` returns exactly on a chain of instants each later than the one
before, the first later than `cur`. -/
theorem atLoop_eq : ∀ (ats : List Time) (cur : Time),
    atLoop cur ats =
      if List.Chain (fun a b => a.Before b = true) cur ats then .ok () else .panic
  | [], cur => by simp [atLoop]
  | t :: ts, cur => by
    unfold atLoop
    rw [atLoop_eq ts t]
    by_cases h : t.Before cur = true ∨ t.Equal cur = true
    · rw [if_pos h]
      have h2 := (Before_trichotomy t cur).1 h
      rw [if_neg]
      intro hc
      exact h2 (List.chain_cons.1 hc).1
    · rw [if_neg h]
      have h2 : cur.Before t = true := by
        by_contra hcon
        exact h ((Before_trichotomy t cur).2 hcon)
      simp only [List.chain_cons, h2, true_and]

/-- `At` in closed form. -/
theorem At_eq (ats : List Time) :
    At ats =
      if ats ≠ [] ∧ List.Chain (fun a b => a.Before b = true) Time.zero ats
      then .ok (Schedule.mk ats none none (-1)) else .panic := by
  unfold At
  by_cases h0 : ats = []
  · subst h0
    simp
  · have hlen : ¬ ats.length = 0 := fun hc => h0 (List.length_eq_zero.1 hc)
    rw [if_neg hlen, atLoop_eq]
    by_cases hc : List.Chain (fun a b => a.Before b = true) Time.zero ats
    · rw [if_pos hc, if_pos ⟨h0, hc⟩]
      rfl
    · rw [if_neg hc, if_neg (fun h => hc h.2)]
      rfl

/-- Counterexample to C29: the one-instant sequence holding the zero instant is non-empty
and strictly increasing, and `At` panics on it. -/
theorem C29_counterexample :
    [Time.zero] ≠ [] ∧ List.Chain' (fun a b => a.Before b = true) [Time.zero] ∧
      At [Time.zero] = .panic := by
  refine ⟨by decide, by simp, by decide⟩

/-- C29, amended (`Schedule.At` construction): `At` panics exactly when the sequence of
instants is empty or some instant is not strictly later than its predecessor, the first
instant being compared with the zero instant; for every non-empty strictly increasing
sequence whose first instant is later than the zero instant it returns the schedule that
holds exactly those instants in the given order, with no cron and nothing produced yet. -/
theorem C29_At (ats : List Time) :
    (At ats = .panic ↔
      (ats = [] ∨ ¬ List.Chain (fun a b => a.Before b = true) Time.zero ats)) ∧
    (ats ≠ [] → List.Chain (fun a b => a.Before b = true) Time.zero ats →
      At ats = .ok { ats := ats, crn := none, crnI := none, followingIndex := -1 }) := by
  rw [At_eq]
  by_cases h : ats ≠ [] ∧ List.Chain (fun a b => a.Before b = true) Time.zero ats
  · rw [if_pos h]
    refine ⟨⟨fun hc => (by cases hc), ?_⟩, fun _ _ => rfl⟩
    rintro (h1 | h1)
    · exact absurd h1 h.1
    · exact absurd h.2 h1
  · rw [if_neg h]
    refine ⟨⟨fun _ => ?_, fun _ => rfl⟩, fun h1 h2 => absurd ⟨h1, h2⟩ h⟩
    by_cases h0 : ats = []
    · exact Or.inl h0
    · exact Or.inr (fun hc => h ⟨h0, hc⟩)

/-- Witness of C29: `At(dt1, dt2)` of the test, 2019-01-01 and 2019-01-02, is built, and
`At()` and `At(2019-01-01T00:00:00.001Z, 2019-01-01T00:00:00Z)` panic. -/
theorem C29_witness :
    (At [date, { date with day := 2 }] = .panic ↔
      ([date, { date with day := 2 }] = [] ∨
        ¬ List.Chain (fun a b => a.Before b = true) Time.zero [date, { date with day := 2 }])) ∧
    At [date, { date with day := 2 }] =
      .ok { ats := [date, { date with day := 2 }], crn := none, crnI := none,
            followingIndex := -1 } ∧
    At [] = .panic ∧ At [{ date with nanosecond := 1000000 }, date] = .panic :=
  ⟨(C29_At [date, { date with day := 2 }]).1, by decide, by decide, by decide⟩

/-- A call of `Next` on a schedule of literal instants with no cron, after `k` calls. -/
theorem Next_At (ats : List Time) (k : Nat) :
    Schedule.Next (Schedule.mk ats none none (((min k ats.length : Nat) : Int) - 1)) =
      .ok (Schedule.mk ats none none (((min (k + 1) ats.length : Nat) : Int) - 1),
           if k < ats.length then none else some Error.OutdatedError) := by
  unfold Schedule.Next
  simp only
  by_cases hk : k < ats.length
  · rw [if_pos (by omega), if_pos hk]
    congr 3
    omega
  · rw [if_neg (by omega), if_neg hk]
    congr 3
    omega

/-- The state of a schedule of literal instants with no cron after `k` calls of `Next`. -/
theorem after_At (ats : List Time) : ∀ k : Nat,
    Schedule.after (Schedule.mk ats none none (-1)) k =
      .ok (Schedule.mk ats none none (((min k ats.length : Nat) : Int) - 1))
  | 0 => by simp [Schedule.after]
  | k + 1 => by
    unfold Schedule.after
    rw [after_At ats k, Res.ok_bind, Next_At ats k]
    rfl

/-- C30 (`Schedule.Next` over literal instants): for every schedule built by `At` over
`n ≥ 1` instants with no cron attached, `Following()` is the zero instant before the first
`Next`; the call of `Next` after `k` earlier calls returns nil when `k < n` and leaves
`Following()` equal to the instant of index `k`, the `(k+1)`-th; every later call (`k ≥ n`)
returns `OutdatedError` and leaves `Following()` equal to the last, `n`-th, instant. -/
theorem C30_Schedule_Next (ats : List Time) (sch : Schedule) (h : At ats = .ok sch) :
    sch.Following = .ok Time.zero ∧
    ∀ k : Nat, ∃ s s2 t, sch.after k = .ok s ∧
      s.Next = .ok (s2, if k < ats.length then none else some Error.OutdatedError) ∧
      ats.get? (min k (ats.length - 1)) = some t ∧ s2.Following = .ok t := by
  have hne : ats ≠ [] := by
    intro hc
    subst hc
    cases h
  rw [At_eq] at h
  by_cases hc : ats ≠ [] ∧ List.Chain (fun a b => a.Before b = true) Time.zero ats
  · rw [if_pos hc] at h
    simp only [Res.ok.injEq] at h
    subst h
    have hpos : 0 < ats.length := List.length_pos.2 hne
    refine ⟨by simp [Schedule.Following], ?_⟩
    intro k
    have hi : min k (ats.length - 1) < ats.length := by omega
    refine ⟨_, _, ats.get ⟨min k (ats.length - 1), hi⟩, after_At ats k, Next_At ats k,
      List.get?_eq_get hi, ?_⟩
    unfold Schedule.Following Schedule.atIndex
    simp only
    rw [if_neg (by omega), if_pos (by omega), if_neg (by omega)]
    have e : (((min (k + 1) ats.length : Nat) : Int) - 1).toNat = min k (ats.length - 1) := by
      omega
    rw [e, List.get?_eq_get hi]
  · rw [if_neg hc] at h
    cases h

/-- Witness of C30: the schedule `At(2019-01-01, 2019-01-02)` of the test. -/
theorem C30_witness :
    (Schedule.mk [date, { date with day := 2 }] none none (-1)).Following = .ok Time.zero ∧
    ∀ k : Nat, ∃ s s2 t,
      (Schedule.mk [date, { date with day := 2 }] none none (-1)).after k = .ok s ∧
      s.Next = .ok (s2, if k < [date, { date with day := 2 }].length then none
                        else some Error.OutdatedError) ∧
      [date, { date with day := 2 }].get?
          (min k ([date, { date with day := 2 }].length - 1)) = some t ∧
      s2.Following = .ok t :=
  C30_Schedule_Next [date, { date with day := 2 }]
    (Schedule.mk [date, { date with day := 2 }] none none (-1)) (by decide)

/-- Every sequence of updates with months in 1..12 keeps a coherent cache coherent and
leaves it at the month and year last asked for. -/
theorem updateAll_coherent : ∀ (us : List CalendarUpdate) (my : AttunedMonth),
    my.Coherent → (∀ u ∈ us, 1 ≤ u.mon ∧ u.mon ≤ 12) →
    ∃ am, my.updateAll us = .ok am ∧ am.Coherent ∧
      (am.mon, am.y) = currentMonthYear (my.mon, my.y) us
  | [], my, h, _ => ⟨my, rfl, h, rfl⟩
  | u :: us, my, h, hus => by
    have hu := hus u (List.mem_cons_self _ _)
    have hrest : ∀ v ∈ us, 1 ≤ v.mon ∧ v.mon ≤ 12 :=
      fun v hv => hus v (List.mem_cons_of_mem _ hv)
    unfold AttunedMonth.updateAll
    cases u with
    | month mon =>
      simp only [CalendarUpdate.mon] at hu
      simp only [AttunedMonth.update, h.UpdateMonth_eq mon hu.1 hu.2, Res.ok_bind]
      obtain ⟨am, e, hco, hcur⟩ :=
        updateAll_coherent us (amOf mon my.y) (Coherent_amOf mon my.y hu.1 hu.2) hrest
      exact ⟨am, e, hco, hcur⟩
    | monthYear mon y =>
      simp only [CalendarUpdate.mon] at hu
      simp only [AttunedMonth.update, h.UpdateMonthYear_eq mon y hu.1 hu.2, Res.ok_bind]
      obtain ⟨am, e, hco, hcur⟩ :=
        updateAll_coherent us (amOf mon y) (Coherent_amOf mon y hu.1 hu.2) hrest
      exact ⟨am, e, hco, hcur⟩

/-- Counterexample to C32: `NewAttunedMonth(0, 0)` finds the month and year of the zero
value already held and returns it untouched, with a leap flag that was never computed; after
`UpdateMonth(2)` the cache reports 28 days for February of the year 0, while a fresh
`NewAttunedMonth(2, 0)` reports 29 and the leap flag set. -/
theorem C32_counterexample :
    NewAttunedMonth 0 0 =
      .ok { y := 0, mon := 0, unixYear := 0, unixMonth := 0, isLeap := false, lastDay := 0 } ∧
    (do let my ← NewAttunedMonth 0 0
        let my ← my.updateAll [.month 2]
        pure (my.mon, my.y, my.isLeap, my.MonthLastDay)) = .ok (2, 0, false, 28) ∧
    (do let my ← NewAttunedMonth 2 0
        pure (my.mon, my.y, my.isLeap, my.MonthLastDay)) = .ok (2, 0, true, 29) := by
  refine ⟨?_, ?_, ?_⟩ <;> decide

/-- C32, amended (calendar cache coherence): for every `AttunedMonth` created by
`NewAttunedMonth` for a month in 1..12 and every sequence of `UpdateMonth` / `UpdateMonthYear` calls with
months in 1..12, the calls return, the cache is at the month and year last asked for, and it
is the value of a fresh `NewAttunedMonth(current month, current year)`, so its leap flag,
last day and weekday mapping are those of the fresh one; an update to the month and year
already held changes nothing. -/
theorem C32_cache_coherent (m0 y0 : Int) (us : List CalendarUpdate) (hm1 : 1 ≤ m0)
    (hm2 : m0 ≤ 12) (hus : ∀ u ∈ us, 1 ≤ u.mon ∧ u.mon ≤ 12) :
    ∃ am fresh, (do let my ← NewAttunedMonth m0 y0
                    my.updateAll us) = .ok am ∧
      (am.mon, am.y) = currentMonthYear (m0, y0) us ∧
      NewAttunedMonth am.mon am.y = .ok fresh ∧ am = fresh ∧
      am.isLeap = fresh.isLeap ∧ am.MonthLastDay = fresh.MonthLastDay ∧
      (∀ d, am.WeekDay d = fresh.WeekDay d) ∧
      am.UpdateMonthYear am.mon am.y = .ok am ∧ am.UpdateMonth am.mon = .ok am := by
  rw [NewAttunedMonth_eq m0 y0 hm1 hm2, Res.ok_bind]
  obtain ⟨am, e, hco, hcur⟩ :=
    updateAll_coherent us (amOf m0 y0) (Coherent_amOf m0 y0 hm1 hm2) hus
  refine ⟨am, am, e, hcur, hco.2.2, rfl, rfl, rfl, fun _ => rfl, ?_, ?_⟩
  · unfold AttunedMonth.UpdateMonthYear
    rw [if_neg (by simp)]
    rfl
  · unfold AttunedMonth.UpdateMonth
    rw [if_neg (by simp)]
    rfl

/-- Witness of C32: the cache of January 2019 after `UpdateMonth(2)`,
`UpdateMonthYear(2, 2020)` and `UpdateMonth(2)` is February 2020, with 29 days. -/
theorem C32_witness :
    (∃ am fresh, (do let my ← NewAttunedMonth 1 2019
                     my.updateAll [.month 2, .monthYear 2 2020, .month 2]) = .ok am ∧
      (am.mon, am.y) = currentMonthYear (1, 2019) [.month 2, .monthYear 2 2020, .month 2] ∧
      NewAttunedMonth am.mon am.y = .ok fresh ∧ am = fresh ∧
      am.isLeap = fresh.isLeap ∧ am.MonthLastDay = fresh.MonthLastDay ∧
      (∀ d, am.WeekDay d = fresh.WeekDay d) ∧
      am.UpdateMonthYear am.mon am.y = .ok am ∧ am.UpdateMonth am.mon = .ok am) ∧
    (do let my ← NewAttunedMonth 1 2019
        let my ← my.updateAll [.month 2, .monthYear 2 2020, .month 2]
        pure (my.mon, my.y, my.isLeap, my.MonthLastDay)) = .ok (2, 2020, true, 29) :=
  ⟨C32_cache_coherent 1 2019 [.month 2, .monthYear 2 2020, .month 2] (by decide) (by decide)
    (by decide), by decide⟩

/-- Counterexample to C33: `Between(-10, math.MaxInt64).Every(3).Next(math.MaxInt64 - 1,
false)` returns `math.MinInt64 + 1`, where the sum overflows, and `Contains` of that value
is false. -/
theorem C33_counterexample :
    (do let e ← Between (-10) 9223372036854775807
        let b ← e.Every 3
        let (v, _) ← b.Next 9223372036854775806 false
        let c ← b.Contains v
        pure (v, c)) = .ok (-9223372036854775807, false) := by
  decide

/-- C33, amended (`Next` returns a member, without overflow): for every
`Between(lo,hi).Every(step)` of `int` values for which neither `hi − lo` nor `hi + step`
overflows, and every non-empty `List`, and for every `from` and `inc`, `Next(from, inc)`
returns, and the value it returns satisfies `Contains` of the same expression. -/
theorem C33_Next_member (lo hi step : Int) (b : BetweenExpression) (values : List Int)
    (hb : (do let e ← Between lo hi; e.Every step) = .ok b) (hex : b.Exact)
    (hne : values ≠ []) (frm : Int) (inc : Bool) :
    (∃ v last, b.Next frm inc = .ok (v, last) ∧ b.Contains v = .ok true) ∧
    (∃ l v last, ListOf values = .ok l ∧ l.Next frm inc = .ok (v, last) ∧
      l.Contains v = .ok true) := by
  obtain ⟨hxy, hs, rfl⟩ := Between_Every_ok lo hi step b hb
  refine ⟨?_, ?_⟩
  · obtain ⟨v, last, hn, hv, _⟩ :=
      (Steps_between lo hi { x := lo, y := hi, step := step }
        ⟨le_refl _, hxy, le_refl _, hs⟩ hex).2 frm inc
    simp only [next] at hn
    simp only [Expression.admits, decide_eq_true_eq] at hv
    exact ⟨v, last, hn, hv⟩
  · obtain ⟨hl, hne2, hsort, _⟩ := ListOf_ok values hne
    obtain ⟨v, last, hn, hv, _⟩ :=
      List_Next_spec { values := values.insertionSort (· ≤ ·) } hne2 hsort frm inc
    exact ⟨_, v, last, hl, hn,
      (List_Contains_iff { values := values.insertionSort (· ≤ ·) } hne2 hsort v).2 hv⟩

/-- Witness of C33: `Between(0,10).Every(3)` and `List([9,0,6,3,10])` at `from = 4`. -/
theorem C33_witness :
    (∃ v last, BetweenExpression.Next { x := 0, y := 10, step := 3 } 4 false = .ok (v, last) ∧
      BetweenExpression.Contains { x := 0, y := 10, step := 3 } v = .ok true) ∧
    (∃ l v last, ListOf [9, 0, 6, 3, 10] = .ok l ∧ l.Next 4 false = .ok (v, last) ∧
      l.Contains v = .ok true) :=
  C33_Next_member 0 10 3 { x := 0, y := 10, step := 3 } [9, 0, 6, 3, 10] (by decide)
    (by decide) (by decide) 4 false

/-- A day search that returned within a budget returns the same with one more
iteration allowed. -/
theorem nextDLoop_succ (fromD fromY : Int) : ∀ (fuel : Nat) (c : CronInstance)
    (inc reset : Bool) (r : Bool × CronInstance),
    CronInstance.nextDLoop fromD fromY fuel c inc reset = .ok r →
    CronInstance.nextDLoop fromD fromY (fuel + 1) c inc reset = .ok r := by
  intro fuel
  induction fuel with
  | zero => intro c inc reset r h; cases h
  | succ n ih =>
    intro c inc reset r h
    unfold CronInstance.nextDLoop at h ⊢
    simp only [Res.bind_ok_iff, Prod.exists] at h ⊢
    obtain ⟨d, last, invalid, hd, h⟩ := h
    refine ⟨d, last, invalid, hd, ?_⟩
    split at h
    · rename_i hil
      rw [if_pos hil]
      simp only [Res.bind_ok_iff, Prod.exists] at h ⊢
      obtain ⟨r2, c2, h2, h⟩ := h
      refine ⟨r2, c2, h2, ?_⟩
      split at h
      · rename_i hfar
        rw [if_pos hfar]
        exact h
      · rename_i hfar
        rw [if_neg hfar]
        exact ih _ _ _ _ h
    · rename_i hil
      rw [if_neg hil]
      split at h
      · rename_i hinv
        rw [if_pos hinv]
        exact ih _ _ _ _ h
      · rename_i hinv
        rw [if_neg hinv]
        exact h

/-- A day search that returned within a budget returns the same within any larger one. -/
theorem nextDLoop_mono (fromD fromY : Int) (fuel : Nat) (c : CronInstance)
    (inc reset : Bool) (r : Bool × CronInstance)
    (h : CronInstance.nextDLoop fromD fromY fuel c inc reset = .ok r) :
    ∀ more : Nat, CronInstance.nextDLoop fromD fromY (fuel + more) c inc reset = .ok r
  | 0 => h
  | more + 1 => nextDLoop_succ fromD fromY (fuel + more) c inc reset r
      (nextDLoop_mono fromD fromY fuel c inc reset r h more)

set_option maxRecDepth 100000 in
/-- The day search of `Cron().OnDays(BetweenDays(1, 31).Every(math.MaxInt64))
.OnWeekdays(time.Monday)` on Tuesday 2019-01-01 repeats two iterations for ever: from day 1
the interval returns `1 + math.MaxInt64`, which wraps around to `math.MinInt64`, an invalid
day that is not the last; from `math.MinInt64` it returns day 1, which is not a Monday. -/
theorem hugeStep_loop (fromD fromY : Int) : ∀ (fuel : Nat) (reset : Bool),
    CronInstance.nextDLoop fromD fromY fuel (cursorAt cronHugeStepMonday) false reset
      = .outOfFuel ∧
    CronInstance.nextDLoop fromD fromY fuel
      { cursorAt cronHugeStepMonday with d := -9223372036854775808 } false reset
      = .outOfFuel := by
  intro fuel
  induction fuel with
  | zero => intro reset; exact ⟨rfl, rfl⟩
  | succ n ih =>
    intro reset
    have e1 : (cursorAt cronHugeStepMonday).nextDay (cursorAt cronHugeStepMonday).d false =
        .ok (-9223372036854775808, false, true) := by decide
    have e2 : CronInstance.nextDay
        { cursorAt cronHugeStepMonday with d := -9223372036854775808 }
        (-9223372036854775808) false = .ok (1, false, true) := by decide
    have e3 : ({ cursorAt cronHugeStepMonday with d := 1 } : CronInstance) =
        cursorAt cronHugeStepMonday := by decide
    refine ⟨?_, ?_⟩
    · unfold CronInstance.nextDLoop
      simp only [e1, Res.ok_bind, Bool.false_eq_true, and_false, if_false, if_true]
      exact (ih reset).2
    · unfold CronInstance.nextDLoop
      simp only [e2, Res.ok_bind, Bool.false_eq_true, and_false, if_false, if_true, e3]
      exact (ih reset).1

set_option maxRecDepth 100000 in
/-- The day search of that cursor never returns, whatever the budget and the flag. -/
theorem hugeStep_nextDWith (fuel : Nat) (inc : Bool) :
    (cursorAt cronHugeStepMonday).nextDWith fuel inc = .outOfFuel := by
  have e : (cursorAt cronHugeStepMonday).nextMonY true =
      .ok (false, cursorAt cronHugeStepMonday) := by decide
  unfold CronInstance.nextDWith
  simp only [e, Res.ok_bind, Bool.false_eq_true, if_false]
  cases inc with
  | false => exact (hugeStep_loop _ _ fuel false).1
  | true =>
    cases fuel with
    | zero => rfl
    | succ n =>
      have e1 : (cursorAt cronHugeStepMonday).nextDay (cursorAt cronHugeStepMonday).d true =
          .ok (1, false, true) := by decide
      have e3 : ({ cursorAt cronHugeStepMonday with d := 1 } : CronInstance) =
          cursorAt cronHugeStepMonday := by decide
      unfold CronInstance.nextDLoop
      simp only [e1, Res.ok_bind, Bool.false_eq_true, and_false, if_false, if_true, e3]
      exact (hugeStep_loop _ _ n false).1

theorem nextD_eq_nextDWith (c : CronInstance) (inc : Bool) :
    c.nextD inc = c.nextDWith nextDBudget inc := rfl

/-- A day search that does not return leaves the hour level without a result. -/
theorem nextH_outOfFuel (c : CronInstance) (inc : Bool) (v : Int) (l : Bool)
    (hn : next c.crn.hours c.h inc = .ok (v, l))
    (hD : ∀ b, CronInstance.nextD { c with h := v } b = .outOfFuel) :
    c.nextH inc = .outOfFuel := by
  unfold CronInstance.nextH
  simp only [hn, Res.ok_bind, hD]
  rfl

/-- An hour level that does not return leaves the minute level without a result. -/
theorem nextMin_outOfFuel (c : CronInstance) (inc : Bool) (v : Int) (l : Bool)
    (hn : next c.crn.minutes c.min inc = .ok (v, l))
    (hD : ∀ b, CronInstance.nextH { c with min := v } b = .outOfFuel) :
    c.nextMin inc = .outOfFuel := by
  unfold CronInstance.nextMin
  simp only [hn, Res.ok_bind, hD]
  rfl

/-- A minute level that does not return leaves the second level without a result. -/
theorem nextS_outOfFuel (c : CronInstance) (inc : Bool) (v : Int) (l : Bool)
    (hn : next c.crn.seconds c.s inc = .ok (v, l))
    (hD : ∀ b, CronInstance.nextMin { c with s := v } b = .outOfFuel) :
    c.nextS inc = .outOfFuel := by
  unfold CronInstance.nextS
  simp only [hn, Res.ok_bind, hD]
  rfl

/-- A second level that does not return leaves `Next` without a result. -/
theorem Next_outOfFuel (c : CronInstance) (v : Int) (l : Bool)
    (hn : next c.crn.milliseconds c.ms false = .ok (v, l))
    (hD : ∀ b, CronInstance.nextS { c with ms := v } b = .outOfFuel) :
    c.Next = .outOfFuel := by
  unfold CronInstance.Next CronInstance.nextMs
  simp only [hn, Res.ok_bind, hD]
  rfl

set_option maxRecDepth 100000 in
/-- The first `Next` of the cursor of the huge step does not return. -/
theorem hugeStep_Next : (cursorAt cronHugeStepMonday).Next = .outOfFuel := by
  have hD : ∀ inc, (cursorAt cronHugeStepMonday).nextD inc = .outOfFuel := by
    intro inc
    rw [nextD_eq_nextDWith]
    exact hugeStep_nextDWith nextDBudget inc
  have s1 : ({ cursorAt cronHugeStepMonday with ms := 0 } : CronInstance) =
      cursorAt cronHugeStepMonday := by decide
  have s2 : ({ cursorAt cronHugeStepMonday with s := 0 } : CronInstance) =
      cursorAt cronHugeStepMonday := by decide
  have s3 : ({ cursorAt cronHugeStepMonday with min := 0 } : CronInstance) =
      cursorAt cronHugeStepMonday := by decide
  have s4 : ({ cursorAt cronHugeStepMonday with h := 0 } : CronInstance) =
      cursorAt cronHugeStepMonday := by decide
  have hH : ∀ inc, (cursorAt cronHugeStepMonday).nextH inc = .outOfFuel := fun inc =>
    nextH_outOfFuel _ inc 0 true (by cases inc <;> decide) (by rw [s4]; exact hD)
  have hMin : ∀ inc, (cursorAt cronHugeStepMonday).nextMin inc = .outOfFuel := fun inc =>
    nextMin_outOfFuel _ inc 0 true (by cases inc <;> decide) (by rw [s3]; exact hH)
  have hS : ∀ inc, (cursorAt cronHugeStepMonday).nextS inc = .outOfFuel := fun inc =>
    nextS_outOfFuel _ inc 0 true (by cases inc <;> decide) (by rw [s2]; exact hMin)
  exact Next_outOfFuel _ 0 true (by decide) (by rw [s1]; exact hS)

set_option maxRecDepth 100000 in
/-- Counterexample to C31: the expression
`Cron().OnDays(BetweenDays(1, 31).Every(math.MaxInt64)).OnWeekdays(time.Monday)` is built
through the builder with in-range values, and on its cursor created at
2019-01-01T00:00:00Z, a Tuesday, the day-search loop of `nextD` does not stop within any
number of iterations, so the first `Next` does not return. -/
theorem C31_counterexample :
    (∃ crn, cronHugeStepMonday = .ok crn ∧
      crn.NewInstance date = .ok (cursorAt cronHugeStepMonday)) ∧
    (cursorAt cronHugeStepMonday).crn.days =
      .between { x := 1, y := 31, step := 9223372036854775807 } ∧
    (∀ (fuel : Nat) (inc : Bool),
      (cursorAt cronHugeStepMonday).nextDWith fuel inc = .outOfFuel) ∧
    (cursorAt cronHugeStepMonday).Next = .outOfFuel :=
  ⟨⟨(cronHugeStepMonday.getD Cron), (by decide), (by decide)⟩, (by decide),
    hugeStep_nextDWith, hugeStep_Next⟩

/-- C31, amended (termination of `Next` for steps of ordinary size): for every expression
built through the builder with in-range values and steps that do not overflow the upper
bound (`hi + step ≤ math.MaxInt64`), and every cursor state of it (the calendar cache being
that of a month in 1..12), a call of `CronInstance.Next` returns; the day-search loop of
`nextD` stops within `nextDBudget` iterations, so that `nextD` returns the same with any
larger budget, and it ends either with the terminal error recorded or with a day that exists
in the month and satisfies the day, weekday, month and year constraints. -/
theorem C31_Next_terminates (c : CronInstance) (hwf : c.crn.WF) (hco : c.am.Coherent) :
    (∃ c2 r, c.Next = .ok (c2, r)) ∧
    ∀ inc, ∃ b c2, c.nextD inc = .ok (b, c2) ∧
      (∀ fuel, nextDBudget ≤ fuel → c.nextDWith fuel inc = .ok (b, c2)) ∧
      (c2.err = some Error.CronOutdatedInvalidError ∨
        (c2.err = c.err ∧ DayOK c.crn (dayKey c2))) := by
  refine ⟨?_, ?_⟩
  · obtain ⟨b, c1, _, _, _, _, _, _, hN⟩ := Next_cases c.crn hwf c rfl hco
    rw [hN]
    exact ⟨_, _, rfl⟩
  · intro inc
    obtain ⟨b, c2, e, _, _, _, _, hcase⟩ :=
      nextD_ok c.crn (WF_Steps 1 31 _ hwf.days (by decide)) (WFMonth_Steps _ hwf.months)
        (WF_Steps 1970 200000000 _ hwf.years (by decide)) (WFWeekday_total c.crn hwf.weekdays)
        c inc rfl hco
    refine ⟨b, c2, e, ?_, ?_⟩
    · intro fuel hfuel
      obtain ⟨more, rfl⟩ := Nat.exists_eq_add_of_le hfuel
      have e2 : c.nextDWith nextDBudget inc = .ok (b, c2) := e
      unfold CronInstance.nextDWith at e2 ⊢
      simp only [Res.bind_ok_iff, Prod.exists] at e2 ⊢
      obtain ⟨r, c1, h1, h2⟩ := e2
      refine ⟨r, c1, h1, ?_⟩
      split at h2
      · rename_i hr
        rw [if_pos hr]
        exact nextDLoop_mono _ _ _ _ _ _ _ h2 more
      · rename_i hr
        rw [if_neg hr]
        exact nextDLoop_mono _ _ _ _ _ _ _ h2 more
    · rcases hcase with ⟨he, _⟩ | ⟨he, hv, _⟩ | ⟨he, hv, _⟩
      · exact Or.inl he
      · exact Or.inr ⟨he, hv⟩
      · exact Or.inr ⟨he, hv⟩

set_option maxRecDepth 100000 in
/-- Witness of C31: the cursor of `Cron().OnMinutes(23).OnHours(Between(0,20).Every(2))`
created at 2019-01-01T00:00:00Z. -/
theorem C31_witness :
    (∃ c2 r, (cursorAt cronStepped).Next = .ok (c2, r)) ∧
    ∀ inc, ∃ b c2, (cursorAt cronStepped).nextD inc = .ok (b, c2) ∧
      (∀ fuel, nextDBudget ≤ fuel → (cursorAt cronStepped).nextDWith fuel inc = .ok (b, c2)) ∧
      (c2.err = some Error.CronOutdatedInvalidError ∨
        (c2.err = (cursorAt cronStepped).err ∧ DayOK (cursorAt cronStepped).crn (dayKey c2))) :=
  C31_Next_terminates (cursorAt cronStepped) (by decide)
    ⟨by decide, by decide, by decide⟩

theorem init_handleMillisecond (e : CronExpression) :
    e.handleMillisecond.initialized = e.initialized := by
  unfold CronExpression.handleMillisecond
  split <;> rfl

theorem init_handleSecond (e : CronExpression) :
    e.handleSecond.initialized = e.initialized := by
  unfold CronExpression.handleSecond
  rw [init_handleMillisecond]
  split <;> rfl

theorem init_handleMinute (e : CronExpression) :
    e.handleMinute.initialized = e.initialized := by
  unfold CronExpression.handleMinute
  rw [init_handleSecond]
  split <;> rfl

theorem init_handleHour (e : CronExpression) :
    e.handleHour.initialized = e.initialized := by
  unfold CronExpression.handleHour
  rw [init_handleMinute]
  split <;> rfl

theorem init_handleDay (e : CronExpression) :
    e.handleDay.initialized = e.initialized := by
  unfold CronExpression.handleDay
  rw [init_handleHour]
  split <;> rfl

theorem init_handleMonth (e : CronExpression) :
    e.handleMonth.initialized = e.initialized := by
  unfold CronExpression.handleMonth
  rw [init_handleDay]
  split <;> rfl

/-- What a setter that returned leaves: the given constraint in its field, the pinned
minimum in the unset finer fields, the flag reset. -/
theorem setter_spec (X : Field) (crn crn2 : CronExpression) (exp : Expression)
    (h : X.setter crn exp = .ok crn2) :
    crn2.initialized = (if crn.initialized = 1 then 0 else crn.initialized) ∧
    ∀ F, crn2.get F =
      if F = X then exp
      else if F ∈ X.finer ∧ crn.get F = .nil then .int F.minimum
      else crn.get F := by
  have hreset : ∀ e : CronExpression,
      e.reset.initialized = (if e.initialized = 1 then 0 else e.initialized) := by
    intro e
    unfold CronExpression.reset
    split <;> rfl
  refine ⟨?_, ?_⟩
  · cases X <;>
      simp only [Field.setter, CronExpression.OnMilliseconds, CronExpression.OnSeconds,
        CronExpression.OnMinutes, CronExpression.OnHours, CronExpression.OnDays,
        CronExpression.OnWeekdays, CronExpression.OnMonths, CronExpression.OnYears,
        Res.bind_ok_iff, Res.pure_eq, Res.ok.injEq] at h <;>
      obtain ⟨_, _, h⟩ := h <;> subst h <;> rw [hreset] <;>
      simp only [init_handleMillisecond, init_handleSecond, init_handleMinute,
        init_handleHour, init_handleDay, init_handleMonth]
  · intro F
    cases X <;>
      simp only [Field.setter, CronExpression.OnMilliseconds, CronExpression.OnSeconds,
        CronExpression.OnMinutes, CronExpression.OnHours, CronExpression.OnDays,
        CronExpression.OnWeekdays, CronExpression.OnMonths, CronExpression.OnYears,
        Res.bind_ok_iff, Res.pure_eq, Res.ok.injEq] at h <;>
      obtain ⟨_, _, h⟩ := h <;> subst h <;>
      simp only [get_reset, get_handleMillisecond, get_handleSecond, get_handleMinute,
        get_handleHour, get_handleDay, get_handleMonth, Field.finer] <;>
      cases F <;> simp [CronExpression.get, Field.minimum]

/-- Whether a setter returns depends on the constraint given, not on the builder state. -/
theorem setter_accepts (X : Field) (b b2 c : CronExpression) (exp : Expression)
    (h : X.setter b exp = .ok c) : ∃ c2, X.setter b2 exp = .ok c2 := by
  cases X <;>
    simp only [Field.setter, CronExpression.OnMilliseconds, CronExpression.OnSeconds,
      CronExpression.OnMinutes, CronExpression.OnHours, CronExpression.OnDays,
      CronExpression.OnWeekdays, CronExpression.OnMonths, CronExpression.OnYears,
      Res.bind_ok_iff, Res.pure_eq, Res.ok.injEq] at h ⊢ <;>
    obtain ⟨u, hu, _⟩ := h <;> exact ⟨_, u, hu, rfl⟩

/-- A builder state reached by setters alone is unresolved. -/
theorem Built_initialized (b : CronExpression) (h : Built b) : b.initialized = 0 := by
  induction h with
  | cron => rfl
  | set X exp _ hs ih =>
    rw [(setter_spec X _ _ exp hs).1, ih]
    rfl

theorem fullRange_ne_nil (F : Field) : F.fullRange ≠ .nil := by
  unfold Field.fullRange
  intro h
  cases h

set_option maxRecDepth 100000 in
/-- Counterexample to C34: from `Cron()`, resolving, then `OnHours(5)`, then resolving again
leaves the minute at its full range 0..59, while `OnHours(5)` followed by one resolution
leaves the minute pinned to 0. -/
theorem C34_counterexample :
    (do let b1 ← Cron.initialize
        let b2 ← b1.OnHours (.int 5)
        let r1 ← b2.initialize
        pure r1.minutes) = .ok (.between { x := 0, y := 59, step := 1 }) ∧
    (do let c ← Cron.OnHours (.int 5)
        let r2 ← c.initialize
        pure r2.minutes) = .ok (.int 0) := by
  refine ⟨?_, ?_⟩ <;> decide

/-- C34, amended (resolution and later building): for every builder state `b` reachable
from `Cron()` and every setter of a field `X` that accepts its argument, both routes return:
resolving `b`, applying the setter and resolving again, and applying the setter to `b` and
resolving once.  They yield the same constraint for every field except the fields from the
second to the month that are finer than `X` and unset in `b`: such a field ends as its
full-range default on the first route and pinned to its fixed minimum on the second.  So
the routes agree exactly when no such field exists. -/
theorem C34_resolve_then_build (b c : CronExpression) (X : Field) (exp : Expression)
    (hb : Built b) (hs : X.setter b exp = .ok c) :
    ∃ r1 r2, (do let b1 ← b.initialize
                 let b2 ← X.setter b1 exp
                 b2.initialize) = .ok r1 ∧
      c.initialize = .ok r2 ∧
      ∀ F, (F ∈ X.finer ∧ F ≠ .millisecond ∧ b.get F = .nil →
              r1.get F = F.fullRange ∧ r2.get F = .int F.minimum) ∧
           (¬ (F ∈ X.finer ∧ F ≠ .millisecond ∧ b.get F = .nil) → r1.get F = r2.get F) := by
  have h0 := Built_initialized b hb
  obtain ⟨b1, e1, i1, g1⟩ := initialize_get b h0
  obtain ⟨b2, e2⟩ := setter_accepts X b b1 c exp hs
  obtain ⟨i2, g2⟩ := setter_spec X b1 b2 exp e2
  rw [i1] at i2
  obtain ⟨r1, e3, _, g3⟩ := initialize_get b2 (by rw [i2]; rfl)
  obtain ⟨ic, gc⟩ := setter_spec X b c exp hs
  rw [h0] at ic
  obtain ⟨r2, e4, _, g4⟩ := initialize_get c (by rw [ic]; rfl)
  refine ⟨r1, r2, by simp only [e1, e2, e3, Res.ok_bind], e4, ?_⟩
  intro F
  rw [g3, g2, g1, g4, gc]
  have hfr := fullRange_ne_nil F
  by_cases hbn : b.get F = .nil <;> by_cases hen : exp = .nil <;>
    cases X <;> cases F <;>
    simp [Field.finer, hbn, hen, hfr, Field.minimum]

set_option maxRecDepth 100000 in
/-- Witness of the amended C34: `OnHours(5)` on `Cron()`, where the second and the minute
are finer than the hour and unset. -/
theorem C34_witness :
    ∃ r1 r2, (do let b1 ← Cron.initialize
                 let b2 ← Field.hour.setter b1 (.int 5)
                 b2.initialize) = .ok r1 ∧
      CronExpression.initialize ((Cron.OnHours (.int 5)).getD Cron) = .ok r2 ∧
      ∀ F, (F ∈ Field.hour.finer ∧ F ≠ .millisecond ∧ Cron.get F = .nil →
              r1.get F = F.fullRange ∧ r2.get F = .int F.minimum) ∧
           (¬ (F ∈ Field.hour.finer ∧ F ≠ .millisecond ∧ Cron.get F = .nil) →
              r1.get F = r2.get F) :=
  C34_resolve_then_build Cron ((Cron.OnHours (.int 5)).getD Cron) .hour (.int 5) Built.cron
    (by decide)

end Schedule
